import Mathlib

/-!
# Verification of the go-leveldb-from-scratch LSM storage engine

This file gives a shallow embedding, in Lean 4, of the core of the
go-leveldb-from-scratch key-value store (internal keys and their comparator,
the write-ahead log with its CRC-32 checksums, the MemTable over a skiplist,
the SSTable writer and reader, and the store engine's put/get/delete/flush
and recovery paths), together with proofs and refutations of the stated
specification properties.

Conventions of the embedding:
* Go byte slices (`[]byte`, `string` used as byte container) are `List Nat`,
  with each element intended to be `< 256`; encoders produce genuine bytes.
  A Go `nil` slice used as a sentinel (the tombstone value) is `Option`'s
  `none`, a present slice `v` is `some v`.
* Go `uint64`/`uint32` arithmetic is `Nat` with explicit `% 2 ^ 64` /
  truncating little-endian encodings where the code truncates.
* Fallible operations return `Except String` or `Option` (with `none` for a
  Go panic or I/O error, as documented at each definition).
* File contents are byte lists; a missing file is `Option.none` at the point
  where the code checks `os.IsNotExist`.
-/

/-! ## Byte-sequence comparison (Go string comparison on byte strings) -/

/-- Go compares `string`s lexicographically byte by byte; this is the
three-valued form used to express `>` and `<` on user keys. -/
def bytesCmp : List Nat → List Nat → Int
  | [], [] => 0
  | [], _ :: _ => -1
  | _ :: _, [] => 1
  | a :: as, b :: bs => if a < b then -1 else if b < a then 1 else bytesCmp as bs

theorem bytesCmp_self (a : List Nat) : bytesCmp a a = 0 := by
  induction a with
  | nil => rfl
  | cons x xs ih => simp [bytesCmp, ih]

theorem bytesCmp_eq_zero {a b : List Nat} (h : bytesCmp a b = 0) : a = b := by
  induction a generalizing b with
  | nil => cases b with
    | nil => rfl
    | cons y ys => simp [bytesCmp] at h
  | cons x xs ih =>
    cases b with
    | nil => simp [bytesCmp] at h
    | cons y ys =>
      by_cases hxy : x < y
      · simp [bytesCmp, hxy] at h
      · by_cases hyx : y < x
        · simp [bytesCmp, hxy, hyx] at h
        · have hx : x = y := Nat.le_antisymm (Nat.not_lt.mp hyx) (Nat.not_lt.mp hxy)
          simp [bytesCmp, hxy, hyx] at h
          simp [hx, ih h]

theorem bytesCmp_cases (a b : List Nat) :
    bytesCmp a b = -1 ∨ bytesCmp a b = 0 ∨ bytesCmp a b = 1 := by
  induction a generalizing b with
  | nil => cases b <;> simp [bytesCmp]
  | cons x xs ih =>
    cases b with
    | nil => simp [bytesCmp]
    | cons y ys =>
      by_cases hxy : x < y
      · simp [bytesCmp, hxy]
      · by_cases hyx : y < x
        · simp [bytesCmp, hxy, hyx]
        · simpa [bytesCmp, hxy, hyx] using ih ys

theorem bytesCmp_antisymm (a b : List Nat) : bytesCmp b a = -bytesCmp a b := by
  induction a generalizing b with
  | nil => cases b <;> simp [bytesCmp]
  | cons x xs ih =>
    cases b with
    | nil => simp [bytesCmp]
    | cons y ys =>
      by_cases hxy : x < y
      · have hyx : ¬ y < x := Nat.lt_asymm hxy
        simp [bytesCmp, hxy, hyx]
      · by_cases hyx : y < x
        · simp [bytesCmp, hxy, hyx]
        · simp [bytesCmp, hxy, hyx, ih ys]

theorem bytesCmp_trans_neg {a b c : List Nat}
    (hab : bytesCmp a b = -1) (hbc : bytesCmp b c = -1) : bytesCmp a c = -1 := by
  induction a generalizing b c with
  | nil =>
    cases b with
    | nil => simp [bytesCmp] at hab
    | cons y ys => cases c with
      | nil => simp [bytesCmp] at hbc
      | cons z zs => rfl
  | cons x xs ih =>
    cases b with
    | nil => simp [bytesCmp] at hab
    | cons y ys =>
      cases c with
      | nil => simp [bytesCmp] at hbc
      | cons z zs =>
        by_cases hxy : x < y
        · by_cases hyz : y < z
          · simp [bytesCmp, Nat.lt_trans hxy hyz]
          · by_cases hzy : z < y
            · simp [bytesCmp, hyz, hzy] at hbc
            · have hyz2 : y = z := Nat.le_antisymm (Nat.not_lt.mp hzy) (Nat.not_lt.mp hyz)
              subst hyz2
              simp [bytesCmp, hxy]
        · by_cases hyx : y < x
          · simp [bytesCmp, hxy, hyx] at hab
          · have hxy2 : x = y := Nat.le_antisymm (Nat.not_lt.mp hyx) (Nat.not_lt.mp hxy)
            subst hxy2
            simp [bytesCmp, hxy] at hab
            by_cases hyz : x < z
            · simp [bytesCmp, hyz]
            · by_cases hzy : z < x
              · simp [bytesCmp, hyz, hzy] at hbc
              · have hxz : x = z := Nat.le_antisymm (Nat.not_lt.mp hzy) (Nat.not_lt.mp hyz)
                subst hxz
                simp [bytesCmp, hyz] at hbc ⊢
                exact ih hab hbc

/-! ## Internal keys and the comparator (`internal_key.go`) -/

/-- `OpType` in the source is a byte; `OpTypePut = 0`, `OpTypeDelete = 1`. -/
def OpTypePut : Nat := 0

/-- The tombstone op-type byte. -/
def OpTypeDelete : Nat := 1

/-- `InternalKey` combines the user key with versioning metadata
(`internal_key.go`): user key bytes, a `uint64` sequence number, and the
op-type byte. -/
structure InternalKey where
  userKey : List Nat
  seqNum : Nat
  type : Nat
deriving DecidableEq, Repr

/-- `internalKeyComparable.Compare`: user key ascending, then sequence number
descending (a higher sequence number compares smaller); the op-type does not
participate. Translated clause for clause from the source. -/
def ikCompare (k1 k2 : InternalKey) : Int :=
  if bytesCmp k1.userKey k2.userKey = 1 then 1
  else if bytesCmp k1.userKey k2.userKey = -1 then -1
  else if k1.seqNum > k2.seqNum then -1
  else if k1.seqNum < k2.seqNum then 1
  else 0

/-- Strict order induced by the comparator. -/
def ikLt (k1 k2 : InternalKey) : Prop := ikCompare k1 k2 = -1

instance : DecidablePred fun p : InternalKey × InternalKey => ikLt p.1 p.2 :=
  fun _ => by unfold ikLt; infer_instance

instance (k1 k2 : InternalKey) : Decidable (ikLt k1 k2) := by
  unfold ikLt; infer_instance

theorem ikCompare_self (k : InternalKey) : ikCompare k k = 0 := by
  simp [ikCompare, bytesCmp_self]

theorem ikCompare_cases (k1 k2 : InternalKey) :
    ikCompare k1 k2 = -1 ∨ ikCompare k1 k2 = 0 ∨ ikCompare k1 k2 = 1 := by
  unfold ikCompare
  rcases bytesCmp_cases k1.userKey k2.userKey with h | h | h <;>
    simp [h] <;> split <;> simp <;> split <;> simp <;> omega

theorem ikCompare_eq_zero {k1 k2 : InternalKey} (h : ikCompare k1 k2 = 0) :
    k1.userKey = k2.userKey ∧ k1.seqNum = k2.seqNum := by
  unfold ikCompare at h
  rcases bytesCmp_cases k1.userKey k2.userKey with hb | hb | hb
  · simp [hb] at h
  · refine ⟨bytesCmp_eq_zero hb, ?_⟩
    simp [hb] at h
    by_cases h1 : k1.seqNum > k2.seqNum
    · simp [h1] at h
    · by_cases h2 : k1.seqNum < k2.seqNum
      · simp [h1, h2] at h
      · omega
  · simp [hb] at h

theorem ikCompare_antisymm (k1 k2 : InternalKey) : ikCompare k2 k1 = -ikCompare k1 k2 := by
  unfold ikCompare
  rw [bytesCmp_antisymm k1.userKey k2.userKey]
  rcases bytesCmp_cases k1.userKey k2.userKey with hb | hb | hb <;> simp [hb]
  by_cases h1 : k1.seqNum > k2.seqNum
  · simp [h1, Nat.lt_asymm h1]
  · by_cases h2 : k1.seqNum < k2.seqNum
    · simp [h1, h2, Nat.lt_asymm h2]
    · simp [h1, h2, Nat.lt_asymm, Nat.not_lt.mpr (Nat.not_lt.mp h1), Nat.not_lt.mpr (Nat.not_lt.mp h2)]

/-- Characterisation of the strict comparator order. -/
theorem ikLt_iff (a b : InternalKey) :
    ikLt a b ↔ bytesCmp a.userKey b.userKey = -1 ∨
      (a.userKey = b.userKey ∧ b.seqNum < a.seqNum) := by
  unfold ikLt ikCompare
  rcases bytesCmp_cases a.userKey b.userKey with h | h | h
  · have hne : a.userKey ≠ b.userKey := by
      intro he
      rw [he, bytesCmp_self] at h
      simp at h
    simp [h, hne]
  · have he := bytesCmp_eq_zero h
    simp only [h]
    by_cases hs : b.seqNum < a.seqNum
    · simp [hs, he]
    · by_cases hs2 : a.seqNum < b.seqNum
      · simp [hs, hs2, he]
      · simp [hs, hs2, he]
  · have hne : a.userKey ≠ b.userKey := by
      intro he
      rw [he, bytesCmp_self] at h
      simp at h
    simp [h, hne]

theorem ikLt_trans {a b c : InternalKey} (hab : ikLt a b) (hbc : ikLt b c) : ikLt a c := by
  rw [ikLt_iff] at *
  rcases hab with h1 | ⟨h1, h1s⟩ <;> rcases hbc with h2 | ⟨h2, h2s⟩
  · exact Or.inl (bytesCmp_trans_neg h1 h2)
  · rw [← h2]
    exact Or.inl h1
  · rw [h1]
    exact Or.inl h2
  · exact Or.inr ⟨h1.trans h2, Nat.lt_trans h2s h1s⟩

theorem ikLt_irrefl (a : InternalKey) : ¬ ikLt a a := by
  unfold ikLt
  simp [ikCompare_self]

theorem ikLt_asymm {a b : InternalKey} (h : ikLt a b) : ¬ ikLt b a := by
  intro h2
  exact ikLt_irrefl a (ikLt_trans h h2)

/-- `ikCompare a b ≥ 0` says exactly `¬ ikLt a b`. -/
theorem ikGe_iff_not_lt (a b : InternalKey) : ikCompare a b ≥ 0 ↔ ¬ ikLt a b := by
  unfold ikLt
  rcases ikCompare_cases a b with h | h | h <;> simp [h]

/-- `ikCompare a b ≥ 0` is transitive: `a ≥ b ≥ c` gives `a ≥ c`. -/
theorem ikGe_trans {a b c : InternalKey}
    (hab : ikCompare a b ≥ 0) (hbc : ikCompare b c ≥ 0) : ikCompare a c ≥ 0 := by
  rw [ikGe_iff_not_lt] at *
  intro hca
  rcases ikCompare_cases a b with h1 | h1 | h1
  · exact hab h1
  · have he := ikCompare_eq_zero h1
    apply hbc
    rw [ikLt_iff] at hca ⊢
    rw [he.1, he.2] at hca
    exact hca
  · have hba : ikLt b a := by
      unfold ikLt
      rw [ikCompare_antisymm, h1]
    exact hbc (ikLt_trans hba hca)

/-! ## CRC-32/IEEE (`hash/crc32`, reflected polynomial 0xEDB88320)

`crc32.ChecksumIEEE` as computed by the Go standard library: state starts at
`0xFFFFFFFF`; each byte is xor-ed into the state and the state is shifted
eight times through the reflected polynomial; the final state is inverted. -/

/-- The reflected CRC-32/IEEE polynomial. -/
def crcPoly : Nat := 0xEDB88320

/-- One bit-step of the reflected CRC-32 computation. -/
def crcShift (s : Nat) : Nat := (s >>> 1) ^^^ (if s.testBit 0 then crcPoly else 0)

/-- Absorb one input byte: xor it into the state, then eight bit-steps.
A Go `byte` is always `< 256`; the `% 256` records that the hardware xor
only ever sees the low eight bits of the input byte. -/
def crcByteStep (s b : Nat) : Nat := crcShift^[8] (s ^^^ b % 256)

/-- Run the CRC state over a byte list. -/
def crcFold (s : Nat) (l : List Nat) : Nat := l.foldl crcByteStep s

/-- `crc32.ChecksumIEEE`. -/
def crc32 (l : List Nat) : Nat := crcFold 0xFFFFFFFF l ^^^ 0xFFFFFFFF

theorem shiftRight_one_xor (a b : Nat) : (a ^^^ b) >>> 1 = (a >>> 1) ^^^ (b >>> 1) := by
  apply Nat.eq_of_testBit_eq
  intro i
  simp [Nat.testBit_shiftRight, Nat.testBit_xor]

theorem xor_left_comm2 (a b c : Nat) : a ^^^ (b ^^^ c) = b ^^^ (a ^^^ c) := by
  rw [← Nat.xor_assoc, Nat.xor_comm a b, Nat.xor_assoc]

theorem crcShift_linear (a b : Nat) : crcShift (a ^^^ b) = crcShift a ^^^ crcShift b := by
  unfold crcShift
  rw [shiftRight_one_xor, Nat.testBit_xor]
  cases ha : a.testBit 0 <;> cases hb : b.testBit 0 <;>
    simp [Nat.xor_assoc, Nat.xor_comm, xor_left_comm2, Nat.xor_cancel_left]

theorem crcShift_lt (s : Nat) (h : s < 2 ^ 32) : crcShift s < 2 ^ 32 := by
  unfold crcShift
  apply Nat.xor_lt_two_pow
  · have h1 : s >>> 1 ≤ s := by
      rw [Nat.shiftRight_one]
      exact Nat.div_le_self s 2
    omega
  · split <;> decide

theorem crcShift_ne_zero {d : Nat} (hlt : d < 2 ^ 32) (hne : d ≠ 0) : crcShift d ≠ 0 := by
  unfold crcShift
  cases ht : d.testBit 0 with
  | false =>
    intro h0
    rw [if_neg (by simp), Nat.xor_zero] at h0
    rw [Nat.shiftRight_one] at h0
    have h1 : d = 1 := by omega
    rw [h1] at ht
    exact absurd ht (by decide)
  | true =>
    intro h0
    rw [if_pos rfl] at h0
    have h1 : d >>> 1 = crcPoly := Nat.xor_eq_zero.mp h0
    rw [Nat.shiftRight_one] at h1
    have h2 : crcPoly ≥ 2 ^ 31 := by decide
    omega

theorem crcShiftIter_linear (n : Nat) (a b : Nat) :
    crcShift^[n] (a ^^^ b) = crcShift^[n] a ^^^ crcShift^[n] b := by
  induction n generalizing a b with
  | zero => simp
  | succ m ih =>
    rw [Function.iterate_succ_apply, Function.iterate_succ_apply, Function.iterate_succ_apply,
      crcShift_linear]
    exact ih _ _

theorem crcShiftIter_lt (n : Nat) {d : Nat} (h : d < 2 ^ 32) : crcShift^[n] d < 2 ^ 32 := by
  induction n with
  | zero => simpa using h
  | succ m ih =>
    rw [Function.iterate_succ_apply']
    exact crcShift_lt _ ih

theorem crcShiftIter_ne_zero (n : Nat) {d : Nat} (hlt : d < 2 ^ 32) (hne : d ≠ 0) :
    crcShift^[n] d ≠ 0 := by
  induction n with
  | zero => simpa using hne
  | succ m ih =>
    rw [Function.iterate_succ_apply']
    exact crcShift_ne_zero (crcShiftIter_lt m hlt) ih

theorem testBit_mod256 (x i : Nat) : (x % 256).testBit i = (decide (i < 8) && x.testBit i) := by
  have h := Nat.testBit_mod_two_pow x 8 i
  norm_num at h
  exact h

theorem xor_mod256 (x e : Nat) (he : e < 256) : (x ^^^ e) % 256 = x % 256 ^^^ e := by
  apply Nat.eq_of_testBit_eq
  intro i
  by_cases hi : i < 8
  · simp [testBit_mod256, Nat.testBit_xor, hi]
  · have h1 : e < 2 ^ i := by
      calc e < 256 := he
        _ = 2 ^ 8 := by norm_num
        _ ≤ 2 ^ i := Nat.pow_le_pow_right (by omega) (by omega)
    simp [testBit_mod256, Nat.testBit_xor, hi, Nat.testBit_lt_two_pow h1]

theorem crcByteStep_xor (s d b : Nat) :
    crcByteStep (s ^^^ d) b = crcByteStep s b ^^^ crcShift^[8] d := by
  unfold crcByteStep
  rw [show s ^^^ d ^^^ b % 256 = (s ^^^ b % 256) ^^^ d by
    rw [Nat.xor_assoc, Nat.xor_assoc, Nat.xor_comm d (b % 256)]]
  exact crcShiftIter_linear 8 _ _

theorem crcFold_xor_state (l : List Nat) (s d : Nat) :
    crcFold (s ^^^ d) l = crcFold s l ^^^ crcShift^[8 * l.length] d := by
  induction l generalizing s d with
  | nil => simp [crcFold]
  | cons b bs ih =>
    show crcFold (crcByteStep (s ^^^ d) b) bs = crcFold (crcByteStep s b) bs ^^^ _
    rw [crcByteStep_xor, ih]
    rw [← Function.iterate_add_apply]
    have h3 : (8 : Nat) * bs.length + 8 = 8 * (b :: bs).length := by
      simp only [List.length_cons]
      ring
    rw [h3]

/-- Difference induced on the full checksum by xor-ing `e` into one byte of
the input: the final checksums differ by `crcShift` iterated over the bytes
that follow. -/
theorem crc32_flip_diff (l1 l2 : List Nat) (x : Nat) {e : Nat} (he : e < 256) :
    crc32 (l1 ++ (x ^^^ e) :: l2) =
      crc32 (l1 ++ x :: l2) ^^^ crcShift^[8 * (l2.length + 1)] e := by
  unfold crc32 crcFold
  rw [List.foldl_append, List.foldl_append]
  show (List.foldl crcByteStep (crcByteStep _ (x ^^^ e)) l2) ^^^ _ = _
  have h1 : crcByteStep (List.foldl crcByteStep 0xFFFFFFFF l1) (x ^^^ e) =
      crcByteStep (List.foldl crcByteStep 0xFFFFFFFF l1) x ^^^ crcShift^[8] e := by
    unfold crcByteStep
    rw [xor_mod256 x e he, ← Nat.xor_assoc]
    exact crcShiftIter_linear 8 _ _
  rw [h1]
  have h2 := crcFold_xor_state l2 (crcByteStep (List.foldl crcByteStep 0xFFFFFFFF l1) x)
    (crcShift^[8] e)
  unfold crcFold at h2
  rw [h2, ← Function.iterate_add_apply]
  have h3 : 8 * l2.length + 8 = 8 * (l2.length + 1) := by ring
  rw [h3]
  rw [Nat.xor_assoc, Nat.xor_assoc]
  congr 1
  rw [Nat.xor_comm]

/-- Flipping a single bit of a single byte of the input always changes the
CRC-32 checksum. -/
theorem crc32_flip_ne (l1 l2 : List Nat) (x : Nat) {e : Nat}
    (he : e < 256) (hne : e ≠ 0) :
    crc32 (l1 ++ (x ^^^ e) :: l2) ≠ crc32 (l1 ++ x :: l2) := by
  have hlt : e < 2 ^ 32 := by omega
  rw [crc32_flip_diff l1 l2 x he]
  intro h
  have hd : crcShift^[8 * (l2.length + 1)] e ≠ 0 := crcShiftIter_ne_zero _ hlt hne
  apply hd
  apply @Nat.xor_right_injective (crc32 (l1 ++ x :: l2))
  show crc32 (l1 ++ x :: l2) ^^^ crcShift^[8 * (l2.length + 1)] e = crc32 (l1 ++ x :: l2) ^^^ 0
  rw [Nat.xor_zero]
  exact h

theorem crcFold_lt (l : List Nat) (s : Nat) (h : s < 2 ^ 32) : crcFold s l < 2 ^ 32 := by
  induction l generalizing s with
  | nil => simpa [crcFold] using h
  | cons b bs ih =>
    show crcFold (crcByteStep s b) bs < 2 ^ 32
    apply ih
    unfold crcByteStep
    apply crcShiftIter_lt
    apply Nat.xor_lt_two_pow h
    have : b % 256 < 256 := Nat.mod_lt _ (by omega)
    omega

theorem crc32_lt (l : List Nat) : crc32 l < 2 ^ 32 := by
  unfold crc32
  apply Nat.xor_lt_two_pow
  · exact crcFold_lt l _ (by norm_num)
  · norm_num

/-! ## Little-endian integer encodings (`encoding/binary`, little-endian) -/

/-- `w`-byte little-endian encoding of `n` (truncating, as the Go casts
`uint32(...)` / the fixed-width `PutUint64` do). -/
def natLE : Nat → Nat → List Nat
  | 0, _ => []
  | w + 1, n => n % 256 :: natLE w (n / 256)

/-- `binary.LittleEndian.PutUint32` / `uint32` truncation. -/
def u32le (n : Nat) : List Nat := natLE 4 n

/-- `binary.LittleEndian.PutUint64`. -/
def u64le (n : Nat) : List Nat := natLE 8 n

/-- Decode a little-endian byte list (`binary.LittleEndian.Uint32`/`Uint64`
applied to exactly the listed bytes). -/
def leVal : List Nat → Nat
  | [] => 0
  | b :: bs => b % 256 + 256 * leVal bs

theorem natLE_length (w n : Nat) : (natLE w n).length = w := by
  induction w generalizing n with
  | zero => rfl
  | succ m ih => simp [natLE, ih]

theorem u32le_length (n : Nat) : (u32le n).length = 4 := natLE_length 4 n

theorem u64le_length (n : Nat) : (u64le n).length = 8 := natLE_length 8 n

theorem leVal_natLE (w n : Nat) : leVal (natLE w n) = n % 256 ^ w := by
  induction w generalizing n with
  | zero => simp [natLE, leVal, Nat.mod_one]
  | succ m ih =>
    show n % 256 % 256 + 256 * leVal (natLE m (n / 256)) = n % 256 ^ (m + 1)
    rw [Nat.mod_mod_of_dvd n (dvd_refl 256), ih]
    rw [show (256 : Nat) ^ (m + 1) = 256 * 256 ^ m by ring]
    rw [Nat.mod_mul]

theorem leVal_u32le (n : Nat) (h : n < 2 ^ 32) : leVal (u32le n) = n := by
  rw [u32le, leVal_natLE]
  apply Nat.mod_eq_of_lt
  calc n < 2 ^ 32 := h
    _ = 256 ^ 4 := by norm_num

theorem leVal_u64le (n : Nat) (h : n < 2 ^ 64) : leVal (u64le n) = n := by
  rw [u64le, leVal_natLE]
  apply Nat.mod_eq_of_lt
  calc n < 2 ^ 64 := h
    _ = 256 ^ 8 := by norm_num

/-! ## The write-ahead log (`internal_key.go`: `LogEntry`, `WAL.Write`, `Replay`)

`WAL.Write` serialises one entry as
`[checksum u32][seq u64][key_len u32][val_len u32][op u8][key][value]`, with
the CRC-32/IEEE checksum taken over everything after the checksum field, and
then flushes and syncs.  `Replay` parses records sequentially, verifying each
checksum, and accumulates a Go map from internal key to recovered value plus
the maximum sequence number seen. -/

/-- `LogEntry` from the source: one WAL mutation. -/
structure LogEntry where
  op : Nat
  key : List Nat
  value : List Nat
  seqNum : Nat
deriving DecidableEq, Repr

/-- The checksummed portion of a WAL record (everything after the checksum
field), exactly as laid out by `WAL.Write`. -/
def walEntryBody (e : LogEntry) : List Nat :=
  u64le e.seqNum ++ u32le e.key.length ++ u32le e.value.length ++ [e.op] ++ e.key ++ e.value

/-- The bytes a successful `WAL.Write` call appends to the file. -/
def walWrite (e : LogEntry) : List Nat :=
  u32le (crc32 (walEntryBody e)) ++ walEntryBody e

/-- The bytes of a WAL file produced by a sequence of successful `Write`
calls on a fresh WAL. -/
def walEncode (es : List LogEntry) : List Nat := (es.map walWrite).join

/-- `RecoveredValue` from the source. -/
structure RecoveredValue where
  value : List Nat
  type : Nat
deriving DecidableEq, Repr

/-- The Go `map[InternalKey]RecoveredValue`, as an association list with
insert-replaces-existing-key semantics. -/
abbrev WalMap := List (InternalKey × RecoveredValue)

/-- Go map assignment `data[k] = v`. -/
def mapSet (m : WalMap) (k : InternalKey) (v : RecoveredValue) : WalMap :=
  match m with
  | [] => [(k, v)]
  | (k2, v2) :: rest => if k2 = k then (k, v) :: rest else (k2, v2) :: mapSet rest k v

/-- Go map lookup `data[k]`. -/
def mapGet (m : WalMap) (k : InternalKey) : Option RecoveredValue :=
  (m.find? (fun p => p.1 = k)).map (fun p => p.2)

/-- The record-parsing loop of `Replay`, over the remaining bytes of the
file.  Reading the checksum at clean end-of-file ends the loop (`io.EOF`);
any shorter-than-expected read surfaces as an error, as do checksum
mismatches. -/
def replayLoop : List Nat → WalMap → Nat → Except String (WalMap × Nat)
  | [], data, maxSeq => .ok (data, maxSeq)
  | b :: rest, data, maxSeq =>
    let bs := b :: rest
    if h4 : bs.length < 4 then .error "could not read checksum"
    else
      let storedChecksum := leVal (bs.take 4)
      let r1 := bs.drop 4
      if h17 : r1.length < 17 then .error "could not read header"
      else
        let headerBuf := r1.take 17
        let seqNum := leVal (headerBuf.take 8)
        let keySize := leVal ((headerBuf.drop 8).take 4)
        let valueSize := leVal ((headerBuf.drop 12).take 4)
        let op := headerBuf.getD 16 0
        let r2 := r1.drop 17
        if hkv : r2.length < keySize + valueSize then .error "could not read key/value"
        else
          let kvBuf := r2.take (keySize + valueSize)
          if storedChecksum ≠ crc32 (headerBuf ++ kvBuf) then
            .error "data corruption: checksum mismatch"
          else
            let maxSeq2 := if seqNum > maxSeq then seqNum else maxSeq
            let key := kvBuf.take keySize
            let value := kvBuf.drop keySize
            replayLoop (r2.drop (keySize + valueSize))
              (mapSet data ⟨key, seqNum, op⟩ ⟨value, op⟩) maxSeq2
termination_by bs _ _ => bs.length
decreasing_by
  simp only [List.length_drop, List.length_cons]
  omega

/-- `Replay(path)`: `none` models a path whose file does not exist (the
`os.IsNotExist` branch returns an empty map and sequence 0 with no error);
`some bs` is an existing file with contents `bs`. -/
def Replay (file : Option (List Nat)) : Except String (WalMap × Nat) :=
  match file with
  | none => .ok ([], 0)
  | some bs => replayLoop bs [] 0

/-- Flip bit `b` of the byte at position `p`. -/
def flipBit (p b : Nat) (l : List Nat) : List Nat :=
  l.set p (l.getD p 0 ^^^ 2 ^ b)

/-- The 17-byte header portion of a WAL record body. -/
def walHeader (e : LogEntry) : List Nat :=
  u64le e.seqNum ++ u32le e.key.length ++ u32le e.value.length ++ [e.op]

theorem walHeader_length (e : LogEntry) : (walHeader e).length = 17 := by
  simp [walHeader, u64le_length, u32le_length]

theorem walEntryBody_eq (e : LogEntry) :
    walEntryBody e = walHeader e ++ (e.key ++ e.value) := by
  simp [walEntryBody, walHeader, List.append_assoc]

theorem walEntryBody_length (e : LogEntry) :
    (walEntryBody e).length = 17 + e.key.length + e.value.length := by
  rw [walEntryBody_eq]
  simp [walHeader_length]
  omega

theorem walWrite_length (e : LogEntry) :
    (walWrite e).length = 21 + e.key.length + e.value.length := by
  simp [walWrite, u32le_length, walEntryBody_length]
  omega

theorem walHeader_take8 (e : LogEntry) : (walHeader e).take 8 = u64le e.seqNum := by
  unfold walHeader
  rw [List.append_assoc, List.append_assoc]
  exact List.take_left' (u64le_length e.seqNum)

theorem walHeader_drop8 (e : LogEntry) :
    (walHeader e).drop 8 = u32le e.key.length ++ (u32le e.value.length ++ [e.op]) := by
  unfold walHeader
  rw [List.append_assoc, List.append_assoc]
  exact List.drop_left' (u64le_length e.seqNum)

theorem walHeader_keySize (e : LogEntry) :
    ((walHeader e).drop 8).take 4 = u32le e.key.length := by
  rw [walHeader_drop8]
  exact List.take_left' (u32le_length e.key.length)

theorem walHeader_valSize (e : LogEntry) :
    ((walHeader e).drop 12).take 4 = u32le e.value.length := by
  have h : (walHeader e).drop 12 = ((walHeader e).drop 8).drop 4 := by
    rw [List.drop_drop]
  rw [h, walHeader_drop8, List.drop_left' (u32le_length e.key.length)]
  exact List.take_left' (u32le_length e.value.length)

theorem walHeader_op (e : LogEntry) : (walHeader e).getD 16 0 = e.op := by
  unfold walHeader
  have hlen : (u64le e.seqNum ++ u32le e.key.length ++ u32le e.value.length).length = 16 := by
    simp [u64le_length, u32le_length]
  rw [List.getD_append_right _ _ _ _ (by omega), hlen]
  rfl

/-- Parsing a correctly written record at the head of the byte stream
succeeds: the checksum matches and `Replay`'s loop moves on to the rest of
the file, with the entry inserted under its internal key and the running
maximum sequence updated. -/
theorem replayLoop_append (e : LogEntry) (tail : List Nat) (data : WalMap) (maxSeq : Nat)
    (hk : e.key.length < 2 ^ 32) (hv : e.value.length < 2 ^ 32) (hs : e.seqNum < 2 ^ 64) :
    replayLoop (walWrite e ++ tail) data maxSeq =
      replayLoop tail (mapSet data ⟨e.key, e.seqNum, e.op⟩ ⟨e.value, e.op⟩)
        (if e.seqNum > maxSeq then e.seqNum else maxSeq) := by
  have hc : crc32 (walEntryBody e) < 2 ^ 32 := crc32_lt _
  have hX : walWrite e ++ tail =
      u32le (crc32 (walEntryBody e)) ++ (walEntryBody e ++ tail) := by
    simp [walWrite, List.append_assoc]
  obtain ⟨b, rest, hbr⟩ : ∃ b rest, walWrite e ++ tail = b :: rest := by
    cases hx : walWrite e ++ tail with
    | nil =>
      have := congrArg List.length hx
      rw [List.length_append, walWrite_length] at this
      simp at this
    | cons b r => exact ⟨b, r, rfl⟩
  rw [hbr, replayLoop]
  rw [← hbr]
  have f_take4 : (walWrite e ++ tail).take 4 = u32le (crc32 (walEntryBody e)) := by
    rw [hX]
    exact List.take_left' (u32le_length _)
  have f_drop4 : (walWrite e ++ tail).drop 4 = walEntryBody e ++ tail := by
    rw [hX]
    exact List.drop_left' (u32le_length _)
  have hbody2 : walEntryBody e ++ tail = walHeader e ++ ((e.key ++ e.value) ++ tail) := by
    rw [walEntryBody_eq, List.append_assoc]
  have f_take17 : (walEntryBody e ++ tail).take 17 = walHeader e := by
    rw [hbody2]
    exact List.take_left' (walHeader_length e)
  have f_drop17 : (walEntryBody e ++ tail).drop 17 = (e.key ++ e.value) ++ tail := by
    rw [hbody2]
    exact List.drop_left' (walHeader_length e)
  have f_kv : ((e.key ++ e.value) ++ tail).take (e.key.length + e.value.length) =
      e.key ++ e.value := List.take_left' (by simp)
  have f_rest : ((e.key ++ e.value) ++ tail).drop (e.key.length + e.value.length) =
      tail := List.drop_left' (by simp)
  have f_key : (e.key ++ e.value).take e.key.length = e.key := List.take_left' rfl
  have f_val : (e.key ++ e.value).drop e.key.length = e.value := List.drop_left' rfl
  have hlen : (walWrite e ++ tail).length = 21 + e.key.length + e.value.length + tail.length := by
    rw [List.length_append, walWrite_length]
  have h4 : ¬ ((walWrite e ++ tail).length < 4) := by omega
  have h17 : ¬ ((walEntryBody e ++ tail).length < 17) := by
    rw [List.length_append, walEntryBody_length]
    omega
  have hkvlen : ¬ (((e.key ++ e.value) ++ tail).length < e.key.length + e.value.length) := by
    simp
  have hck : ¬ (crc32 (walEntryBody e) ≠ crc32 (walHeader e ++ (e.key ++ e.value))) := by
    rw [← walEntryBody_eq]
    exact fun hx => hx rfl
  rw [dif_neg h4]
  simp only [f_take4, f_drop4, f_take17, f_drop17, walHeader_take8, walHeader_keySize,
    walHeader_valSize, walHeader_op, leVal_u32le _ hc, leVal_u64le _ hs, leVal_u32le _ hk,
    leVal_u32le _ hv, dif_neg h17, dif_neg hkvlen, f_kv, f_rest, f_key, f_val, if_neg hck]

theorem walEncode_nil : walEncode [] = [] := rfl

theorem walEncode_cons (e : LogEntry) (es : List LogEntry) :
    walEncode (e :: es) = walWrite e ++ walEncode es := by
  simp [walEncode]

/-- The logical content of `Replay`'s loop on an encoded entry list: the Go
map after inserting each entry under its internal key in order, and the
running maximum sequence number. -/
def replayEntriesAux : List LogEntry → WalMap → Nat → WalMap × Nat
  | [], data, maxSeq => (data, maxSeq)
  | e :: rest, data, maxSeq =>
    replayEntriesAux rest (mapSet data ⟨e.key, e.seqNum, e.op⟩ ⟨e.value, e.op⟩)
      (if e.seqNum > maxSeq then e.seqNum else maxSeq)

/-- Bounds under which a `LogEntry` round-trips bit-exactly through the WAL
encoding (the Go codes truncate at `uint32` key/value lengths and a `uint64`
sequence number). -/
def entryBounded (e : LogEntry) : Prop :=
  e.key.length < 2 ^ 32 ∧ e.value.length < 2 ^ 32 ∧ e.seqNum < 2 ^ 64

instance (e : LogEntry) : Decidable (entryBounded e) := by
  unfold entryBounded; infer_instance

theorem replayLoop_walEncode (es : List LogEntry) (data : WalMap) (maxSeq : Nat)
    (hb : ∀ e ∈ es, entryBounded e) :
    replayLoop (walEncode es) data maxSeq = .ok (replayEntriesAux es data maxSeq) := by
  induction es generalizing data maxSeq with
  | nil =>
    rw [walEncode_nil, replayLoop]
    rfl
  | cons e rest ih =>
    rw [walEncode_cons]
    obtain ⟨hk, hv, hs⟩ := hb e (List.mem_cons_self e rest)
    rw [replayLoop_append e _ data maxSeq hk hv hs]
    exact ih _ _ (fun f hf => hb f (List.mem_cons_of_mem e hf))

theorem mapGet_mapSet_self (m : WalMap) (k : InternalKey) (v : RecoveredValue) :
    mapGet (mapSet m k v) k = some v := by
  induction m with
  | nil => simp [mapSet, mapGet, List.find?]
  | cons p rest ih =>
    by_cases h : p.1 = k
    · simp [mapSet, h, mapGet, List.find?]
    · simp only [mapSet]
      rw [if_neg (by exact h)]
      simp only [mapGet, List.find?]
      rw [show (decide (p.1 = k)) = false by simp [h]]
      exact ih

theorem mapGet_mapSet_ne (m : WalMap) (k k2 : InternalKey) (v : RecoveredValue)
    (h : k2 ≠ k) : mapGet (mapSet m k v) k2 = mapGet m k2 := by
  induction m with
  | nil => simp [mapSet, mapGet, List.find?, Ne.symm h]
  | cons p rest ih =>
    by_cases hp : p.1 = k
    · simp only [mapSet]
      rw [if_pos hp]
      simp only [mapGet, List.find?]
      rw [show (decide (k = k2)) = false by simp [Ne.symm h],
        show (decide (p.1 = k2)) = false by simp [hp, Ne.symm h]]
    · simp only [mapSet]
      rw [if_neg hp]
      by_cases hpk : p.1 = k2
      · simp [mapGet, List.find?, hpk]
      · simp only [mapGet, List.find?]
        rw [show (decide (p.1 = k2)) = false by simp [hpk]]
        exact ih

theorem mapGet_mapSet_cases (m : WalMap) (k k2 : InternalKey) (v : RecoveredValue) :
    mapGet (mapSet m k v) k2 = mapGet m k2 ∨ k2 = k := by
  by_cases h : k2 = k
  · exact Or.inr h
  · exact Or.inl (mapGet_mapSet_ne m k k2 v h)

/-- The internal key `Replay` files an entry under. -/
def ikOf (e : LogEntry) : InternalKey := ⟨e.key, e.seqNum, e.op⟩

/-- The recovered value `Replay` stores for an entry. -/
def rvOf (e : LogEntry) : RecoveredValue := ⟨e.value, e.op⟩

theorem maxIf (m s : Nat) : (if s > m then s else m) = max m s := by
  split <;> omega

theorem replayEntriesAux_get_notmem (es : List LogEntry) (data : WalMap) (m : Nat)
    (ik : InternalKey) (h : ik ∉ es.map ikOf) :
    mapGet (replayEntriesAux es data m).1 ik = mapGet data ik := by
  induction es generalizing data m with
  | nil => rfl
  | cons e rest ih =>
    simp only [List.map_cons, List.mem_cons] at h
    push_neg at h
    show mapGet (replayEntriesAux rest (mapSet data (ikOf e) (rvOf e)) _).1 ik = _
    rw [ih _ _ h.2, mapGet_mapSet_ne _ _ _ _ h.1]

theorem replayEntriesAux_get_mem (es : List LogEntry) (data : WalMap) (m : Nat)
    (e : LogEntry) (he : e ∈ es)
    (hdist : es.Pairwise (fun a b => a.seqNum ≠ b.seqNum)) :
    mapGet (replayEntriesAux es data m).1 (ikOf e) = some (rvOf e) := by
  induction es generalizing data m with
  | nil => cases he
  | cons f rest ih =>
    rcases List.mem_cons.mp he with he1 | he2
    · subst he1
      have hnot : ikOf e ∉ rest.map ikOf := by
        intro hmem
        obtain ⟨g, hg, hgik⟩ := List.mem_map.mp hmem
        have hne : e.seqNum ≠ g.seqNum := (List.pairwise_cons.mp hdist).1 g hg
        exact hne (congrArg InternalKey.seqNum hgik.symm)
      show mapGet (replayEntriesAux rest (mapSet data (ikOf e) (rvOf e)) _).1 _ = _
      rw [replayEntriesAux_get_notmem _ _ _ _ hnot, mapGet_mapSet_self]
    · show mapGet (replayEntriesAux rest (mapSet data (ikOf f) (rvOf f)) _).1 _ = _
      exact ih _ _ he2 (List.pairwise_cons.mp hdist).2

theorem replayEntriesAux_dom (es : List LogEntry) (data : WalMap) (m : Nat)
    (ik : InternalKey) (h : mapGet (replayEntriesAux es data m).1 ik ≠ none) :
    mapGet data ik ≠ none ∨ ik ∈ es.map ikOf := by
  induction es generalizing data m with
  | nil => exact Or.inl h
  | cons e rest ih =>
    have h2 : mapGet (replayEntriesAux rest (mapSet data (ikOf e) (rvOf e)) _).1 ik ≠ none := h
    rcases ih _ _ h2 with h1 | h1
    · rcases mapGet_mapSet_cases data (ikOf e) ik (rvOf e) with h3 | h3
      · rw [h3] at h1
        exact Or.inl h1
      · refine Or.inr ?_
        simp only [List.map_cons, List.mem_cons]
        exact Or.inl h3
    · refine Or.inr ?_
      simp only [List.map_cons, List.mem_cons]
      exact Or.inr h1

theorem replayEntriesAux_snd (es : List LogEntry) (data : WalMap) (m : Nat) :
    (replayEntriesAux es data m).2 = es.foldl (fun a e => max a e.seqNum) m := by
  induction es generalizing data m with
  | nil => rfl
  | cons e rest ih =>
    show (replayEntriesAux rest (mapSet data (ikOf e) (rvOf e))
      (if e.seqNum > m then e.seqNum else m)).2 = _
    rw [ih, maxIf]
    rfl

/-- C5: WAL round-trip.  For every finite sequence of log entries with
distinct sequence numbers appended to a fresh WAL via `Write` (with key and
value lengths and sequence numbers within their encoded widths), `Replay` of
the resulting file returns a mapping containing exactly those entries keyed
by internal key `(user-key, sequence, op)` with the written `(value, op)`,
together with the maximum sequence number among them; `Replay` of a path
whose file does not exist returns an empty mapping and sequence 0 with no
error. -/
theorem wal_roundtrip (es : List LogEntry)
    (hdist : es.Pairwise (fun a b => a.seqNum ≠ b.seqNum))
    (hb : ∀ e ∈ es, entryBounded e) :
    (∃ m maxSeq, Replay (some (walEncode es)) = .ok (m, maxSeq) ∧
      (∀ e ∈ es, mapGet m (ikOf e) = some (rvOf e)) ∧
      (∀ ik, mapGet m ik ≠ none → ik ∈ es.map ikOf) ∧
      maxSeq = es.foldl (fun a e => max a e.seqNum) 0) ∧
    Replay none = .ok ([], 0) := by
  refine ⟨⟨(replayEntriesAux es [] 0).1, (replayEntriesAux es [] 0).2, ?_, ?_, ?_, ?_⟩, rfl⟩
  · show replayLoop (walEncode es) [] 0 = _
    rw [replayLoop_walEncode es [] 0 hb]
  · intro e he
    exact replayEntriesAux_get_mem es [] 0 e he hdist
  · intro ik h
    rcases replayEntriesAux_dom es [] 0 ik h with h1 | h1
    · simp [mapGet, List.find?] at h1
    · exact h1
  · exact replayEntriesAux_snd es [] 0

/-- Witness for `wal_roundtrip` at a concrete two-entry log. -/
theorem wal_roundtrip_witness :
    (∃ m maxSeq,
      Replay (some (walEncode [⟨0, [1], [2, 3], 1⟩, ⟨1, [4], [], 2⟩])) = .ok (m, maxSeq) ∧
      (∀ e ∈ ([⟨0, [1], [2, 3], 1⟩, ⟨1, [4], [], 2⟩] : List LogEntry),
        mapGet m (ikOf e) = some (rvOf e)) ∧
      (∀ ik, mapGet m ik ≠ none →
        ik ∈ ([⟨0, [1], [2, 3], 1⟩, ⟨1, [4], [], 2⟩] : List LogEntry).map ikOf) ∧
      maxSeq = ([⟨0, [1], [2, 3], 1⟩, ⟨1, [4], [], 2⟩] : List LogEntry).foldl
        (fun a e => max a e.seqNum) 0) ∧
    Replay none = .ok ([], 0) :=
  wal_roundtrip [⟨0, [1], [2, 3], 1⟩, ⟨1, [4], [], 2⟩] (by decide) (by decide)

/-- A segment of a list disjoint from the position of a `set` is unchanged. -/
theorem segTake_set (l : List Nat) (q x i n : Nat) (h : q < i ∨ i + n ≤ q) :
    ((l.set q x).drop i).take n = (l.drop i).take n := by
  apply List.ext_getElem?
  intro j
  rw [List.getElem?_take, List.getElem?_take]
  by_cases hj : j < n
  · rw [if_pos hj, if_pos hj, List.getElem?_drop, List.getElem?_drop]
    apply List.getElem?_set_ne
    omega
  · rw [if_neg hj, if_neg hj]

/-- A record whose checksummed body has had one bit flipped anywhere outside
the `key_len`/`val_len` fields fails `Replay`'s checksum verification: the
reparse reads the same byte extents, recomputes the CRC over a body that
differs from the original in exactly one bit, and rejects the log. -/
theorem replayLoop_corrupt (e : LogEntry) (tail : List Nat) (data : WalMap) (maxSeq : Nat)
    (hk : e.key.length < 2 ^ 32) (hv : e.value.length < 2 ^ 32) (hs : e.seqNum < 2 ^ 64)
    (q bit : Nat) (hbit : bit < 8)
    (hq : q < (walEntryBody e).length)
    (hqe : q < 8 ∨ 16 ≤ q) :
    replayLoop (u32le (crc32 (walEntryBody e)) ++
        ((walEntryBody e).set q ((walEntryBody e).getD q 0 ^^^ 2 ^ bit) ++ tail)) data maxSeq =
      .error "data corruption: checksum mismatch" := by
  have hc : crc32 (walEntryBody e) < 2 ^ 32 := crc32_lt _
  set body := walEntryBody e with hbodydef
  set body2 := body.set q (body.getD q 0 ^^^ 2 ^ bit) with hbody2def
  have hlb : body.length = 17 + e.key.length + e.value.length := walEntryBody_length e
  have hlb2 : body2.length = body.length := by
    rw [hbody2def]
    exact List.length_set ..
  obtain ⟨b, rest, hbr⟩ : ∃ b rest,
      u32le (crc32 body) ++ (body2 ++ tail) = b :: rest := by
    cases hx : u32le (crc32 body) ++ (body2 ++ tail) with
    | nil =>
      have := congrArg List.length hx
      rw [List.length_append, u32le_length] at this
      simp at this
    | cons b r => exact ⟨b, r, rfl⟩
  rw [hbr, replayLoop]
  rw [← hbr]
  have f_take4 : (u32le (crc32 body) ++ (body2 ++ tail)).take 4 = u32le (crc32 body) :=
    List.take_left' (u32le_length _)
  have f_drop4 : (u32le (crc32 body) ++ (body2 ++ tail)).drop 4 = body2 ++ tail :=
    List.drop_left' (u32le_length _)
  have h4 : ¬ ((u32le (crc32 body) ++ (body2 ++ tail)).length < 4) := by
    rw [List.length_append, u32le_length]
    omega
  have h17 : ¬ ((body2 ++ tail).length < 17) := by
    rw [List.length_append, hlb2, hlb]
    omega
  have f_take17 : (body2 ++ tail).take 17 = body2.take 17 :=
    List.take_append_of_le_length (by omega)
  have f_drop17 : (body2 ++ tail).drop 17 = body2.drop 17 ++ tail :=
    List.drop_append_of_le_length (by omega)
  -- the two length fields are outside the flipped position, hence unchanged
  have f_key : ((body2.take 17).drop 8).take 4 = u32le e.key.length := by
    rw [List.drop_take, List.take_take]
    norm_num
    rw [hbody2def, segTake_set body q _ 8 4 (by omega)]
    have hsplit : body.drop 8 = (walHeader e).drop 8 ++ (e.key ++ e.value) := by
      rw [hbodydef, walEntryBody_eq]
      exact List.drop_append_of_le_length (by rw [walHeader_length]; omega)
    rw [hsplit, List.take_append_of_le_length (by
      rw [List.length_drop, walHeader_length]; omega)]
    rw [← walHeader_keySize e]
  have f_val : ((body2.take 17).drop 12).take 4 = u32le e.value.length := by
    rw [List.drop_take, List.take_take]
    norm_num
    rw [hbody2def, segTake_set body q _ 12 4 (by omega)]
    have hsplit : body.drop 12 = (walHeader e).drop 12 ++ (e.key ++ e.value) := by
      rw [hbodydef, walEntryBody_eq]
      exact List.drop_append_of_le_length (by rw [walHeader_length]; omega)
    rw [hsplit, List.take_append_of_le_length (by
      rw [List.length_drop, walHeader_length]; omega)]
    rw [← walHeader_valSize e]
  have hkv : ¬ ((body2.drop 17 ++ tail).length < e.key.length + e.value.length) := by
    rw [List.length_append, List.length_drop, hlb2, hlb]
    omega
  have f_kv : (body2.drop 17 ++ tail).take (e.key.length + e.value.length) = body2.drop 17 :=
    List.take_left' (by rw [List.length_drop, hlb2, hlb]; omega)
  have f_whole : body2.take 17 ++ body2.drop 17 = body2 := List.take_append_drop ..
  -- the reparsed body differs from the original in exactly one bit
  have hflip : crc32 body ≠ crc32 body2 := by
    have hsplit2 : body2 = body.take q ++ (body.getD q 0 ^^^ 2 ^ bit) :: body.drop (q + 1) := by
      rw [hbody2def, List.set_eq_take_append_cons_drop, if_pos hq]
    have hsplit1 : body = body.take q ++ body.getD q 0 :: body.drop (q + 1) := by
      conv_lhs => rw [← List.take_append_drop q body]
      congr 1
      rw [List.drop_eq_getElem_cons hq]
      congr 1
      rw [List.getD_eq_getElem?_getD, List.getElem?_eq_getElem hq]
      rfl
    rw [hsplit1, hsplit2]
    intro hcontra
    exact crc32_flip_ne (body.take q) (body.drop (q + 1)) (body.getD q 0)
      (show 2 ^ bit < 256 by
        calc 2 ^ bit ≤ 2 ^ 7 := Nat.pow_le_pow_right (by omega) (by omega)
          _ < 256 := by norm_num)
      (Nat.pos_iff_ne_zero.mp (Nat.pos_pow_of_pos bit (by omega))) hcontra.symm
  rw [dif_neg h4]
  simp only [f_take4, f_drop4, f_take17, f_drop17, f_key, f_val, f_kv,
    leVal_u32le _ hc, leVal_u32le _ hk, leVal_u32le _ hv, dif_neg h17, dif_neg hkv]
  rw [f_whole]
  rw [if_pos hflip]

theorem walEncode_append (a b : List LogEntry) :
    walEncode (a ++ b) = walEncode a ++ walEncode b := by
  simp [walEncode]

theorem flipBit_append_right (A B : List Nat) (off bit : Nat) :
    flipBit (A.length + off) bit (A ++ B) = A ++ flipBit off bit B := by
  unfold flipBit
  rw [List.getD_append_right _ _ _ _ (by omega), List.set_append_right _ _ (by omega)]
  have h1 : A.length + off - A.length = off := by omega
  rw [h1]

theorem flipBit_append_left (A B : List Nat) (off bit : Nat) (h : off < A.length) :
    flipBit off bit (A ++ B) = flipBit off bit A ++ B := by
  unfold flipBit
  rw [List.getD_append _ _ _ _ h, List.set_append_left _ _ h]

/-- Parsing a well-formed encoded prefix always reaches the suffix. -/
theorem replayLoop_prefix (es : List LogEntry) (suffix : List Nat) (data : WalMap)
    (maxSeq : Nat) (hb : ∀ e ∈ es, entryBounded e) :
    replayLoop (walEncode es ++ suffix) data maxSeq =
      replayLoop suffix (replayEntriesAux es data maxSeq).1
        (replayEntriesAux es data maxSeq).2 := by
  induction es generalizing data maxSeq with
  | nil =>
    rw [walEncode_nil, List.nil_append]
    rfl
  | cons e rest ih =>
    rw [walEncode_cons, List.append_assoc]
    obtain ⟨hk, hv, hs⟩ := hb e (List.mem_cons_self e rest)
    rw [replayLoop_append e _ data maxSeq hk hv hs]
    exact ih _ _ (fun f hf => hb f (List.mem_cons_of_mem e hf))

/-- C6 (amended): for a WAL file produced by successful `Write` calls,
flipping any single bit of any record's body **outside the two length
fields** — that is, in the sequence field, the op byte, the key bytes or
the value bytes — makes `Replay` reject the file with the checksum
corruption error.  (Flips inside `key_len`/`val_len` change how many bytes
the parser reads and are not always detected; see the counterexample.) -/
theorem wal_checksum_flip_detected (pre post : List LogEntry) (e : LogEntry) (off bit : Nat)
    (hbpre : ∀ f ∈ pre, entryBounded f) (hbe : entryBounded e)
    (hbit : bit < 8)
    (hoff4 : 4 ≤ off) (hoffhi : off < 21 + e.key.length + e.value.length)
    (hoffex : off < 12 ∨ 20 ≤ off) :
    Replay (some (flipBit ((walEncode pre).length + off) bit
        (walEncode (pre ++ e :: post)))) =
      .error "data corruption: checksum mismatch" := by
  obtain ⟨hk, hv, hs⟩ := hbe
  have hwl : (walWrite e).length = 21 + e.key.length + e.value.length := walWrite_length e
  rw [walEncode_append, walEncode_cons]
  rw [show walEncode pre ++ (walWrite e ++ walEncode post) =
      walEncode pre ++ (walWrite e ++ walEncode post) from rfl]
  rw [flipBit_append_right]
  rw [flipBit_append_left _ _ _ _ (by omega)]
  have hsplit : flipBit off bit (walWrite e) =
      u32le (crc32 (walEntryBody e)) ++ flipBit (off - 4) bit (walEntryBody e) := by
    unfold walWrite
    have hoff : off = (u32le (crc32 (walEntryBody e))).length + (off - 4) := by
      rw [u32le_length]
      omega
    conv_lhs => rw [hoff]
    rw [flipBit_append_right]
  rw [hsplit]
  show replayLoop _ [] 0 = _
  rw [List.append_assoc, replayLoop_prefix pre _ [] 0 hbpre]
  unfold flipBit
  exact replayLoop_corrupt e _ _ _ hk hv hs (off - 4) bit hbit
    (by rw [walEntryBody_length]; omega) (by omega)

set_option maxRecDepth 400000 in
/-- The CRC-32/IEEE model agrees with the standard check value
(`crc32("123456789") = 0xCBF43926`), pinning it to the Go implementation. -/
theorem crc32_check_value : crc32 [49, 50, 51, 52, 53, 54, 55, 56, 57] = 0xCBF43926 := by
  decide

/-- Whether a `Replay` result is a successful recovery. -/
def exceptIsOk : Except String (WalMap × Nat) → Bool
  | .ok _ => true
  | .error _ => false

/-- A crafted but perfectly legal WAL entry (op `PUT`, key `"a"`, a 36-byte
value, sequence 1).  Its value embeds a complete valid WAL record in its
last 32 bytes, and its first four value bytes are chosen so that the CRC of
the *truncated* reparse after flipping one `val_len` bit collides with the
stored checksum. -/
def c6entry : LogEntry :=
  ⟨0, [97],
    [128, 192, 105, 59, 220, 29, 116, 24, 2, 0, 0, 0, 0, 0, 0, 0, 11, 0, 0, 0, 0,
     0, 0, 0, 0, 98, 98, 98, 98, 98, 98, 98, 98, 98, 98, 98], 1⟩

set_option maxRecDepth 1000000 in
/-- C6 counterexample: flipping bit 5 of byte 16 of the file — the low byte
of the `val_len` field, a body byte within the checksummed region the claim
covers — produces a file that `Replay` *accepts* (two records, no error),
refuting the claim that every single-bit body flip is rejected.  The
modified file is byte-for-byte a valid encoding of two different entries. -/
theorem wal_checksum_flip_counterexample :
    exceptIsOk (Replay (some (flipBit 16 5 (walEncode [c6entry])))) = true ∧
    4 ≤ 16 ∧ 16 < (walEncode [c6entry]).length := by
  refine ⟨?_, by decide, by decide⟩
  have heq : flipBit 16 5 (walEncode [c6entry]) =
      walEncode [⟨0, [97], [128, 192, 105, 59], 1⟩,
        ⟨0, [98, 98, 98, 98, 98, 98, 98, 98, 98, 98, 98], [], 2⟩] := by decide
  rw [heq]
  show exceptIsOk (replayLoop (walEncode _) [] 0) = true
  rw [replayLoop_walEncode _ [] 0 (by decide)]
  rfl

/-- Witness for `wal_checksum_flip_detected`: flipping bit 0 of the first
sequence byte of a concrete one-record log is rejected. -/
theorem wal_checksum_flip_detected_witness :
    Replay (some (flipBit ((walEncode []).length + 4) 0
        (walEncode ([] ++ (⟨0, [1], [2], 1⟩ : LogEntry) :: [])))) =
      .error "data corruption: checksum mismatch" :=
  wal_checksum_flip_detected [] [] ⟨0, [1], [2], 1⟩ 4 0 (by decide) (by decide)
    (by decide) (by decide) (by decide) (by decide)

/-! ## SSTable (`memtable.go`: `WriteSSTable`, `SSTableReader`)

The writer takes the MemTable's ordered (internal key, value) pairs,
accumulates them into data blocks cut at `DataBlockSize`, and records one
index entry `(last_internal_key, block_offset, block_size)` per block; it
then writes the bloom filter, the gob-encoded index, a gob-encoded footer
and a 4-byte footer-length trailer.  The reader loads the footer, filter and
index and serves point lookups with filter + binary search + block scan.

Modelled from the spec: the data-block record framing
(`[key_len u32][val_len u32][key][value]`) is byte-exact from the source;
the serialisations chosen by external libraries — `encoding/gob` for the
internal key, index and footer, and `bits-and-blooms/bloom` for the filter —
are opaque self-describing payloads per §4.4/§6 of the specification.  The
gob payload for an internal key is modelled as the spec's suggested
length-prefixed form; the index and footer are carried structurally (their
gob round-trip is the identity on the decoded values); the bloom filter is
carried as the list of added user keys, and the reader's `filter.Test` is an
arbitrary boolean test constrained only by the filter guarantee (no false
negatives; false positives allowed). -/

/-- Modelled from the spec: the opaque self-describing `encoding/gob`
serialisation of an `InternalKey`, as the length-prefixed form the spec
names sufficient (user-key length, user-key bytes, sequence u64, op u8). -/
def gobEncodeIK (ik : InternalKey) : List Nat :=
  u32le ik.userKey.length ++ ik.userKey ++ u64le ik.seqNum ++ [ik.type]

/-- Decoding of `gobEncodeIK` from exactly the encoded bytes; `none` models
a gob decode error on malformed bytes. -/
def gobDecodeIK (bs : List Nat) : Option InternalKey :=
  if bs.length < 4 then none
  else
    let klen := leVal (bs.take 4)
    let r1 := bs.drop 4
    if r1.length = klen + 9 then
      some ⟨r1.take klen, leVal ((r1.drop klen).take 8), (r1.drop (klen + 8)).getD 0 0⟩
    else none

theorem gobEncodeIK_length (ik : InternalKey) :
    (gobEncodeIK ik).length = 13 + ik.userKey.length := by
  simp [gobEncodeIK, u32le_length, u64le_length]
  omega

theorem gobDecodeIK_encode (ik : InternalKey)
    (hk : ik.userKey.length < 2 ^ 32) (hs : ik.seqNum < 2 ^ 64) :
    gobDecodeIK (gobEncodeIK ik) = some ik := by
  unfold gobDecodeIK
  have hlen : (gobEncodeIK ik).length = 13 + ik.userKey.length := gobEncodeIK_length ik
  rw [if_neg (by omega)]
  have f_take4 : (gobEncodeIK ik).take 4 = u32le ik.userKey.length := by
    unfold gobEncodeIK
    rw [List.append_assoc, List.append_assoc]
    exact List.take_left' (u32le_length _)
  have f_drop4 : (gobEncodeIK ik).drop 4 = ik.userKey ++ (u64le ik.seqNum ++ [ik.type]) := by
    unfold gobEncodeIK
    rw [List.append_assoc, List.append_assoc]
    exact List.drop_left' (u32le_length _)
  rw [f_take4, f_drop4, leVal_u32le _ hk]
  rw [if_pos (by simp [u64le_length])]
  have f_key : (ik.userKey ++ (u64le ik.seqNum ++ [ik.type])).take ik.userKey.length =
      ik.userKey := List.take_left' rfl
  have f_seq : ((ik.userKey ++ (u64le ik.seqNum ++ [ik.type])).drop ik.userKey.length).take 8 =
      u64le ik.seqNum := by
    rw [List.drop_left' rfl]
    exact List.take_left' (u64le_length _)
  have f_type : ((ik.userKey ++ (u64le ik.seqNum ++ [ik.type])).drop
      (ik.userKey.length + 8)).getD 0 0 = ik.type := by
    rw [← List.drop_drop]
    rw [List.drop_left' rfl, List.drop_left' (u64le_length _)]
    rfl
  rw [f_key, f_seq, f_type, leVal_u64le _ hs]

/-- `IndexEntry` from the source. -/
structure IndexEntry where
  lastKey : InternalKey
  offset : Nat
  size : Nat
deriving DecidableEq, Repr

/-- An SSTable file as produced by `WriteSSTable` and consumed by
`NewSSTableReader`: the data region is byte-exact; the index and the
filter's added-key set are the decoded values of the gob/bloom payloads (see
the section comment). -/
structure SSTFile where
  data : List Nat
  index : List IndexEntry
  filterKeys : List (List Nat)
deriving DecidableEq, Repr

/-- A record fed to the SSTable writer: an internal key and the stored value
(`none` is a Go `nil` slice, the tombstone value). -/
abbrev SSTRec := InternalKey × Option (List Nat)

/-- `DataBlockSize` from the source (4 KB). -/
def DataBlockSize : Nat := 1 * 1024 * 4

/-- One record as encoded into a data block:
`[key_len u32][val_len u32][key_bytes][val_bytes]`. -/
def encRecord (ik : InternalKey) (v : Option (List Nat)) : List Nat :=
  u32le (gobEncodeIK ik).length ++ u32le (v.getD []).length ++ gobEncodeIK ik ++ v.getD []

/-- The writer's record loop (`WriteSSTable`): walk the iterator, flush the
block buffer once it exceeds `DataBlockSize` (recording an index entry for
the flushed block), then append the current record to the buffer; at the
end flush any residual buffer.  Arguments mirror the Go locals:
`(records, blockBuffer, lastKeyInBlock, indexEntries, currentOffset, out)`;
the result is the data region and the index entries. -/
def writeRecs : List SSTRec → List Nat → InternalKey → List IndexEntry → Nat →
    List Nat → List Nat × List IndexEntry
  | [], buf, lastKey, idx, off, out =>
    if buf.length > 0 then (out ++ buf, idx ++ [⟨lastKey, off, buf.length⟩]) else (out, idx)
  | (ik, v) :: rest, buf, lastKey, idx, off, out =>
    if buf.length > DataBlockSize then
      writeRecs rest (encRecord ik v) ik (idx ++ [⟨lastKey, off, buf.length⟩])
        (off + buf.length) (out ++ buf)
    else
      writeRecs rest (buf ++ encRecord ik v) ik idx off out

/-- `WriteSSTable`, given the MemTable's ordered records (the `skiplist`
forward iteration): data blocks plus index, and the bloom filter over the
records' user keys. -/
def writeSSTable (records : List SSTRec) : SSTFile :=
  let dataIdx := writeRecs records [] ⟨[], 0, 0⟩ [] 0 []
  ⟨dataIdx.1, dataIdx.2, records.map (fun r => r.1.userKey)⟩

/-- Go's `sort.Search` binary search on `[i, j)`. -/
def sortSearchAux (f : Nat → Bool) (i j : Nat) : Nat :=
  if h : i < j then
    let m := (i + j) / 2
    if f m then sortSearchAux f i m else sortSearchAux f (m + 1) j
  else i
termination_by j - i
decreasing_by
  · omega
  · omega

/-- `sort.Search(n, f)`. -/
def sortSearch (n : Nat) (f : Nat → Bool) : Nat := sortSearchAux f 0 n

/-- The probe internal key the MemTable lookup constructs:
`(user_key, math.MaxUint64, OpTypePut)`. -/
def memSearchKey (key : List Nat) : InternalKey := ⟨key, 2 ^ 64 - 1, OpTypePut⟩

/-- The probe internal key the SSTable reader constructs:
`(user_key, math.MaxInt64, OpTypePut)` — note `MaxInt64`, not `MaxUint64`. -/
def sstSearchKey (userKey : List Nat) : InternalKey := ⟨userKey, 2 ^ 63 - 1, OpTypePut⟩

/-- The in-block record scan of `SSTableReader.Get`: read `[key_len]`
(`io.EOF` at a record boundary ends the scan; a short read is an error),
`[val_len]`, the key bytes; a key that fails to gob-decode is skipped by
seeking past its value; a key equal to the probe returns the tombstone
verdict or the value bytes; any other key seeks past the value.  `none`
models an I/O or decode error returned to the caller. -/
def scanBlock : List Nat → List Nat → Option ((Option (List Nat)) × Bool)
  | [], _ => some (none, false)
  | b :: rest, userKey =>
    let bs := b :: rest
    if bs.length < 4 then none
    else
      let keySize := leVal (bs.take 4)
      let r1 := bs.drop 4
      if r1.length < 4 then none
      else
        let valueSize := leVal (r1.take 4)
        let r2 := r1.drop 4
        if r2.length < keySize then none
        else
          let keyBytes := r2.take keySize
          let r3 := r2.drop keySize
          match gobDecodeIK keyBytes with
          | none => scanBlock (r3.drop valueSize) userKey
          | some ik =>
            if ik.userKey = userKey then
              if ik.type = OpTypeDelete then some (none, true)
              else if r3.length < valueSize then none
              else some (some (r3.take valueSize), true)
            else scanBlock (r3.drop valueSize) userKey
termination_by bs _ => bs.length
decreasing_by
  all_goals
    simp only [List.length_drop, List.length_cons]
    omega

/-- Out-of-range index access placeholder (never used on in-range reads). -/
def dummyIndexEntry : IndexEntry := ⟨⟨[], 0, 0⟩, 0, 0⟩

/-- `SSTableReader.Get`: bloom-filter test, binary search of the index for
the least entry whose `last_internal_key ≥` the probe key, exact block read,
then the in-block scan.  `filterTest` is the opened filter's `Test`
(see the section comment); `none` models an error return. -/
def sstGet (r : SSTFile) (filterTest : List Nat → Bool) (userKey : List Nat) :
    Option ((Option (List Nat)) × Bool) :=
  if ¬ filterTest userKey then some (none, false)
  else
    let searchKey := sstSearchKey userKey
    let blockIndex := sortSearch r.index.length
      (fun i => decide (ikCompare (r.index.getD i dummyIndexEntry).lastKey searchKey ≥ 0))
    if blockIndex ≥ r.index.length then some (none, false)
    else
      let entry := r.index.getD blockIndex dummyIndexEntry
      if r.data.length < entry.offset + entry.size then none
      else scanBlock ((r.data.drop entry.offset).take entry.size) userKey

/-- `sort.Search` on a monotone predicate returns the least index in
`[0, n]` at which the predicate holds (or `n`). -/
theorem sortSearchAux_spec (f : Nat → Bool) (n : Nat)
    (hmono : ∀ a b, a ≤ b → b < n → f a = true → f b = true) :
    ∀ d i j, j - i = d → i ≤ j → j ≤ n →
      (∀ k, k < i → f k = false) →
      (∀ k, j ≤ k → k < n → f k = true) →
      (∀ k, k < sortSearchAux f i j → f k = false) ∧
        (sortSearchAux f i j < n → f (sortSearchAux f i j) = true) ∧
        i ≤ sortSearchAux f i j ∧ sortSearchAux f i j ≤ j := by
  intro d
  induction d using Nat.strong_induction_on with
  | _ d ih =>
    intro i j hd hij hjn hlow hhigh
    rw [sortSearchAux]
    by_cases h : i < j
    · rw [dif_pos h]
      by_cases hf : f ((i + j) / 2) = true
      · rw [if_pos hf]
        have hrec := ih (((i + j) / 2) - i) (by omega) i ((i + j) / 2) rfl (by omega)
          (by omega) hlow (fun k hk hkn => hmono ((i + j) / 2) k (by omega) hkn hf)
        exact ⟨hrec.1, hrec.2.1, hrec.2.2.1, by omega⟩
      · rw [if_neg hf]
        have hlow2 : ∀ k, k < (i + j) / 2 + 1 → f k = false := by
          intro k hk
          by_cases hki : k < i
          · exact hlow k hki
          · rcases Bool.eq_false_or_eq_true (f k) with hfk | hfk
            · exfalso
              have := hmono k ((i + j) / 2) (by omega) (by omega) hfk
              simp [this] at hf
            · exact hfk
        have hrec := ih (j - ((i + j) / 2 + 1)) (by omega) ((i + j) / 2 + 1) j rfl
          (by omega) hjn hlow2 hhigh
        exact ⟨hrec.1, hrec.2.1, by omega, hrec.2.2.2⟩
    · rw [dif_neg h]
      have hij2 : i = j := by omega
      exact ⟨hlow, fun hn => hhigh i (by omega) hn, le_refl i, by omega⟩

/-- `sort.Search(n, f)` for monotone `f`. -/
theorem sortSearch_spec (n : Nat) (f : Nat → Bool)
    (hmono : ∀ a b, a ≤ b → b < n → f a = true → f b = true) :
    (∀ k, k < sortSearch n f → f k = false) ∧
      (sortSearch n f < n → f (sortSearch n f) = true) ∧ sortSearch n f ≤ n := by
  have h := sortSearchAux_spec f n hmono n 0 n rfl (by omega) (le_refl n)
    (by omega) (by intro k hk hkn; omega)
  exact ⟨h.1, h.2.1, h.2.2.2⟩

/-- Bounds under which an SSTable record round-trips bit-exactly (`uint32`
length prefixes in the block framing and the key payload, `uint64`
sequence). -/
def recBounded (r : SSTRec) : Prop :=
  r.1.userKey.length + 13 < 2 ^ 32 ∧ (r.2.getD []).length < 2 ^ 32 ∧ r.1.seqNum < 2 ^ 64

instance (r : SSTRec) : Decidable (recBounded r) := by
  unfold recBounded; infer_instance

/-- Scanning a block that starts with a well-formed record either resolves
at that record (first user-key match wins) or continues with the rest. -/
theorem scanBlock_cons (ik : InternalKey) (v : Option (List Nat)) (rest : List Nat)
    (u : List Nat) (hku : ik.userKey.length + 13 < 2 ^ 32)
    (hv : (v.getD []).length < 2 ^ 32) (hs : ik.seqNum < 2 ^ 64) :
    scanBlock (encRecord ik v ++ rest) u =
      if ik.userKey = u then
        (if ik.type = OpTypeDelete then some (none, true) else some (some (v.getD []), true))
      else scanBlock rest u := by
  have hkb : (gobEncodeIK ik).length = 13 + ik.userKey.length := gobEncodeIK_length ik
  have hX : encRecord ik v ++ rest = u32le (gobEncodeIK ik).length ++
      (u32le (v.getD []).length ++ (gobEncodeIK ik ++ (v.getD [] ++ rest))) := by
    simp [encRecord, List.append_assoc]
  obtain ⟨b, tl, hbr⟩ : ∃ b tl, encRecord ik v ++ rest = b :: tl := by
    cases hx : encRecord ik v ++ rest with
    | nil =>
      have := congrArg List.length hx
      rw [hX] at hx
      have := congrArg List.length hx
      rw [List.length_append, u32le_length] at this
      simp at this
    | cons b tl => exact ⟨b, tl, rfl⟩
  rw [hbr, scanBlock]
  rw [← hbr]
  have hlen : (encRecord ik v ++ rest).length =
      8 + (gobEncodeIK ik).length + (v.getD []).length + rest.length := by
    rw [hX]
    simp [u32le_length]
    omega
  have f_take4 : (encRecord ik v ++ rest).take 4 = u32le (gobEncodeIK ik).length := by
    rw [hX]
    exact List.take_left' (u32le_length _)
  have f_drop4 : (encRecord ik v ++ rest).drop 4 =
      u32le (v.getD []).length ++ (gobEncodeIK ik ++ (v.getD [] ++ rest)) := by
    rw [hX]
    exact List.drop_left' (u32le_length _)
  have f_take4b : (u32le (v.getD []).length ++ (gobEncodeIK ik ++ (v.getD [] ++ rest))).take 4 =
      u32le (v.getD []).length := List.take_left' (u32le_length _)
  have f_drop4b : (u32le (v.getD []).length ++ (gobEncodeIK ik ++ (v.getD [] ++ rest))).drop 4 =
      gobEncodeIK ik ++ (v.getD [] ++ rest) := List.drop_left' (u32le_length _)
  have f_key : (gobEncodeIK ik ++ (v.getD [] ++ rest)).take (gobEncodeIK ik).length =
      gobEncodeIK ik := List.take_left' rfl
  have f_rest : (gobEncodeIK ik ++ (v.getD [] ++ rest)).drop (gobEncodeIK ik).length =
      v.getD [] ++ rest := List.drop_left' rfl
  have f_val : (v.getD [] ++ rest).take (v.getD []).length = v.getD [] := List.take_left' rfl
  have f_skip : (v.getD [] ++ rest).drop (v.getD []).length = rest := List.drop_left' rfl
  have h4 : ¬ ((encRecord ik v ++ rest).length < 4) := by omega
  have h4b : ¬ ((u32le (v.getD []).length ++ (gobEncodeIK ik ++ (v.getD [] ++ rest))).length < 4) := by
    rw [List.length_append, u32le_length]
    omega
  have hkeylen : ¬ ((gobEncodeIK ik ++ (v.getD [] ++ rest)).length < (gobEncodeIK ik).length) := by
    rw [List.length_append]
    omega
  have hvallen : ¬ ((v.getD [] ++ rest).length < (v.getD []).length) := by
    rw [List.length_append]
    omega
  rw [if_neg h4]
  simp only [f_take4, f_drop4, leVal_u32le (gobEncodeIK ik).length (by omega), if_neg h4b,
    f_take4b, f_drop4b, leVal_u32le (v.getD []).length hv, if_neg hkeylen, f_key, f_rest,
    gobDecodeIK_encode ik (by omega) hs, if_neg hvallen, f_val, f_skip]

/-- The bytes of one data block holding the listed records. -/
def encBlock (b : List SSTRec) : List Nat := (b.map (fun r => encRecord r.1 r.2)).join

theorem encBlock_nil : encBlock [] = [] := rfl

theorem encBlock_cons (r : SSTRec) (b : List SSTRec) :
    encBlock (r :: b) = encRecord r.1 r.2 ++ encBlock b := by
  simp [encBlock]

theorem encRecord_length (ik : InternalKey) (v : Option (List Nat)) :
    (encRecord ik v).length = 8 + (gobEncodeIK ik).length + (v.getD []).length := by
  simp [encRecord, u32le_length]
  omega

theorem encBlock_length_pos (r : SSTRec) (b : List SSTRec) :
    0 < (encBlock (r :: b)).length := by
  rw [encBlock_cons, List.length_append, encRecord_length]
  omega

/-- The first record of a list carrying the given user key. -/
def firstRecWith (u : List Nat) : List SSTRec → Option SSTRec
  | [] => none
  | r :: rest => if r.1.userKey = u then some r else firstRecWith u rest

/-- The lookup verdict a single block produces for a user key. -/
def blockVerdict (u : List Nat) (b : List SSTRec) : Option ((Option (List Nat)) × Bool) :=
  match firstRecWith u b with
  | some r =>
    if r.1.type = OpTypeDelete then some (none, true) else some (some (r.2.getD []), true)
  | none => some (none, false)

theorem scanBlock_encBlock (b : List SSTRec) (u : List Nat)
    (hb : ∀ r ∈ b, recBounded r) :
    scanBlock (encBlock b) u = blockVerdict u b := by
  induction b with
  | nil =>
    rw [encBlock_nil, scanBlock]
    rfl
  | cons r rest ih =>
    obtain ⟨h1, h2, h3⟩ := hb r (List.mem_cons_self r rest)
    rw [encBlock_cons, scanBlock_cons r.1 r.2 _ u h1 h2 h3]
    unfold blockVerdict firstRecWith
    by_cases hu : r.1.userKey = u
    · rw [if_pos hu, if_pos hu]
    · rw [if_neg hu, if_neg hu]
      exact ih (fun s hsm => hb s (List.mem_cons_of_mem r hsm))

/-- The block partition the writer's loop induces: starting from the current
block `cur`, each record either extends the current block or — when the
encoded block already exceeds `DataBlockSize` — closes it and starts a new
one; a nonempty residual block is closed at the end. -/
def chunkAux : List SSTRec → List SSTRec → List (List SSTRec)
  | [], cur => if (encBlock cur).length > 0 then [cur] else []
  | r :: rest, cur =>
    if (encBlock cur).length > DataBlockSize then cur :: chunkAux rest [r]
    else chunkAux rest (cur ++ [r])

/-- `lastKeyInBlock` for a block (the Go zero value if the block is empty). -/
def lastKeyOf (dflt : InternalKey) (b : List SSTRec) : InternalKey :=
  (b.getLastD (dflt, none)).1

/-- The index entries the writer records for a block partition laid out from
the given offset. -/
def idxOf (dflt : InternalKey) : List (List SSTRec) → Nat → List IndexEntry
  | [], _ => []
  | b :: bs, off =>
    ⟨lastKeyOf dflt b, off, (encBlock b).length⟩ :: idxOf dflt bs (off + (encBlock b).length)

theorem lastKeyOf_append_single (dflt : InternalKey) (cur : List SSTRec) (r : SSTRec) :
    lastKeyOf dflt (cur ++ [r]) = r.1 := by
  unfold lastKeyOf
  rw [List.getLastD_concat]

theorem encBlock_append (a b : List SSTRec) : encBlock (a ++ b) = encBlock a ++ encBlock b := by
  simp [encBlock]

/-- The writer's loop produces exactly the concatenated encoded blocks of
the chunk partition, with one index entry per block. -/
theorem writeRecs_eq (rest : List SSTRec) : ∀ (cur : List SSTRec) (dflt : InternalKey)
    (idx : List IndexEntry) (off : Nat) (out : List Nat),
    writeRecs rest (encBlock cur) (lastKeyOf dflt cur) idx off out =
      (out ++ ((chunkAux rest cur).map encBlock).flatten,
       idx ++ idxOf dflt (chunkAux rest cur) off) := by
  induction rest with
  | nil =>
    intro cur dflt idx off out
    show (if (encBlock cur).length > 0 then _ else _) = _
    unfold chunkAux
    by_cases h : (encBlock cur).length > 0
    · rw [if_pos h, if_pos h]
      simp [idxOf]
    · rw [if_neg h, if_neg h]
      simp [idxOf]
  | cons r rest ih =>
    intro cur dflt idx off out
    obtain ⟨ik, v⟩ := r
    show (if (encBlock cur).length > DataBlockSize then _ else _) = _
    unfold chunkAux
    by_cases h : (encBlock cur).length > DataBlockSize
    · rw [if_pos h, if_pos h]
      have h1 : encRecord ik v = encBlock [(ik, v)] := by
        simp [encBlock]
      have h2 : lastKeyOf dflt [(ik, v)] = ik := by
        simp [lastKeyOf]
      have hIH := ih [(ik, v)] dflt
        (idx ++ [⟨lastKeyOf dflt cur, off, (encBlock cur).length⟩])
        (off + (encBlock cur).length) (out ++ encBlock cur)
      rw [← h1, h2] at hIH
      rw [hIH]
      simp only [List.map_cons, List.flatten_cons, idxOf]
      simp [List.append_assoc]
    · rw [if_neg h, if_neg h]
      have h1 : encBlock cur ++ encRecord ik v = encBlock (cur ++ [(ik, v)]) := by
        rw [encBlock_append]
        simp [encBlock]
      have hIH := ih (cur ++ [(ik, v)]) dflt idx off out
      rw [← h1, lastKeyOf_append_single dflt cur (ik, v)] at hIH
      exact hIH

/-- `WriteSSTable` in terms of the chunk partition. -/
theorem writeSSTable_eq (records : List SSTRec) :
    writeSSTable records =
      ⟨((chunkAux records []).map encBlock).flatten,
       idxOf ⟨[], 0, 0⟩ (chunkAux records []) 0,
       records.map (fun r => r.1.userKey)⟩ := by
  unfold writeSSTable
  have h := writeRecs_eq records [] ⟨[], 0, 0⟩ [] 0 []
  rw [show encBlock [] = [] from rfl] at h
  rw [show lastKeyOf ⟨[], 0, 0⟩ [] = ⟨[], 0, 0⟩ from rfl] at h
  rw [h]
  simp

theorem chunkAux_flatten (rest : List SSTRec) : ∀ cur,
    (chunkAux rest cur).flatten = cur ++ rest := by
  induction rest with
  | nil =>
    intro cur
    unfold chunkAux
    by_cases h : (encBlock cur).length > 0
    · rw [if_pos h]
      simp
    · rw [if_neg h]
      cases cur with
      | nil => simp
      | cons x xs => exact absurd (encBlock_length_pos x xs) (by omega)
  | cons r rest ih =>
    intro cur
    unfold chunkAux
    by_cases h : (encBlock cur).length > DataBlockSize
    · rw [if_pos h]
      rw [List.flatten_cons, ih [r]]
      simp
    · rw [if_neg h]
      rw [ih (cur ++ [r])]
      simp

theorem chunkAux_ne_nil (rest : List SSTRec) : ∀ cur b, b ∈ chunkAux rest cur → b ≠ [] := by
  induction rest with
  | nil =>
    intro cur b hb
    unfold chunkAux at hb
    by_cases h : (encBlock cur).length > 0
    · rw [if_pos h] at hb
      simp at hb
      subst hb
      intro hc
      subst hc
      simp [encBlock] at h
    · rw [if_neg h] at hb
      simp at hb
  | cons r rest ih =>
    intro cur b hb
    unfold chunkAux at hb
    by_cases h : (encBlock cur).length > DataBlockSize
    · rw [if_pos h] at hb
      rcases List.mem_cons.mp hb with hb1 | hb2
      · subst hb1
        intro hc
        subst hc
        simp [encBlock, DataBlockSize] at h
      · exact ih [r] b hb2
    · rw [if_neg h] at hb
      exact ih (cur ++ [r]) b hb

theorem idxOf_length (dflt : InternalKey) (blocks : List (List SSTRec)) (off : Nat) :
    (idxOf dflt blocks off).length = blocks.length := by
  induction blocks generalizing off with
  | nil => rfl
  | cons b bs ih => simp [idxOf, ih]

/-- The index entry for block `i` names that block's last key and addresses
exactly that block's bytes within the data region. -/
theorem idxOf_slice (dflt : InternalKey) (blocks : List (List SSTRec)) (pre : List Nat)
    (i : Nat) (hi : i < blocks.length) :
    ((idxOf dflt blocks pre.length).getD i dummyIndexEntry).lastKey =
        lastKeyOf dflt (blocks.getD i []) ∧
      ((idxOf dflt blocks pre.length).getD i dummyIndexEntry).offset +
          ((idxOf dflt blocks pre.length).getD i dummyIndexEntry).size ≤
        (pre ++ (blocks.map encBlock).flatten).length ∧
      ((pre ++ (blocks.map encBlock).flatten).drop
          ((idxOf dflt blocks pre.length).getD i dummyIndexEntry).offset).take
        ((idxOf dflt blocks pre.length).getD i dummyIndexEntry).size =
        encBlock (blocks.getD i []) := by
  induction blocks generalizing pre i with
  | nil => cases hi
  | cons b bs ih =>
    cases i with
    | zero =>
      refine ⟨rfl, ?_, ?_⟩
      · show pre.length + (encBlock b).length ≤ _
        rw [List.length_append, List.map_cons, List.flatten_cons, List.length_append]
        omega
      · show ((pre ++ (List.map encBlock (b :: bs)).flatten).drop pre.length).take
          (encBlock b).length = encBlock b
        rw [List.drop_left, List.map_cons, List.flatten_cons]
        exact List.take_left _ _
    | succ j =>
      have hj : j < bs.length := by simpa using hi
      have hres := ih (pre ++ encBlock b) j hj
      rw [List.length_append] at hres
      simp only [idxOf, List.getD_cons_succ, List.map_cons, List.flatten_cons,
        ← List.append_assoc]
      exact hres

instance : IsTrans InternalKey ikLt := ⟨fun _ _ _ => ikLt_trans⟩

theorem getD_of_lt {α : Type} (l : List α) (i : Nat) (d : α) (h : i < l.length) :
    l.getD i d = l[i] := by
  rw [List.getD_eq_getElem?_getD, List.getElem?_eq_getElem h]
  rfl

theorem firstRecWith_cons (u : List Nat) (x : SSTRec) (xs : List SSTRec) :
    firstRecWith u (x :: xs) = if x.1.userKey = u then some x else firstRecWith u xs := rfl

theorem firstRecWith_append (u : List Nat) (a b : List SSTRec) :
    firstRecWith u (a ++ b) =
      match firstRecWith u a with
      | some r => some r
      | none => firstRecWith u b := by
  induction a with
  | nil => rfl
  | cons x xs ih =>
    rw [List.cons_append, firstRecWith_cons, firstRecWith_cons]
    by_cases h : x.1.userKey = u
    · rw [if_pos h, if_pos h]
    · rw [if_neg h, if_neg h]
      exact ih

theorem firstRecWith_eq_none (u : List Nat) (b : List SSTRec)
    (h : ∀ r ∈ b, r.1.userKey ≠ u) : firstRecWith u b = none := by
  induction b with
  | nil => rfl
  | cons x xs ih =>
    rw [firstRecWith_cons, if_neg (h x (List.mem_cons_self x xs))]
    exact ih (fun r hr => h r (List.mem_cons_of_mem x hr))

theorem firstRecWith_mem (u : List Nat) (b : List SSTRec) (r : SSTRec)
    (h : firstRecWith u b = some r) : r ∈ b ∧ r.1.userKey = u := by
  induction b with
  | nil => cases h
  | cons x xs ih =>
    rw [firstRecWith_cons] at h
    by_cases hx : x.1.userKey = u
    · rw [if_pos hx] at h
      have hxr : x = r := by injection h
      subst hxr
      exact ⟨List.mem_cons_self x xs, hx⟩
    · rw [if_neg hx] at h
      obtain ⟨h1, h2⟩ := ih h
      exact ⟨List.mem_cons_of_mem x h1, h2⟩

theorem firstRecWith_isSome (u : List Nat) (b : List SSTRec) (r : SSTRec)
    (hr : r ∈ b) (hu : r.1.userKey = u) : ∃ s, firstRecWith u b = some s := by
  induction b with
  | nil => cases hr
  | cons x xs ih =>
    rw [firstRecWith_cons]
    by_cases hx : x.1.userKey = u
    · exact ⟨x, by rw [if_pos hx]⟩
    · rw [if_neg hx]
      rcases List.mem_cons.mp hr with h1 | h1
      · subst h1
        exact absurd hu hx
      · exact ih h1

/-- In a block whose keys are comparator-pairwise-increasing, the block's
last key is `≥` every key in the block. -/
theorem block_last_ge (dflt : InternalKey) (b : List SSTRec) (hb : b ≠ [])
    (hp : List.Pairwise ikLt (b.map (fun r => r.1))) :
    ∀ s ∈ b, ikCompare (lastKeyOf dflt b) s.1 ≥ 0 := by
  rcases List.eq_nil_or_concat b with h | ⟨L, x, h⟩
  · exact absurd h hb
  · rw [List.concat_eq_append] at h
    subst h
    intro s hs
    rw [lastKeyOf_append_single]
    rcases List.mem_append.mp hs with h1 | h1
    · have hlt : ikLt s.1 x.1 := by
        rw [List.map_append] at hp
        have := (List.pairwise_append.mp hp).2.2 s.1 (List.mem_map_of_mem _ h1)
          x.1 (by simp)
        exact this
      rw [ikCompare_antisymm, hlt]
      norm_num
    · have : s = x := by simpa using h1
      subst this
      rw [ikCompare_self]

theorem idxOf_slice0 (dflt : InternalKey) (blocks : List (List SSTRec)) (i : Nat)
    (hi : i < blocks.length) :
    ((idxOf dflt blocks 0).getD i dummyIndexEntry).lastKey = lastKeyOf dflt (blocks.getD i []) ∧
    ((idxOf dflt blocks 0).getD i dummyIndexEntry).offset +
        ((idxOf dflt blocks 0).getD i dummyIndexEntry).size ≤
      ((blocks.map encBlock).flatten).length ∧
    (((blocks.map encBlock).flatten).drop
        ((idxOf dflt blocks 0).getD i dummyIndexEntry).offset).take
      ((idxOf dflt blocks 0).getD i dummyIndexEntry).size = encBlock (blocks.getD i []) := by
  have h := idxOf_slice dflt blocks [] i hi
  simpa using h

/-- The probe key `(u, MaxInt64, PUT)` is `≤` every version of user key `u`
whose sequence number is at most `MaxInt64`. -/
theorem probe_le_version (s : InternalKey) (u : List Nat) (hu : s.userKey = u)
    (hs : s.seqNum ≤ 2 ^ 63 - 1) : ikCompare s (sstSearchKey u) ≥ 0 := by
  unfold sstSearchKey ikCompare
  simp only [← hu, bytesCmp_self]
  norm_num
  split
  · omega
  · split <;> norm_num

/-- A key whose user key is lexicographically below `u` is `<` the probe. -/
theorem below_probe (w : InternalKey) (u : List Nat)
    (hw : bytesCmp w.userKey u = -1) : ikCompare w (sstSearchKey u) = -1 := by
  unfold sstSearchKey ikCompare
  simp [hw]

theorem ikGe_of_lt {a b : InternalKey} (h : ikLt a b) : ikCompare b a ≥ 0 := by
  rw [ikCompare_antisymm, h]
  norm_num

theorem lastKeyOf_mem (dflt : InternalKey) (b : List SSTRec) (hb : b ≠ []) :
    ∃ s, s ∈ b ∧ lastKeyOf dflt b = s.1 := by
  rcases List.eq_nil_or_concat b with h | ⟨L, x, h⟩
  · exact absurd h hb
  · rw [List.concat_eq_append] at h
    subst h
    exact ⟨x, by simp, lastKeyOf_append_single dflt L x⟩

/-- Comparator-below with distinct user keys forces the user keys to be in
strict byte order. -/
theorem ikLt_key_lt {a b : InternalKey} (h : ikLt a b) (hne : a.userKey ≠ b.userKey) :
    bytesCmp a.userKey b.userKey = -1 := by
  rcases (ikLt_iff a b).mp h with h1 | ⟨h1, h2⟩
  · exact h1
  · exact absurd h1 hne

theorem findIdx_getD_pred {α : Type} (p : α → Bool) (l : List α) (d : α)
    (h : l.findIdx p < l.length) : p (l.getD (l.findIdx p) d) = true := by
  rw [getD_of_lt _ _ _ h]
  exact List.findIdx_getElem

theorem not_findIdx_getD_pred {α : Type} (p : α → Bool) (l : List α) (d : α)
    (i : Nat) (hi : i < l.length) (h : i < l.findIdx p) : p (l.getD i d) = false := by
  rw [getD_of_lt _ _ _ hi]
  exact List.not_of_lt_findIdx h

/-- `SSTableReader.Get` on the file written from a block partition: the
verdict is that of the first record carrying the probed user key, for any
filter with no false negatives. -/
theorem sstGet_blocks (blocks : List (List SSTRec)) (ft : List Nat → Bool) (u : List Nat)
    (hnn : ∀ b ∈ blocks, b ≠ [])
    (hb : ∀ b ∈ blocks, ∀ r ∈ b, recBounded r)
    (hseq : ∀ b ∈ blocks, ∀ r ∈ b, r.1.seqNum ≤ 2 ^ 63 - 1)
    (hft : ∀ b ∈ blocks, ∀ r ∈ b, ft r.1.userKey = true)
    (hpwIn : ∀ b ∈ blocks, List.Pairwise ikLt (b.map (fun r => r.1)))
    (hpwCross : List.Pairwise (fun l1 l2 => ∀ x ∈ l1, ∀ y ∈ l2, ikLt x y)
      (blocks.map (fun b => b.map (fun r => r.1)))) :
    sstGet ⟨(blocks.map encBlock).flatten, idxOf ⟨[], 0, 0⟩ blocks 0,
        (blocks.flatten).map (fun r => r.1.userKey)⟩ ft u =
      some (match firstRecWith u blocks.flatten with
        | some r => if r.1.type = OpTypeDelete then (none, true) else (some (r.2.getD []), true)
        | none => (none, false)) := by
  unfold sstGet
  by_cases hftu : ft u = true
  case neg =>
    rw [if_pos (by simpa using hftu)]
    have hnou : ∀ r ∈ blocks.flatten, r.1.userKey ≠ u := by
      intro r hr hru
      obtain ⟨b, hbm, hrb⟩ := List.mem_flatten.mp hr
      exact hftu (hru ▸ hft b hbm r hrb)
    rw [firstRecWith_eq_none u _ hnou]
  case pos =>
    rw [if_neg (by simpa using hftu)]
    have hlen : (idxOf (⟨[], 0, 0⟩ : InternalKey) blocks 0).length = blocks.length :=
      idxOf_length _ blocks 0
    have hcross : ∀ i j (hi : i < blocks.length) (hj : j < blocks.length), i < j →
        ∀ x ∈ blocks.getD i [], ∀ y ∈ blocks.getD j [], ikLt x.1 y.1 := by
      intro i j hi hj hij x hx y hy
      have hp := List.pairwise_iff_getElem.mp hpwCross i j (by simpa using hi)
        (by simpa using hj) hij
      rw [List.getElem_map, List.getElem_map] at hp
      rw [getD_of_lt _ _ _ hi] at hx
      rw [getD_of_lt _ _ _ hj] at hy
      exact hp x.1 (List.mem_map_of_mem _ hx) y.1 (List.mem_map_of_mem _ hy)
    have hmono : ∀ a b, a ≤ b → b < (idxOf (⟨[], 0, 0⟩ : InternalKey) blocks 0).length →
        (fun i => decide (ikCompare
            ((idxOf (⟨[], 0, 0⟩ : InternalKey) blocks 0).getD i dummyIndexEntry).lastKey
            (sstSearchKey u) ≥ 0)) a = true →
        (fun i => decide (ikCompare
            ((idxOf (⟨[], 0, 0⟩ : InternalKey) blocks 0).getD i dummyIndexEntry).lastKey
            (sstSearchKey u) ≥ 0)) b = true := by
      intro a b hab hbn ha
      simp only [decide_eq_true_eq] at ha ⊢
      rw [hlen] at hbn
      have han : a < blocks.length := by omega
      rw [(idxOf_slice0 _ blocks a han).1] at ha
      rw [(idxOf_slice0 _ blocks b hbn).1]
      rcases Nat.eq_or_lt_of_le hab with heq | hlt
      · subst heq
        exact ha
      · obtain ⟨sa, hsa, hka⟩ := lastKeyOf_mem _ (blocks.getD a [])
          (hnn _ (by rw [getD_of_lt _ _ _ han]; exact List.getElem_mem _))
        obtain ⟨sb, hsb, hkb⟩ := lastKeyOf_mem _ (blocks.getD b [])
          (hnn _ (by rw [getD_of_lt _ _ _ hbn]; exact List.getElem_mem _))
        have hl : ikLt sa.1 sb.1 := hcross a b han hbn hlt sa hsa sb hsb
        rw [hka] at ha
        rw [hkb]
        exact ikGe_trans (ikGe_of_lt hl) ha
    dsimp only
    obtain ⟨T, hT⟩ : ∃ t, sortSearch (idxOf (⟨[], 0, 0⟩ : InternalKey) blocks 0).length
        (fun i => decide (ikCompare
          ((idxOf (⟨[], 0, 0⟩ : InternalKey) blocks 0).getD i dummyIndexEntry).lastKey
          (sstSearchKey u) ≥ 0)) = t := ⟨_, rfl⟩
    rw [hT]
    have hspec := sortSearch_spec (idxOf (⟨[], 0, 0⟩ : InternalKey) blocks 0).length
      (fun i => decide (ikCompare
        ((idxOf (⟨[], 0, 0⟩ : InternalKey) blocks 0).getD i dummyIndexEntry).lastKey
        (sstSearchKey u) ≥ 0)) hmono
    rw [hT] at hspec
    by_cases hex : ∃ b ∈ blocks, ∃ r ∈ b, r.1.userKey = u
    · obtain ⟨b0, hb0, r0, hr0, hr0u⟩ := hex
      obtain ⟨t', ht'⟩ : ∃ t, blocks.findIdx
          (fun b => b.any fun s => decide (s.1.userKey = u)) = t := ⟨_, rfl⟩
      have hlt2 : t' < blocks.length := by
        rw [← ht']
        exact List.findIdx_lt_length_of_exists ⟨b0, hb0, by
          simp only [List.any_eq_true, decide_eq_true_eq]
          exact ⟨r0, hr0, hr0u⟩⟩
      have hat : ∃ s ∈ blocks.getD t' [], s.1.userKey = u := by
        have hp := findIdx_getD_pred (fun b => b.any fun s => decide (s.1.userKey = u))
          blocks [] (by rw [ht']; exact hlt2)
        rw [ht'] at hp
        simpa only [List.any_eq_true, decide_eq_true_eq] using hp
      obtain ⟨s, hsmem, hsu⟩ := hat
      have hbefore : ∀ i, i < blocks.length → i < t' →
          ∀ r ∈ blocks.getD i [], r.1.userKey ≠ u := by
        intro i hilen hit r hr hru
        have hp := not_findIdx_getD_pred (fun b => b.any fun s => decide (s.1.userKey = u))
          blocks [] i hilen (by rw [ht']; exact hit)
        rw [List.any_eq_false] at hp
        have hp2 := hp r hr
        simp only [decide_eq_true_eq] at hp2
        exact hp2 hru
      have hpairs : List.Pairwise ikLt ((blocks.getD t' []).map (fun r => r.1)) := by
        rw [getD_of_lt _ _ _ hlt2]
        exact hpwIn _ (List.getElem_mem _)
      have hnnB : blocks.getD t' [] ≠ [] := by
        rw [getD_of_lt _ _ _ hlt2]
        exact hnn _ (List.getElem_mem _)
      have hmemblk : blocks.getD t' [] ∈ blocks := by
        rw [getD_of_lt _ _ _ hlt2]
        exact List.getElem_mem _
      have predTrue : decide (ikCompare
          ((idxOf (⟨[], 0, 0⟩ : InternalKey) blocks 0).getD t' dummyIndexEntry).lastKey
          (sstSearchKey u) ≥ 0) = true := by
        rw [(idxOf_slice0 _ blocks t' hlt2).1]
        simp only [decide_eq_true_eq]
        exact ikGe_trans (block_last_ge _ _ hnnB hpairs s hsmem)
          (probe_le_version s.1 u hsu (hseq _ hmemblk s hsmem))
      have predFalse : ∀ i, i < blocks.length → i < t' →
          decide (ikCompare
            ((idxOf (⟨[], 0, 0⟩ : InternalKey) blocks 0).getD i dummyIndexEntry).lastKey
            (sstSearchKey u) ≥ 0) = false := by
        intro i hilen hit
        rw [(idxOf_slice0 _ blocks i hilen).1]
        obtain ⟨w, hw, hwk⟩ := lastKeyOf_mem _ (blocks.getD i [])
          (by rw [getD_of_lt _ _ _ hilen]; exact hnn _ (List.getElem_mem _))
        rw [hwk]
        have hl : ikLt w.1 s.1 := hcross i t' hilen hlt2 hit w hw s hsmem
        have hne : w.1.userKey ≠ s.1.userKey := by
          rw [hsu]
          exact hbefore i hilen hit w hw
        have hbc := ikLt_key_lt hl hne
        rw [hsu] at hbc
        simp only [below_probe w.1 u hbc]
        decide
      have hTt' : T = t' := by
        rcases Nat.lt_trichotomy T t' with h | h | h
        · have h1 : decide (ikCompare
              ((idxOf (⟨[], 0, 0⟩ : InternalKey) blocks 0).getD T dummyIndexEntry).lastKey
              (sstSearchKey u) ≥ 0) = true := hspec.2.1 (by omega)
          have h2 := predFalse T (by omega) h
          rw [h1] at h2
          cases h2
        · exact h
        · have h1 : decide (ikCompare
              ((idxOf (⟨[], 0, 0⟩ : InternalKey) blocks 0).getD t' dummyIndexEntry).lastKey
              (sstSearchKey u) ≥ 0) = false := hspec.1 t' h
          rw [predTrue] at h1
          cases h1
      rw [hTt']
      rw [if_neg (by omega)]
      obtain ⟨hlast, hbound, hslice⟩ := idxOf_slice0 (⟨[], 0, 0⟩ : InternalKey) blocks t' hlt2
      rw [if_neg (by omega)]
      have hrecb : ∀ r ∈ blocks.getD t' [], recBounded r := by
        intro r hr
        rw [getD_of_lt _ _ _ hlt2] at hr
        exact hb _ (List.getElem_mem _) r hr
      rw [hslice, scanBlock_encBlock (blocks.getD t' []) u hrecb]
      obtain ⟨s2, hs2⟩ := firstRecWith_isSome u _ s hsmem hsu
      have hdropT : blocks.drop t' = blocks.getD t' [] :: blocks.drop (t' + 1) := by
        rw [getD_of_lt _ _ _ hlt2]
        exact List.drop_eq_getElem_cons hlt2
      have hflat2 : blocks.flatten = (blocks.take t').flatten ++
          (blocks.getD t' [] ++ (blocks.drop (t' + 1)).flatten) := by
        conv_lhs => rw [← List.take_append_drop t' blocks]
        rw [List.flatten_append, hdropT, List.flatten_cons]
      have hpre : firstRecWith u (blocks.take t').flatten = none := by
        apply firstRecWith_eq_none
        intro r hr
        obtain ⟨b, hbm, hrb⟩ := List.mem_flatten.mp hr
        obtain ⟨i, hilen, hieq⟩ := List.getElem_of_mem hbm
        have hilen2 : i < blocks.length := by
          have h3 := hilen
          simp only [List.length_take] at h3
          omega
        have hit : i < t' := by
          have h3 := hilen
          simp only [List.length_take] at h3
          omega
        apply hbefore i hilen2 hit r
        rw [getD_of_lt _ _ _ hilen2]
        have hgt : (blocks.take t')[i] = blocks[i] := List.getElem_take blocks
        rw [← hgt, hieq]
        exact hrb
      have hfr : firstRecWith u blocks.flatten = some s2 := by
        rw [hflat2, firstRecWith_append, hpre]
        show firstRecWith u (blocks.getD t' [] ++ (blocks.drop (t' + 1)).flatten) = some s2
        rw [firstRecWith_append, hs2]
      unfold blockVerdict
      rw [hs2, hfr]
      show (if s2.1.type = OpTypeDelete then some ((none : Option (List Nat)), true)
          else some (some (s2.2.getD []), true)) =
        some (if s2.1.type = OpTypeDelete then ((none : Option (List Nat)), true)
          else (some (s2.2.getD []), true))
      by_cases hdel : s2.1.type = OpTypeDelete
      · rw [if_pos hdel, if_pos hdel]
      · rw [if_neg hdel, if_neg hdel]
    · have hnou2 : ∀ r ∈ blocks.flatten, r.1.userKey ≠ u := by
        intro r hr hru
        obtain ⟨b, hbm, hrb⟩ := List.mem_flatten.mp hr
        exact hex ⟨b, hbm, r, hrb, hru⟩
      rw [firstRecWith_eq_none u _ hnou2]
      by_cases ht : T ≥ (idxOf (⟨[], 0, 0⟩ : InternalKey) blocks 0).length
      · rw [if_pos ht]
      · rw [if_neg ht]
        have hTlt : T < blocks.length := by omega
        obtain ⟨hlast, hbound, hslice⟩ := idxOf_slice0 (⟨[], 0, 0⟩ : InternalKey) blocks T hTlt
        rw [if_neg (by omega)]
        have hrecb : ∀ r ∈ blocks.getD T [], recBounded r := by
          intro r hr
          rw [getD_of_lt _ _ _ hTlt] at hr
          exact hb _ (List.getElem_mem _) r hr
        rw [hslice, scanBlock_encBlock (blocks.getD T []) u hrecb]
        have hnou3 : ∀ r ∈ blocks.getD T [], r.1.userKey ≠ u := by
          intro r hr
          rw [getD_of_lt _ _ _ hTlt] at hr
          exact hnou2 r (List.mem_flatten.mpr ⟨blocks[T], List.getElem_mem _, hr⟩)
        unfold blockVerdict
        rw [firstRecWith_eq_none u (blocks.getD T []) hnou3]

/-- `WriteSSTable` then `SSTableReader.Get`, over the writer's input record
list: the verdict is that of the first record (in list order) carrying the
probed user key. -/
theorem sstGet_writeSSTable (records : List SSTRec) (ft : List Nat → Bool) (u : List Nat)
    (hsorted : List.Pairwise ikLt (records.map (fun r => r.1)))
    (hb : ∀ r ∈ records, recBounded r)
    (hseq : ∀ r ∈ records, r.1.seqNum ≤ 2 ^ 63 - 1)
    (hft : ∀ r ∈ records, ft r.1.userKey = true) :
    sstGet (writeSSTable records) ft u =
      some (match firstRecWith u records with
        | some r => if r.1.type = OpTypeDelete then (none, true) else (some (r.2.getD []), true)
        | none => (none, false)) := by
  rw [writeSSTable_eq]
  have hflat : (chunkAux records []).flatten = records := by
    have h := chunkAux_flatten records []
    simpa using h
  have hmem : ∀ b ∈ chunkAux records [], ∀ r ∈ b, r ∈ records := by
    intro b hbm r hrb
    rw [← hflat]
    exact List.mem_flatten.mpr ⟨b, hbm, hrb⟩
  have hmap : records.map (fun r => r.1) =
      ((chunkAux records []).map (fun b => b.map (fun r => r.1))).flatten := by
    conv_lhs => rw [← hflat]
    rw [List.map_flatten]
  rw [hmap] at hsorted
  rw [List.pairwise_flatten] at hsorted
  have h := sstGet_blocks (chunkAux records []) ft u
    (chunkAux_ne_nil records [])
    (fun b hbm r hrb => hb r (hmem b hbm r hrb))
    (fun b hbm r hrb => hseq r (hmem b hbm r hrb))
    (fun b hbm r hrb => hft r (hmem b hbm r hrb))
    (fun b hbm => hsorted.1 _ (List.mem_map_of_mem _ hbm))
    hsorted.2
  rw [hflat] at h
  exact h

/-- In a comparator-sorted record list the first record with a given user key
carries the greatest sequence number among that key's versions. -/
theorem firstRecWith_newest (u : List Nat) : ∀ records : List SSTRec,
    List.Pairwise ikLt (records.map (fun r => r.1)) →
    ∀ r : SSTRec, firstRecWith u records = some r →
    ∀ r2 ∈ records, r2.1.userKey = u → r2.1.seqNum ≤ r.1.seqNum := by
  intro records
  induction records with
  | nil =>
    intro _ r h
    cases h
  | cons x rest ih =>
    intro hsorted r h r2 hr2 hr2u
    rw [firstRecWith_cons] at h
    rw [List.map_cons, List.pairwise_cons] at hsorted
    by_cases hx : x.1.userKey = u
    · rw [if_pos hx] at h
      have hxr : x = r := by injection h
      subst hxr
      rcases List.mem_cons.mp hr2 with h1 | h1
      · subst h1
        exact le_refl _
      · have hlt := hsorted.1 r2.1 (List.mem_map_of_mem _ h1)
        rcases (ikLt_iff x.1 r2.1).mp hlt with hc | ⟨hc, hs2⟩
        · rw [hx, hr2u, bytesCmp_self] at hc
          exact absurd hc (by decide)
        · omega
    · rw [if_neg hx] at h
      rcases List.mem_cons.mp hr2 with h1 | h1
      · subst h1
        exact absurd hr2u hx
      · exact ih hsorted.2 r h r2 h1 hr2u

/-- `sort.Search(1, f)` returns 1 when the predicate fails at 0. -/
theorem sortSearch_one_false (f : Nat → Bool) (h0 : f 0 = false) : sortSearch 1 f = 1 := by
  have hs := sortSearch_spec 1 f (by
    intro a b hab hb1 hfa
    have ha0 : a = 0 := by omega
    rw [ha0, h0] at hfa
    cases hfa)
  have h1 := hs.2.1
  have h2 := hs.2.2
  rcases Nat.lt_or_ge (sortSearch 1 f) 1 with h | h
  · have ht := h1 h
    have h00 : sortSearch 1 f = 0 := by omega
    rw [h00, h0] at ht
    cases ht
  · omega

/-- C4 (amended): for a comparator-sorted record list with in-range lengths
whose sequence numbers are all ≤ MaxInt64 (2^63 − 1), and any bloom filter
with no false negatives on the written keys, the reader returns not-found for
every absent user key (bloom false positives included — the filter may answer
true and the block scan still returns not-found), and for every present user
key it returns the verdict of the newest version — the tombstone verdict for
op DELETE, the stored value with found = true for op PUT.  The
MaxInt64 bound is necessary: the reader probes with sequence MaxInt64, not
MaxUint64 (see the counterexample). -/
theorem c4_sstable_roundtrip (records : List SSTRec) (ft : List Nat → Bool) (u : List Nat)
    (hsorted : List.Pairwise ikLt (records.map (fun r => r.1)))
    (hb : ∀ r ∈ records, recBounded r)
    (hseq : ∀ r ∈ records, r.1.seqNum ≤ 2 ^ 63 - 1)
    (hft : ∀ r ∈ records, ft r.1.userKey = true) :
    ((∀ r ∈ records, r.1.userKey ≠ u) →
      sstGet (writeSSTable records) ft u = some (none, false)) ∧
    ((∃ r ∈ records, r.1.userKey = u) →
      ∃ r, firstRecWith u records = some r ∧ r ∈ records ∧ r.1.userKey = u ∧
        (∀ r2 ∈ records, r2.1.userKey = u → r2.1.seqNum ≤ r.1.seqNum) ∧
        sstGet (writeSSTable records) ft u =
          some (if r.1.type = OpTypeDelete then ((none : Option (List Nat)), true)
            else (some (r.2.getD []), true))) := by
  have hmain := sstGet_writeSSTable records ft u hsorted hb hseq hft
  constructor
  · intro hno
    rw [firstRecWith_eq_none u records hno] at hmain
    exact hmain
  · rintro ⟨r0, hr0, hr0u⟩
    obtain ⟨r, hr⟩ := firstRecWith_isSome u records r0 hr0 hr0u
    obtain ⟨hmem, hku⟩ := firstRecWith_mem u records r hr
    refine ⟨r, hr, hmem, hku, firstRecWith_newest u records hsorted r hr, ?_⟩
    rw [hr] at hmain
    exact hmain

/-- C4 counterexample: a single record whose sequence number is MaxUint64 is
written, yet the reader answers not-found for its user key — the probe
`(user_key, MaxInt64, PUT)` compares strictly below the record's internal
key, the sole index entry fails the binary-search predicate, and the search
returns one past the end of the index. -/
theorem c4_maxseq_counterexample :
    sstGet (writeSSTable [((⟨[5], 2 ^ 64 - 1, OpTypePut⟩ : InternalKey), some [7])])
      (fun _ => true) [5] = some (none, false) := by
  have hidx : (writeSSTable [((⟨[5], 2 ^ 64 - 1, OpTypePut⟩ : InternalKey), some [7])]).index =
      [⟨⟨[5], 2 ^ 64 - 1, OpTypePut⟩, 0, 23⟩] := by decide
  unfold sstGet
  rw [if_neg (by decide)]
  dsimp only
  rw [hidx]
  rw [show ([(⟨⟨[5], 2 ^ 64 - 1, OpTypePut⟩, 0, 23⟩ : IndexEntry)]).length = 1 from rfl]
  rw [sortSearch_one_false _ (by decide)]
  rw [if_pos (by omega)]

theorem c4_sstable_roundtrip_witness :
    ((∀ r ∈ ([((⟨[1], 2, OpTypePut⟩ : InternalKey), some [9]),
        (⟨[1], 1, OpTypeDelete⟩, (none : Option (List Nat))),
        (⟨[2], 3, OpTypePut⟩, some [7])] : List SSTRec), r.1.userKey ≠ [1]) →
      sstGet (writeSSTable [((⟨[1], 2, OpTypePut⟩ : InternalKey), some [9]),
        (⟨[1], 1, OpTypeDelete⟩, none), (⟨[2], 3, OpTypePut⟩, some [7])])
        (fun _ => true) [1] = some (none, false)) ∧
    ((∃ r ∈ ([((⟨[1], 2, OpTypePut⟩ : InternalKey), some [9]),
        (⟨[1], 1, OpTypeDelete⟩, (none : Option (List Nat))),
        (⟨[2], 3, OpTypePut⟩, some [7])] : List SSTRec), r.1.userKey = [1]) →
      ∃ r, firstRecWith [1] ([((⟨[1], 2, OpTypePut⟩ : InternalKey), some [9]),
          (⟨[1], 1, OpTypeDelete⟩, (none : Option (List Nat))),
          (⟨[2], 3, OpTypePut⟩, some [7])] : List SSTRec) = some r ∧
        r ∈ ([((⟨[1], 2, OpTypePut⟩ : InternalKey), some [9]),
          (⟨[1], 1, OpTypeDelete⟩, (none : Option (List Nat))),
          (⟨[2], 3, OpTypePut⟩, some [7])] : List SSTRec) ∧ r.1.userKey = [1] ∧
        (∀ r2 ∈ ([((⟨[1], 2, OpTypePut⟩ : InternalKey), some [9]),
          (⟨[1], 1, OpTypeDelete⟩, (none : Option (List Nat))),
          (⟨[2], 3, OpTypePut⟩, some [7])] : List SSTRec),
          r2.1.userKey = [1] → r2.1.seqNum ≤ r.1.seqNum) ∧
        sstGet (writeSSTable [((⟨[1], 2, OpTypePut⟩ : InternalKey), some [9]),
          (⟨[1], 1, OpTypeDelete⟩, none), (⟨[2], 3, OpTypePut⟩, some [7])])
          (fun _ => true) [1] =
          some (if r.1.type = OpTypeDelete then ((none : Option (List Nat)), true)
            else (some (r.2.getD []), true))) :=
  c4_sstable_roundtrip [((⟨[1], 2, OpTypePut⟩ : InternalKey), some [9]),
      (⟨[1], 1, OpTypeDelete⟩, none), (⟨[2], 3, OpTypePut⟩, some [7])]
    (fun _ => true) [1] (by decide) (by decide) (by decide) (by decide)

/-! ## MemTable (`memtable.go`)

The MemTable wraps a `huandu/skiplist` ordered by `internalKeyComparable`
(§4.3 of the spec gives the container contract this embedding uses): the
skiplist holds its elements in comparator order, `Set` inserts a key/value
pair at its ordered position (overwriting the value if an equal key exists),
`Find` returns the first element whose key is `≥` the probe, and forward
iteration yields the elements in order.  We represent the skiplist contents
as the comparator-ordered element list. -/

/-- `MemTable`: the skiplist contents in comparator order plus the
approximate byte size counter. -/
structure MemTable where
  data : List SSTRec
  size : Nat
deriving DecidableEq, Repr

/-- `NewMemTable()`. -/
def NewMemTable : MemTable := ⟨[], 0⟩

/-- `skiplist.Set` on the ordered element list: insert at the comparator
position; an element with an equal key keeps its stored key and takes the
new value. -/
def slSet : List SSTRec → InternalKey → Option (List Nat) → List SSTRec
  | [], k, v => [(k, v)]
  | (k0, v0) :: rest, k, v =>
    if ikCompare k k0 = -1 then (k, v) :: (k0, v0) :: rest
    else if ikCompare k k0 = 0 then (k0, v) :: rest
    else (k0, v0) :: slSet rest k v

/-- `MemTable.Put`: `data.Set(key, value)` and
`size += len(key.UserKey) + len(value)` (a Go `nil` value contributes 0). -/
def memPut (m : MemTable) (key : InternalKey) (value : Option (List Nat)) : MemTable :=
  ⟨slSet m.data key value, m.size + (key.userKey.length + (value.getD []).length)⟩

/-- `skiplist.Find`: the first element (in comparator order) whose key is
`≥` the given key. -/
def slFind (data : List SSTRec) (k : InternalKey) : Option SSTRec :=
  data.find? (fun e => decide (ikCompare e.1 k ≥ 0))

/-- `MemTable.Get`: probe with `(key, math.MaxUint64, OpTypePut)`, `Find`
the least element `≥` the probe, then compare user keys and apply the
tombstone rule.  The returned option is the Go `[]byte` (with `nil` =
`none`). -/
def memGet (m : MemTable) (key : List Nat) : Option (List Nat) × Bool :=
  let searchKey := memSearchKey key
  match slFind m.data searchKey with
  | none => (none, false)
  | some (foundKey, v) =>
    if foundKey.userKey ≠ key then (none, false)
    else if foundKey.type = OpTypeDelete then (none, true)
    else (v, true)

/-- `MemTable.ApproximateSize`. -/
def ApproximateSize (m : MemTable) : Nat := m.size

/-- A skiplist key as handed to the comparator: the engine stores
`InternalKey` keys, but `MemTable.Delete` passes a raw `[]byte`. -/
inductive SkipKey where
  | ikey (k : InternalKey)
  | raw (b : List Nat)
deriving DecidableEq, Repr

/-- `internalKeyComparable.Compare` as invoked by the skiplist: both
operands are type-asserted to `InternalKey`; a non-`InternalKey` operand
panics (`none`). -/
def goCompare : SkipKey → SkipKey → Option Int
  | .ikey a, .ikey b => some (ikCompare a b)
  | _, _ => none

/-- `skiplist.Remove` on the ordered element list: walk the elements in
order, comparing the removal key against each stored key with the
comparator; `none` models a comparator panic propagating out of `Remove`,
otherwise the result is the remaining list and the removed element (if
any). -/
def slRemove : List SSTRec → SkipKey → Option (List SSTRec × Option SSTRec)
  | [], _ => some ([], none)
  | (k0, v0) :: rest, k =>
    match goCompare k (.ikey k0) with
    | none => none
    | some c =>
      if c = 0 then some (rest, some (k0, v0))
      else if c = -1 then some ((k0, v0) :: rest, none)
      else match slRemove rest k with
        | none => none
        | some (rest2, rem) => some ((k0, v0) :: rest2, rem)

/-- `MemTable.Delete`: `data.Remove(key)` with the raw user-key bytes as
the removal key; on a removed element the size counter is decremented.
`none` models the comparator panic escaping `Delete`. -/
def memDelete (m : MemTable) (key : List Nat) : Option MemTable :=
  match slRemove m.data (.raw key) with
  | none => none
  | some (d2, some (_, v0)) => some ⟨d2, m.size - (key.length + (v0.getD []).length)⟩
  | some (d2, none) => some ⟨d2, m.size⟩

theorem bytesCmp_ne_of_neg {a b : List Nat} (h : bytesCmp a b = -1) : a ≠ b := by
  intro he
  rw [he, bytesCmp_self] at h
  exact absurd h (by decide)

theorem bytesCmp_ne_of_pos {a b : List Nat} (h : bytesCmp a b = 1) : a ≠ b := by
  intro he
  rw [he, bytesCmp_self] at h
  exact absurd h (by decide)

/-- `MemTable.Get` on a comparator-sorted table with `uint64` sequence
numbers resolves to the verdict of the first (newest) record carrying the
probed user key. -/
theorem memGet_spec (u : List Nat) : ∀ (data : List SSTRec) (size : Nat),
    List.Pairwise ikLt (data.map (fun r => r.1)) →
    (∀ r ∈ data, r.1.seqNum < 2 ^ 64) →
    memGet ⟨data, size⟩ u =
      match firstRecWith u data with
      | some r => if r.1.type = OpTypeDelete then ((none : Option (List Nat)), true)
        else (r.2, true)
      | none => (none, false) := by
  intro data
  induction data with
  | nil =>
    intro size _ _
    rfl
  | cons e rest ih =>
    intro size hsorted hseq
    obtain ⟨k0, v0⟩ := e
    rw [List.map_cons, List.pairwise_cons] at hsorted
    unfold memGet
    dsimp only
    rcases bytesCmp_cases k0.userKey u with hbc | hbc | hbc
    · have hku : k0.userKey ≠ u := bytesCmp_ne_of_neg hbc
      have hpred : ikCompare k0 (memSearchKey u) = -1 := by
        unfold ikCompare memSearchKey
        dsimp only
        rw [hbc]
        rw [if_neg (by decide), if_pos rfl]
      have hfind : slFind ((k0, v0) :: rest) (memSearchKey u) =
          slFind rest (memSearchKey u) := by
        unfold slFind
        rw [List.find?_cons_of_neg]
        simp [hpred]
      rw [hfind, firstRecWith_cons, if_neg hku]
      exact ih size hsorted.2 (fun r hr => hseq r (List.mem_cons_of_mem _ hr))
    · have hku : k0.userKey = u := bytesCmp_eq_zero hbc
      have hseq0 : k0.seqNum < 2 ^ 64 := hseq (k0, v0) (List.mem_cons_self _ _)
      have hpred : ikCompare k0 (memSearchKey u) ≥ 0 := by
        unfold ikCompare memSearchKey
        dsimp only
        rw [hbc]
        rw [if_neg (by decide), if_neg (by decide), if_neg (by omega)]
        split <;> norm_num
      have hfind : slFind ((k0, v0) :: rest) (memSearchKey u) = some (k0, v0) := by
        unfold slFind
        exact List.find?_cons_of_pos _ (by simpa using hpred)
      rw [hfind, firstRecWith_cons, if_pos hku]
      show (if k0.userKey ≠ u then ((none : Option (List Nat)), false)
          else if k0.type = OpTypeDelete then (none, true) else (v0, true)) =
        (if k0.type = OpTypeDelete then ((none : Option (List Nat)), true) else (v0, true))
      rw [if_neg (by simp [hku])]
    · have hku : k0.userKey ≠ u := bytesCmp_ne_of_pos hbc
      have hpred : ikCompare k0 (memSearchKey u) = 1 := by
        unfold ikCompare memSearchKey
        dsimp only
        rw [hbc]
        rw [if_pos rfl]
      have hfind : slFind ((k0, v0) :: rest) (memSearchKey u) = some (k0, v0) := by
        unfold slFind
        refine List.find?_cons_of_pos _ ?_
        simp only [decide_eq_true_eq]
        rw [hpred]
        norm_num
      have hrest : firstRecWith u rest = none := by
        apply firstRecWith_eq_none
        intro r hr hru
        have hlt := hsorted.1 r.1 (List.mem_map_of_mem _ hr)
        rcases (ikLt_iff k0 r.1).mp hlt with hc | ⟨hc, h2⟩
        · rw [hru, hbc] at hc
          exact absurd hc (by decide)
        · rw [hc, hru, bytesCmp_self] at hbc
          exact absurd hbc (by decide)
      rw [hfind, firstRecWith_cons, if_neg hku, hrest]
      show (if k0.userKey ≠ u then ((none : Option (List Nat)), false)
          else if k0.type = OpTypeDelete then (none, true) else (v0, true)) =
        ((none : Option (List Nat)), false)
      rw [if_pos hku]

/-- `skiplist.Find` on a sorted element list is the least element `≥` the
probe; when it returns nothing, every element is `<` the probe. -/
theorem slFind_least (k : InternalKey) : ∀ data : List SSTRec,
    List.Pairwise ikLt (data.map (fun r => r.1)) →
    (slFind data k = none → ∀ x ∈ data, ikCompare x.1 k = -1) ∧
    (∀ e, slFind data k = some e → e ∈ data ∧ ikCompare e.1 k ≥ 0 ∧
      ∀ x ∈ data, ikCompare x.1 k ≥ 0 → ikCompare x.1 e.1 ≥ 0) := by
  intro data
  induction data with
  | nil =>
    intro _
    refine ⟨fun _ x hx => absurd hx (List.not_mem_nil x), fun e he => ?_⟩
    cases he
  | cons r0 rest ih =>
    intro hsorted
    rw [List.map_cons, List.pairwise_cons] at hsorted
    obtain ⟨ihn, ihs⟩ := ih hsorted.2
    by_cases hp : ikCompare r0.1 k ≥ 0
    · have hfind : slFind (r0 :: rest) k = some r0 := by
        unfold slFind
        exact List.find?_cons_of_pos _ (by simpa using hp)
      constructor
      · intro hnone
        rw [hfind] at hnone
        cases hnone
      · intro e he
        rw [hfind] at he
        have her : r0 = e := by injection he
        subst her
        refine ⟨List.mem_cons_self _ _, hp, ?_⟩
        intro x hx _
        rcases List.mem_cons.mp hx with h1 | h1
        · rw [h1]
          rw [ikCompare_self]
        · exact ikGe_of_lt (hsorted.1 x.1 (List.mem_map_of_mem _ h1))
    · have hfind : slFind (r0 :: rest) k = slFind rest k := by
        unfold slFind
        rw [List.find?_cons_of_neg]
        simpa using hp
      constructor
      · intro hnone
        rw [hfind] at hnone
        intro x hx
        rcases List.mem_cons.mp hx with h1 | h1
        · rw [h1]
          rcases ikCompare_cases r0.1 k with h | h | h
          · exact h
          · exact absurd (by rw [h] : ikCompare r0.1 k ≥ 0) hp
          · exact absurd (by rw [h]; norm_num : ikCompare r0.1 k ≥ 0) hp
        · exact ihn hnone x h1
      · intro e he
        rw [hfind] at he
        obtain ⟨hmem, hge, hleast⟩ := ihs e he
        refine ⟨List.mem_cons_of_mem _ hmem, hge, ?_⟩
        intro x hx hxk
        rcases List.mem_cons.mp hx with h1 | h1
        · exact absurd (h1 ▸ hxk) hp
        · exact hleast x h1 hxk

/-- C7 counterexample: the two lookups do not construct the same probe key.
The MemTable probes with sequence `math.MaxUint64` while the SSTable reader
probes with `math.MaxInt64`; for any user key the two probe internal keys
differ in their sequence field. -/
theorem c7_probe_counterexample :
    memSearchKey [3] = ⟨[3], 2 ^ 64 - 1, OpTypePut⟩ ∧
    sstSearchKey [3] = ⟨[3], 2 ^ 63 - 1, OpTypePut⟩ ∧
    sstSearchKey [3] ≠ memSearchKey [3] := by decide

/-- C7 (amended): the MemTable lookup probes with
`(user_key, math.MaxUint64, PUT)` but the SSTable reader probes with
`(user_key, math.MaxInt64, PUT)` — the two MAX constants differ.  Each
lookup does locate the least entry `≥` its probe: `Find` on the sorted
skiplist returns the least element `≥` the probe and `Get` therefore
answers with the newest stored version of the user key (for any `uint64`
sequence number), and the reader's `sort.Search` returns the least index
satisfying its (monotone) predicate. -/
theorem c7_probe_keys (u : List Nat) (m : MemTable) (n : Nat) (f : Nat → Bool)
    (hsorted : List.Pairwise ikLt (m.data.map (fun r => r.1)))
    (hseq : ∀ r ∈ m.data, r.1.seqNum < 2 ^ 64)
    (hmono : ∀ a b, a ≤ b → b < n → f a = true → f b = true) :
    memSearchKey u = ⟨u, 2 ^ 64 - 1, OpTypePut⟩ ∧
    sstSearchKey u = ⟨u, 2 ^ 63 - 1, OpTypePut⟩ ∧
    (∀ e, slFind m.data (memSearchKey u) = some e → e ∈ m.data ∧
      ikCompare e.1 (memSearchKey u) ≥ 0 ∧
      ∀ x ∈ m.data, ikCompare x.1 (memSearchKey u) ≥ 0 → ikCompare x.1 e.1 ≥ 0) ∧
    (slFind m.data (memSearchKey u) = none →
      ∀ x ∈ m.data, ikCompare x.1 (memSearchKey u) = -1) ∧
    ((∃ r ∈ m.data, r.1.userKey = u) →
      ∃ e, firstRecWith u m.data = some e ∧
        (∀ r2 ∈ m.data, r2.1.userKey = u → r2.1.seqNum ≤ e.1.seqNum) ∧
        memGet m u = (if e.1.type = OpTypeDelete then ((none : Option (List Nat)), true)
          else (e.2, true))) ∧
    ((∀ k, k < sortSearch n f → f k = false) ∧
      (sortSearch n f < n → f (sortSearch n f) = true) ∧ sortSearch n f ≤ n) := by
  have hleast := slFind_least (memSearchKey u) m.data hsorted
  refine ⟨rfl, rfl, fun e he => hleast.2 e he, hleast.1, ?_, sortSearch_spec n f hmono⟩
  rintro ⟨r0, hr0, hr0u⟩
  obtain ⟨e, he⟩ := firstRecWith_isSome u m.data r0 hr0 hr0u
  refine ⟨e, he, firstRecWith_newest u m.data hsorted e he, ?_⟩
  have hm : memGet ⟨m.data, m.size⟩ u =
      match firstRecWith u m.data with
      | some r => if r.1.type = OpTypeDelete then ((none : Option (List Nat)), true)
        else (r.2, true)
      | none => (none, false) := memGet_spec u m.data m.size hsorted hseq
  rw [he] at hm
  exact hm

theorem c7_probe_keys_witness :
    memSearchKey [3] = ⟨[3], 2 ^ 64 - 1, OpTypePut⟩ ∧
    sstSearchKey [3] = ⟨[3], 2 ^ 63 - 1, OpTypePut⟩ ∧
    (∀ e, slFind (MemTable.mk [((⟨[3], 1, OpTypePut⟩ : InternalKey), some [9])] 4).data
        (memSearchKey [3]) = some e →
      e ∈ (MemTable.mk [((⟨[3], 1, OpTypePut⟩ : InternalKey), some [9])] 4).data ∧
      ikCompare e.1 (memSearchKey [3]) ≥ 0 ∧
      ∀ x ∈ (MemTable.mk [((⟨[3], 1, OpTypePut⟩ : InternalKey), some [9])] 4).data,
        ikCompare x.1 (memSearchKey [3]) ≥ 0 → ikCompare x.1 e.1 ≥ 0) ∧
    (slFind (MemTable.mk [((⟨[3], 1, OpTypePut⟩ : InternalKey), some [9])] 4).data
        (memSearchKey [3]) = none →
      ∀ x ∈ (MemTable.mk [((⟨[3], 1, OpTypePut⟩ : InternalKey), some [9])] 4).data,
        ikCompare x.1 (memSearchKey [3]) = -1) ∧
    ((∃ r ∈ (MemTable.mk [((⟨[3], 1, OpTypePut⟩ : InternalKey), some [9])] 4).data,
        r.1.userKey = [3]) →
      ∃ e, firstRecWith [3]
          (MemTable.mk [((⟨[3], 1, OpTypePut⟩ : InternalKey), some [9])] 4).data = some e ∧
        (∀ r2 ∈ (MemTable.mk [((⟨[3], 1, OpTypePut⟩ : InternalKey), some [9])] 4).data,
          r2.1.userKey = [3] → r2.1.seqNum ≤ e.1.seqNum) ∧
        memGet (MemTable.mk [((⟨[3], 1, OpTypePut⟩ : InternalKey), some [9])] 4) [3] =
          (if e.1.type = OpTypeDelete then ((none : Option (List Nat)), true)
            else (e.2, true))) ∧
    ((∀ k, k < sortSearch 1 (fun _ => true) → (fun _ => true) k = false) ∧
      (sortSearch 1 (fun _ => true) < 1 → (fun _ => true) (sortSearch 1 (fun _ => true)) = true) ∧
      sortSearch 1 (fun _ => true) ≤ 1) :=
  c7_probe_keys [3] (MemTable.mk [((⟨[3], 1, OpTypePut⟩ : InternalKey), some [9])] 4)
    1 (fun _ => true) (by decide) (by decide) (fun a b h1 h2 h3 => rfl)

/-! ## The store engine (`db.go`)

The engine state covers both the in-memory `DB` struct and the data
directory contents: `state.json` (the persisted counter), the active
`db.wal`, the rotated `wal-NNNNN.log` segments, and the `NNNNN.sst` files.
WAL files hold `walEncode` of the entries written to them; an SSTable file
holds `writeSSTable` of the records flushed into it, so the model stores the
record list and applies `writeSSTable` at read time.  The background flush
worker is modelled by explicit `flushOk` / `flushFail` actions that run the
goroutine body (atomically, as the latch serialises its state updates);
`pending` records the spawned worker's `walToDelete` ordinal.  File writes
other than `WriteSSTable` (state save, WAL append, rename, remove) are
assumed to succeed. -/

/-- `MemTableSizeThreshold` (4 KB). -/
def MemTableSizeThreshold : Nat := 1 * 1024 * 4

/-- The WAL op byte for puts (`OpPut byte = iota`). -/
def OpPut : Nat := 0

/-- The WAL op byte for deletes. -/
def OpDelete : Nat := 1

/-- Association-list lookup keyed by file ordinal (a file named by the
ordinal exists iff the key is present). -/
def lookupAssoc {α : Type} : List (Nat × α) → Nat → Option α
  | [], _ => none
  | (n, a) :: rest, m => if n = m then some a else lookupAssoc rest m

/-- Write the file named by ordinal `n` (clobbering any existing file, as
`os.Rename` / `os.Create` do); kept sorted ascending by ordinal to mirror
the sorted directory listing `NewDB` replays. -/
def setAssoc {α : Type} : List (Nat × α) → Nat → α → List (Nat × α)
  | [], n, a => [(n, a)]
  | (n0, a0) :: rest, n, a =>
    if n = n0 then (n, a) :: rest
    else if n < n0 then (n, a) :: (n0, a0) :: rest
    else (n0, a0) :: setAssoc rest n a

/-- `os.Remove` of the file named by ordinal `n`. -/
def removeAssoc {α : Type} : List (Nat × α) → Nat → List (Nat × α)
  | [], _ => []
  | (n0, a0) :: rest, n => if n = n0 then rest else (n0, a0) :: removeAssoc rest n

/-- The engine: `DB` struct fields plus the data-directory contents. -/
structure DBState where
  mem : MemTable
  imm : Option MemTable
  pending : Option Nat
  ssTableCounter : Nat
  seqNum : Nat
  stateCounter : Option Nat
  walActive : List LogEntry
  walRotated : List (Nat × List LogEntry)
  sstables : List (Nat × List SSTRec)
deriving DecidableEq, Repr

/-- `NewDB` on an empty directory: default state, fresh MemTable, empty
active WAL, sequence 0, state persisted. -/
def initDB : DBState :=
  ⟨NewMemTable, none, none, 1, 0, some 1, [], [], []⟩

/-- `DB.flushMemtable`, synchronous part: coalesce if a flush is already
pending, else rotate the active WAL to `wal-<counter:05>.log`, open a fresh
active WAL, move the active MemTable to the immutable slot, and spawn the
background worker. -/
def flushMemtable (s : DBState) : DBState :=
  match s.imm with
  | some _ => s
  | none =>
    { s with
      walRotated := setAssoc s.walRotated s.ssTableCounter s.walActive,
      walActive := [],
      imm := some s.mem,
      mem := NewMemTable,
      pending := some s.ssTableCounter }

/-- `DB.Put`: assign the next sequence number (`uint64` wrap-around), append
the WAL record, insert into the active MemTable, and flush if the size
threshold is exceeded. -/
def dbPut (s : DBState) (k v : List Nat) : DBState :=
  let seq := (s.seqNum + 1) % 2 ^ 64
  let s1 := { s with
    seqNum := seq,
    walActive := s.walActive ++ [⟨OpPut, k, v, seq⟩],
    mem := memPut s.mem ⟨k, seq, OpTypePut⟩ (some v) }
  if ApproximateSize s1.mem > MemTableSizeThreshold then flushMemtable s1 else s1

/-- `DB.Delete`: like `Put` with op DELETE and a `nil` value. -/
def dbDelete (s : DBState) (k : List Nat) : DBState :=
  let seq := (s.seqNum + 1) % 2 ^ 64
  let s1 := { s with
    seqNum := seq,
    walActive := s.walActive ++ [⟨OpDelete, k, [], seq⟩],
    mem := memPut s.mem ⟨k, seq, OpTypeDelete⟩ none }
  if ApproximateSize s1.mem > MemTableSizeThreshold then flushMemtable s1 else s1

/-- The background flush worker when `WriteSSTable` succeeds: the counter is
incremented *before* the write, the SSTable is written under the
pre-increment ordinal, then the immutable slot is cleared, state persisted,
and the rotated WAL removed. -/
def dbFlushOk (s : DBState) : DBState :=
  match s.imm, s.pending with
  | some im, some w =>
    { s with
      ssTableCounter := s.ssTableCounter + 1,
      sstables := setAssoc s.sstables s.ssTableCounter im.data,
      imm := none,
      stateCounter := some (s.ssTableCounter + 1),
      walRotated := removeAssoc s.walRotated w,
      pending := none }
  | _, _ => s

/-- The background flush worker when `WriteSSTable` fails: the counter was
already incremented; the worker returns, leaving the immutable MemTable in
place, state unpersisted, and the rotated WAL on disk (the partial `.sst`
file is unreadable, so readers skip it). -/
def dbFlushFail (s : DBState) : DBState :=
  match s.imm, s.pending with
  | some _, some _ =>
    { s with ssTableCounter := s.ssTableCounter + 1, pending := none }
  | _, _ => s

/-- The SSTable search loop of `DB.Get`: ordinals from `counter - 1` down
to 1; a missing file or a read error skips to the next older table; the
first `found` verdict returns (a `nil` value meaning a tombstone).  `ft`
gives each table's bloom-filter `Test` from its added key set. -/
def sstLoop (ft : List (List Nat) → List Nat → Bool)
    (sstables : List (Nat × List SSTRec)) (k : List Nat) : Nat → Option (List Nat) × Bool
  | 0 => (none, false)
  | i + 1 =>
    match lookupAssoc sstables (i + 1) with
    | none => sstLoop ft sstables k i
    | some recs =>
      match sstGet (writeSSTable recs) (ft (recs.map (fun r => r.1.userKey))) k with
      | none => sstLoop ft sstables k i
      | some (val, true) => if val = none then (none, false) else (val, true)
      | some (_, false) => sstLoop ft sstables k i

/-- `DB.Get`: active MemTable, then the immutable MemTable, then SSTables
newest-first; a `nil` value on a found entry is a tombstone and returns
not-found. -/
def dbGet (ft : List (List Nat) → List Nat → Bool) (s : DBState) (k : List Nat) :
    Option (List Nat) × Bool :=
  match memGet s.mem k with
  | (val, true) => if val = none then (none, false) else (val, true)
  | (_, false) =>
    match s.imm with
    | some im =>
      match memGet im k with
      | (val, true) => if val = none then (none, false) else (val, true)
      | (_, false) => sstLoop ft s.sstables k (s.ssTableCounter - 1)
    | none => sstLoop ft s.sstables k (s.ssTableCounter - 1)

/-- The WAL-replay half of `NewDB`: replay each segment in directory order,
fold every recovered entry into the MemTable, and track the maximum
sequence; a replay error aborts `NewDB`. -/
def replaySegs : List (List LogEntry) → MemTable → Nat → Option (MemTable × Nat)
  | [], mt, mx => some (mt, mx)
  | seg :: rest, mt, mx =>
    match Replay (some (walEncode seg)) with
    | .error _ => none
    | .ok (m, lastSeq) =>
      replaySegs rest (m.foldl (fun acc kv => memPut acc kv.1 (some kv.2.value)) mt)
        (if lastSeq > mx then lastSeq else mx)

/-- `NewDB` over an existing directory (a restart): load the counter from
`state.json` (default 1), replay the rotated segments in ascending name
order followed by the active WAL, seed the sequence counter with the
maximum replayed sequence, reopen `db.wal` in append mode, and persist
state. -/
def dbRestart (s : DBState) : Option DBState :=
  match replaySegs ((s.walRotated.map (fun p => p.2)) ++ [s.walActive]) NewMemTable 0 with
  | none => none
  | some (mem2, maxSeq) =>
    some { mem := mem2, imm := none, pending := none,
           ssTableCounter := s.stateCounter.getD 1,
           seqNum := maxSeq,
           stateCounter := some (s.stateCounter.getD 1),
           walActive := s.walActive,
           walRotated := s.walRotated,
           sstables := s.sstables }

/-- One engine action: a public API call, a background-flush outcome, or a
close-and-reopen of the directory. -/
inductive DBAction where
  | put (k v : List Nat)
  | del (k : List Nat)
  | flushOk
  | flushFail
  | restart
deriving DecidableEq, Repr

/-- One step of the engine. -/
def step (s : DBState) : DBAction → Option DBState
  | .put k v => some (dbPut s k v)
  | .del k => some (dbDelete s k)
  | .flushOk => some (dbFlushOk s)
  | .flushFail => some (dbFlushFail s)
  | .restart => dbRestart s

/-- Run a list of actions. -/
def runFrom (s : DBState) : List DBAction → Option DBState
  | [] => some s
  | a :: rest =>
    match step s a with
    | none => none
    | some s2 => runFrom s2 rest

/-- The sequence numbers the engine assigns along a trace (one per `Put` or
`Delete`, in order). -/
def assignedSeqs (s : DBState) : List DBAction → List Nat
  | [] => []
  | a :: rest =>
    match step s a with
    | none => []
    | some s2 =>
      match a with
      | .put _ _ => ((s.seqNum + 1) % 2 ^ 64) :: assignedSeqs s2 rest
      | .del _ => ((s.seqNum + 1) % 2 ^ 64) :: assignedSeqs s2 rest
      | _ => assignedSeqs s2 rest

theorem flushMemtable_eq_none (s : DBState) (him : s.imm = none) :
    flushMemtable s = { s with
      walRotated := setAssoc s.walRotated s.ssTableCounter s.walActive,
      walActive := [],
      imm := some s.mem,
      mem := NewMemTable,
      pending := some s.ssTableCounter } := by
  unfold flushMemtable
  rw [him]

theorem flushMemtable_eq_some (s : DBState) (im : MemTable) (him : s.imm = some im) :
    flushMemtable s = s := by
  unfold flushMemtable
  rw [him]

/-- A `Put` of a 4097-byte value on the fresh engine exceeds the 4 KB
MemTable threshold and triggers the rotation: the engine ends with a fresh
active MemTable, the written table in the immutable slot, a rotated WAL
under ordinal 1, and a pending flush. -/
theorem dbPut_initDB_big (v : List Nat) (hv : v.length = 4097) :
    dbPut initDB [1] v = ⟨NewMemTable,
      some ⟨[((⟨[1], 1, OpTypePut⟩ : InternalKey), some v)], 4098⟩,
      some 1, 1, 1, some 1, [], [(1, [⟨OpPut, [1], v, 1⟩])], []⟩ := by
  have hcond : ApproximateSize (memPut initDB.mem
      ⟨[1], (initDB.seqNum + 1) % 2 ^ 64, OpTypePut⟩ (some v)) > MemTableSizeThreshold := by
    show 0 + (1 + v.length) > 4096
    omega
  unfold dbPut
  dsimp only
  rw [if_pos hcond]
  rw [flushMemtable_eq_none _ rfl]
  show (⟨NewMemTable,
      some ⟨[((⟨[1], 1, OpTypePut⟩ : InternalKey), some v)], 0 + (1 + v.length)⟩,
      some 1, 1, 1, some 1, [], [(1, [⟨OpPut, [1], v, 1⟩])], []⟩ : DBState) = _
  rw [hv]

/-- C8 counterexample: from a reachable state with a pending flush, a failed
`WriteSSTable` still leaves `sstable_counter` incremented — the worker
increments it *before* attempting the write. -/
theorem c8_counter_counterexample :
    (match runFrom initDB [.put [1] (List.replicate 4097 0)] with
      | some s => ((dbFlushFail s).ssTableCounter, s.ssTableCounter, s.imm.isSome)
      | none => (0, 0, false)) = (2, 1, true) := by
  have hlen : (List.replicate 4097 (0 : Nat)).length = 4097 := by
    rw [List.length_replicate]
  have hstep : step initDB (.put [1] (List.replicate 4097 0)) =
      some ⟨NewMemTable,
        some ⟨[((⟨[1], 1, OpTypePut⟩ : InternalKey), some (List.replicate 4097 0))], 4098⟩,
        some 1, 1, 1, some 1, [], [(1, [⟨OpPut, [1], List.replicate 4097 0, 1⟩])], []⟩ := by
    show some (dbPut initDB [1] (List.replicate 4097 0)) = _
    rw [dbPut_initDB_big (List.replicate 4097 0) hlen]
  have h1 : runFrom initDB [.put [1] (List.replicate 4097 0)] =
      some ⟨NewMemTable,
        some ⟨[((⟨[1], 1, OpTypePut⟩ : InternalKey), some (List.replicate 4097 0))], 4098⟩,
        some 1, 1, 1, some 1, [], [(1, [⟨OpPut, [1], List.replicate 4097 0, 1⟩])], []⟩ := by
    rw [runFrom, hstep]
    rfl
  rw [h1]
  rfl

/-- C8 (amended): the flush worker increments `sstable_counter` *before*
writing the SSTable (under the pre-increment ordinal).  On failure
everything else is untouched — the immutable MemTable stays in place and
readable, `state.json` is not rewritten, the rotated WAL and the existing
SSTables remain — but the counter has advanced.  On success the immutable
slot is cleared, the incremented counter is persisted, and the rotated WAL
segment is removed. -/
theorem c8_flush_failure (s : DBState) (im : MemTable) (w : Nat)
    (him : s.imm = some im) (hpend : s.pending = some w) :
    ((dbFlushFail s).ssTableCounter = s.ssTableCounter + 1 ∧
     (dbFlushFail s).imm = some im ∧
     (dbFlushFail s).stateCounter = s.stateCounter ∧
     (dbFlushFail s).walRotated = s.walRotated ∧
     (dbFlushFail s).sstables = s.sstables ∧
     (dbFlushFail s).mem = s.mem ∧
     (dbFlushFail s).walActive = s.walActive ∧
     (dbFlushFail s).seqNum = s.seqNum) ∧
    ((dbFlushOk s).ssTableCounter = s.ssTableCounter + 1 ∧
     (dbFlushOk s).sstables = setAssoc s.sstables s.ssTableCounter im.data ∧
     (dbFlushOk s).imm = none ∧
     (dbFlushOk s).stateCounter = some (s.ssTableCounter + 1) ∧
     (dbFlushOk s).walRotated = removeAssoc s.walRotated w) := by
  unfold dbFlushFail dbFlushOk
  rw [him, hpend]
  simp

theorem c8_flush_failure_witness :
    ((dbFlushFail ⟨NewMemTable, some ⟨[((⟨[1], 1, OpTypePut⟩ : InternalKey), some [2])], 2⟩,
        some 1, 1, 1, some 1, [], [(1, [⟨OpPut, [1], [2], 1⟩])], []⟩).ssTableCounter = 1 + 1 ∧
      (dbFlushFail ⟨NewMemTable, some ⟨[((⟨[1], 1, OpTypePut⟩ : InternalKey), some [2])], 2⟩,
        some 1, 1, 1, some 1, [], [(1, [⟨OpPut, [1], [2], 1⟩])], []⟩).imm =
        some ⟨[((⟨[1], 1, OpTypePut⟩ : InternalKey), some [2])], 2⟩ ∧
      (dbFlushFail ⟨NewMemTable, some ⟨[((⟨[1], 1, OpTypePut⟩ : InternalKey), some [2])], 2⟩,
        some 1, 1, 1, some 1, [], [(1, [⟨OpPut, [1], [2], 1⟩])], []⟩).stateCounter = some 1 ∧
      (dbFlushFail ⟨NewMemTable, some ⟨[((⟨[1], 1, OpTypePut⟩ : InternalKey), some [2])], 2⟩,
        some 1, 1, 1, some 1, [], [(1, [⟨OpPut, [1], [2], 1⟩])], []⟩).walRotated =
        [(1, [⟨OpPut, [1], [2], 1⟩])] ∧
      (dbFlushFail ⟨NewMemTable, some ⟨[((⟨[1], 1, OpTypePut⟩ : InternalKey), some [2])], 2⟩,
        some 1, 1, 1, some 1, [], [(1, [⟨OpPut, [1], [2], 1⟩])], []⟩).sstables = [] ∧
      (dbFlushFail ⟨NewMemTable, some ⟨[((⟨[1], 1, OpTypePut⟩ : InternalKey), some [2])], 2⟩,
        some 1, 1, 1, some 1, [], [(1, [⟨OpPut, [1], [2], 1⟩])], []⟩).mem = NewMemTable ∧
      (dbFlushFail ⟨NewMemTable, some ⟨[((⟨[1], 1, OpTypePut⟩ : InternalKey), some [2])], 2⟩,
        some 1, 1, 1, some 1, [], [(1, [⟨OpPut, [1], [2], 1⟩])], []⟩).walActive = [] ∧
      (dbFlushFail ⟨NewMemTable, some ⟨[((⟨[1], 1, OpTypePut⟩ : InternalKey), some [2])], 2⟩,
        some 1, 1, 1, some 1, [], [(1, [⟨OpPut, [1], [2], 1⟩])], []⟩).seqNum = 1) ∧
    ((dbFlushOk ⟨NewMemTable, some ⟨[((⟨[1], 1, OpTypePut⟩ : InternalKey), some [2])], 2⟩,
        some 1, 1, 1, some 1, [], [(1, [⟨OpPut, [1], [2], 1⟩])], []⟩).ssTableCounter = 1 + 1 ∧
      (dbFlushOk ⟨NewMemTable, some ⟨[((⟨[1], 1, OpTypePut⟩ : InternalKey), some [2])], 2⟩,
        some 1, 1, 1, some 1, [], [(1, [⟨OpPut, [1], [2], 1⟩])], []⟩).sstables =
        setAssoc [] 1 [((⟨[1], 1, OpTypePut⟩ : InternalKey), some [2])] ∧
      (dbFlushOk ⟨NewMemTable, some ⟨[((⟨[1], 1, OpTypePut⟩ : InternalKey), some [2])], 2⟩,
        some 1, 1, 1, some 1, [], [(1, [⟨OpPut, [1], [2], 1⟩])], []⟩).imm = none ∧
      (dbFlushOk ⟨NewMemTable, some ⟨[((⟨[1], 1, OpTypePut⟩ : InternalKey), some [2])], 2⟩,
        some 1, 1, 1, some 1, [], [(1, [⟨OpPut, [1], [2], 1⟩])], []⟩).stateCounter = some (1 + 1) ∧
      (dbFlushOk ⟨NewMemTable, some ⟨[((⟨[1], 1, OpTypePut⟩ : InternalKey), some [2])], 2⟩,
        some 1, 1, 1, some 1, [], [(1, [⟨OpPut, [1], [2], 1⟩])], []⟩).walRotated =
        removeAssoc [(1, [⟨OpPut, [1], [2], 1⟩])] 1) :=
  c8_flush_failure ⟨NewMemTable, some ⟨[((⟨[1], 1, OpTypePut⟩ : InternalKey), some [2])], 2⟩,
      some 1, 1, 1, some 1, [], [(1, [⟨OpPut, [1], [2], 1⟩])], []⟩
    ⟨[((⟨[1], 1, OpTypePut⟩ : InternalKey), some [2])], 2⟩ 1 (by decide) (by decide)

/-- C10: on any MemTable holding at least one entry, `MemTable.Delete`
panics inside the comparator — `Remove` hands the raw `[]byte` user key to
`internalKeyComparable.Compare`, whose `k1.(InternalKey)` type assertion
fails — before any element is removed or the size counter touched; and the
store engine never calls `MemTable.Delete`: `DB.Delete` records the delete
as a tombstone `Put` of `(key, seq, OpTypeDelete)` with a `nil` value. -/
theorem c10_memtable_delete (m : MemTable) (key : List Nat) (hne : m.data ≠ [])
    (s : DBState)
    (hsize : ¬ ApproximateSize
        (memPut s.mem ⟨key, (s.seqNum + 1) % 2 ^ 64, OpTypeDelete⟩ none) >
      MemTableSizeThreshold) :
    memDelete m key = none ∧
    (dbDelete s key).mem = memPut s.mem ⟨key, (s.seqNum + 1) % 2 ^ 64, OpTypeDelete⟩ none := by
  constructor
  · obtain ⟨e, rest, hd⟩ : ∃ e rest, m.data = e :: rest := by
      cases hdata : m.data with
      | nil => exact absurd hdata hne
      | cons e rest => exact ⟨e, rest, rfl⟩
    unfold memDelete
    rw [hd]
    obtain ⟨k0, v0⟩ := e
    rfl
  · unfold dbDelete
    dsimp only
    rw [if_neg hsize]

theorem c10_memtable_delete_witness :
    ((⟨[((⟨[7], 1, OpTypePut⟩ : InternalKey), some [1])], 2⟩ : MemTable).data ≠ [] ∧
      ¬ ApproximateSize
          (memPut initDB.mem ⟨[7], (initDB.seqNum + 1) % 2 ^ 64, OpTypeDelete⟩ none) >
        MemTableSizeThreshold) ∧
    memDelete ⟨[((⟨[7], 1, OpTypePut⟩ : InternalKey), some [1])], 2⟩ [7] = none ∧
    (dbDelete initDB [7]).mem =
      memPut initDB.mem ⟨[7], (initDB.seqNum + 1) % 2 ^ 64, OpTypeDelete⟩ none :=
  ⟨⟨by decide, by decide⟩,
    c10_memtable_delete ⟨[((⟨[7], 1, OpTypePut⟩ : InternalKey), some [1])], 2⟩ [7]
      (by decide) initDB (by decide)⟩

theorem flushMemtable_seqNum (s : DBState) : (flushMemtable s).seqNum = s.seqNum := by
  unfold flushMemtable
  cases h : s.imm <;> rfl

theorem dbPut_seqNum (s : DBState) (k v : List Nat) :
    (dbPut s k v).seqNum = (s.seqNum + 1) % 2 ^ 64 := by
  unfold dbPut
  dsimp only
  split
  · rw [flushMemtable_seqNum]
  · rfl

theorem dbDelete_seqNum (s : DBState) (k : List Nat) :
    (dbDelete s k).seqNum = (s.seqNum + 1) % 2 ^ 64 := by
  unfold dbDelete
  dsimp only
  split
  · rw [flushMemtable_seqNum]
  · rfl

theorem dbFlushOk_seqNum (s : DBState) : (dbFlushOk s).seqNum = s.seqNum := by
  unfold dbFlushOk
  cases h : s.imm with
  | none => rfl
  | some im => cases h2 : s.pending <;> rfl

theorem dbFlushFail_seqNum (s : DBState) : (dbFlushFail s).seqNum = s.seqNum := by
  unfold dbFlushFail
  cases h : s.imm with
  | none => rfl
  | some im => cases h2 : s.pending <;> rfl

theorem foldl_max_ge (es : List LogEntry) : ∀ m : Nat,
    m ≤ es.foldl (fun a x => max a x.seqNum) m := by
  induction es with
  | nil => intro m; exact le_refl m
  | cons f rest ih =>
    intro m
    calc m ≤ max m f.seqNum := le_max_left _ _
      _ ≤ _ := ih _

theorem le_foldl_max (es : List LogEntry) : ∀ (m : Nat) (e : LogEntry), e ∈ es →
    e.seqNum ≤ es.foldl (fun a x => max a x.seqNum) m := by
  induction es with
  | nil =>
    intro m e he
    cases he
  | cons f rest ih =>
    intro m e he
    rcases List.mem_cons.mp he with h1 | h1
    · subst h1
      calc e.seqNum ≤ max m e.seqNum := le_max_right _ _
        _ ≤ _ := foldl_max_ge rest _
    · exact ih _ e h1

theorem replaySegs_cons (seg : List LogEntry) (rest : List (List LogEntry))
    (mt : MemTable) (mx : Nat) (m : WalMap) (lastSeq : Nat)
    (hRep : Replay (some (walEncode seg)) = .ok (m, lastSeq)) :
    replaySegs (seg :: rest) mt mx =
      replaySegs rest (m.foldl (fun acc (kv : InternalKey × RecoveredValue) => memPut acc kv.1 (some kv.2.value)) mt)
        (if lastSeq > mx then lastSeq else mx) := by
  show (match Replay (some (walEncode seg)) with
    | .error _ => none
    | .ok (m2, ls) => replaySegs rest
        (m2.foldl (fun acc (kv : InternalKey × RecoveredValue) => memPut acc kv.1 (some kv.2.value)) mt)
        (if ls > mx then ls else mx)) = _
  rw [hRep]

/-- `NewDB`'s replay seeds the sequence counter with a value at least every
sequence number appearing in any replayed segment. -/
theorem replaySegs_maxSeq : ∀ (segs : List (List LogEntry)) (mt : MemTable) (mx : Nat)
    (mem2 : MemTable) (maxSeq : Nat),
    (∀ seg ∈ segs, ∀ e ∈ seg, entryBounded e) →
    replaySegs segs mt mx = some (mem2, maxSeq) →
    mx ≤ maxSeq ∧ ∀ seg ∈ segs, ∀ e ∈ seg, e.seqNum ≤ maxSeq := by
  intro segs
  induction segs with
  | nil =>
    intro mt mx mem2 maxSeq _ h
    have h2 : mx = maxSeq := by
      injection h with h3
      injection h3 with h4 h5
    refine ⟨le_of_eq h2, fun seg hseg => absurd hseg (List.not_mem_nil seg)⟩
  | cons seg rest ih =>
    intro mt mx mem2 maxSeq hb h
    have hsegb := hb seg (List.mem_cons_self seg rest)
    have hRep : Replay (some (walEncode seg)) =
        .ok ((replayEntriesAux seg [] 0).1, (replayEntriesAux seg [] 0).2) :=
      replayLoop_walEncode seg [] 0 hsegb
    rw [replaySegs_cons seg rest mt mx _ _ hRep] at h
    obtain ⟨hle, hrest⟩ := ih _ _ _ _ (fun g hg => hb g (List.mem_cons_of_mem seg hg)) h
    have hmx : mx ≤ if (replayEntriesAux seg [] 0).2 > mx
        then (replayEntriesAux seg [] 0).2 else mx := by
      split <;> omega
    have hseg2 : (replayEntriesAux seg [] 0).2 ≤ maxSeq := by
      refine le_trans ?_ hle
      split <;> omega
    refine ⟨le_trans hmx hle, ?_⟩
    intro g hg e he
    rcases List.mem_cons.mp hg with h1 | h1
    · subst h1
      refine le_trans ?_ hseg2
      rw [replayEntriesAux_snd]
      exact le_foldl_max g 0 e he
    · exact hrest g h1 e he

theorem dbRestart_empty_wals (mm : MemTable) (im : Option MemTable) (pd : Option Nat)
    (cnt seqn : Nat) (st : Option Nat) (ss : List (Nat × List SSTRec)) :
    dbRestart ⟨mm, im, pd, cnt, seqn, st, [], [], ss⟩ =
      some ⟨NewMemTable, none, none, st.getD 1, 0, some (st.getD 1), [], [], ss⟩ := by
  have hnil : Replay (some (walEncode [])) = .ok ([], 0) :=
    replayLoop_walEncode [] [] 0 (fun e he => absurd he (List.not_mem_nil e))
  unfold dbRestart
  dsimp only
  rw [show List.map (fun p => p.2) ([] : List (Nat × List LogEntry)) ++ [([] : List LogEntry)] =
    [([] : List LogEntry)] from rfl]
  rw [replaySegs_cons [] [] NewMemTable 0 [] 0 hnil]
  rfl

/-- C9 counterexample: a value large enough to trigger a flush is put (it is
assigned sequence 1), the flush completes (deleting the rotated WAL), the
engine is closed and reopened, and another put is issued.  Replay finds only
the empty active WAL, re-seeds the sequence counter at 0, and the second put
is assigned sequence 1 again — the sequence numbers assigned across the
engine's lifetime are `[1, 1]`: neither strictly increasing nor unique,
although the first write's data (under sequence 1) persists in SSTable 1. -/
theorem c9_restart_counterexample :
    assignedSeqs initDB
      [.put [1] (List.replicate 4097 0), .flushOk, .restart, .put [1] [0]] = [1, 1] := by
  have e1 : step initDB (.put [1] (List.replicate 4097 0)) =
      some ⟨NewMemTable,
        some ⟨[((⟨[1], 1, OpTypePut⟩ : InternalKey), some (List.replicate 4097 0))], 4098⟩,
        some 1, 1, 1, some 1, [], [(1, [⟨OpPut, [1], List.replicate 4097 0, 1⟩])], []⟩ := by
    show some (dbPut initDB [1] (List.replicate 4097 0)) = _
    rw [dbPut_initDB_big (List.replicate 4097 0) (by rw [List.length_replicate])]
  have e2 : step ⟨NewMemTable,
        some ⟨[((⟨[1], 1, OpTypePut⟩ : InternalKey), some (List.replicate 4097 0))], 4098⟩,
        some 1, 1, 1, some 1, [], [(1, [⟨OpPut, [1], List.replicate 4097 0, 1⟩])], []⟩
      .flushOk =
      some ⟨NewMemTable, none, none, 2, 1, some 2, [], [],
        [(1, [((⟨[1], 1, OpTypePut⟩ : InternalKey), some (List.replicate 4097 0))])]⟩ := by
    rfl
  have e3 : step ⟨NewMemTable, none, none, 2, 1, some 2, [], [],
        [(1, [((⟨[1], 1, OpTypePut⟩ : InternalKey), some (List.replicate 4097 0))])]⟩
      .restart =
      some ⟨NewMemTable, none, none, 2, 0, some 2, [], [],
        [(1, [((⟨[1], 1, OpTypePut⟩ : InternalKey), some (List.replicate 4097 0))])]⟩ :=
    dbRestart_empty_wals NewMemTable none none 2 1 (some 2)
      [(1, [((⟨[1], 1, OpTypePut⟩ : InternalKey), some (List.replicate 4097 0))])]
  have e4 : assignedSeqs ⟨NewMemTable, none, none, 2, 0, some 2, [], [],
        [(1, [((⟨[1], 1, OpTypePut⟩ : InternalKey), some (List.replicate 4097 0))])]⟩
      [.put [1] [0]] = [1] := by
    rfl
  rw [assignedSeqs, e1]
  show (1 : Nat) :: assignedSeqs ⟨NewMemTable,
      some ⟨[((⟨[1], 1, OpTypePut⟩ : InternalKey), some (List.replicate 4097 0))], 4098⟩,
      some 1, 1, 1, some 1, [], [(1, [⟨OpPut, [1], List.replicate 4097 0, 1⟩])], []⟩
    [.flushOk, .restart, .put [1] [0]] = [1, 1]
  rw [assignedSeqs, e2]
  show (1 : Nat) :: assignedSeqs ⟨NewMemTable, none, none, 2, 1, some 2, [], [],
      [(1, [((⟨[1], 1, OpTypePut⟩ : InternalKey), some (List.replicate 4097 0))])]⟩
    [.restart, .put [1] [0]] = [1, 1]
  rw [assignedSeqs, e3]
  show (1 : Nat) :: assignedSeqs ⟨NewMemTable, none, none, 2, 0, some 2, [], [],
      [(1, [((⟨[1], 1, OpTypePut⟩ : InternalKey), some (List.replicate 4097 0))])]⟩
    [.put [1] [0]] = [1, 1]
  rw [e4]

/-- C9 (amended): within one engine session (no close/reopen) and below the
`uint64` wrap, assigned sequence numbers are strictly increasing, unique,
and all exceed the session-start sequence value; on reopen the counter is
re-seeded with the maximum sequence present in the *surviving* WAL segments
(rotated files still on disk plus the active WAL), which bounds every
sequence in those segments — but segments already flushed and deleted are
forgotten, so sequence numbers are not strictly increasing or unique across
a restart (see the counterexample, where two writes both receive
sequence 1). -/
theorem c9_monotone_sequence (t : List DBAction) : ∀ s : DBState,
    DBAction.restart ∉ t → s.seqNum + t.length < 2 ^ 64 →
    (∀ q ∈ assignedSeqs s t, s.seqNum < q) ∧
    List.Pairwise (· < ·) (assignedSeqs s t) ∧
    (∀ s2, dbRestart s = some s2 →
      (∀ seg ∈ (s.walRotated.map (fun p => p.2)) ++ [s.walActive],
        ∀ e ∈ seg, entryBounded e) →
      ∀ seg ∈ (s.walRotated.map (fun p => p.2)) ++ [s.walActive],
        ∀ e ∈ seg, e.seqNum ≤ s2.seqNum) := by
  have hrestart : ∀ s : DBState, ∀ s2, dbRestart s = some s2 →
      (∀ seg ∈ (s.walRotated.map (fun p => p.2)) ++ [s.walActive],
        ∀ e ∈ seg, entryBounded e) →
      ∀ seg ∈ (s.walRotated.map (fun p => p.2)) ++ [s.walActive],
        ∀ e ∈ seg, e.seqNum ≤ s2.seqNum := by
    intro s s2 hr hb
    unfold dbRestart at hr
    cases hm : replaySegs ((s.walRotated.map (fun p => p.2)) ++ [s.walActive])
        NewMemTable 0 with
    | none =>
      rw [hm] at hr
      cases hr
    | some pr =>
      obtain ⟨mem2, maxSeq⟩ := pr
      rw [hm] at hr
      have hs2 : s2.seqNum = maxSeq := by
        injection hr with h
        rw [← h]
      obtain ⟨h1, h2⟩ := replaySegs_maxSeq _ _ _ _ _ hb hm
      intro seg hseg e he
      rw [hs2]
      exact h2 seg hseg e he
  induction t with
  | nil =>
    intro s _ _
    exact ⟨fun q hq => absurd hq (List.not_mem_nil q), List.Pairwise.nil, hrestart s⟩
  | cons a rest ih =>
    intro s hnr hnov
    have hnrr : DBAction.restart ∉ rest := fun hm => hnr (List.mem_cons_of_mem a hm)
    have hlen : s.seqNum + rest.length + 1 < 2 ^ 64 := by
      simp only [List.length_cons] at hnov
      omega
    cases a with
    | restart => exact absurd (List.mem_cons_self _ _) hnr
    | put k v =>
      have hs2 : (dbPut s k v).seqNum = s.seqNum + 1 := by
        rw [dbPut_seqNum]
        exact Nat.mod_eq_of_lt (by omega)
      obtain ⟨ih1, ih2, _⟩ := ih (dbPut s k v) hnrr (by rw [hs2]; omega)
      have hlist : assignedSeqs s (.put k v :: rest) =
          (s.seqNum + 1) :: assignedSeqs (dbPut s k v) rest := by
        show ((s.seqNum + 1) % 2 ^ 64) :: assignedSeqs (dbPut s k v) rest = _
        rw [Nat.mod_eq_of_lt (by omega)]
      rw [hlist]
      refine ⟨?_, ?_, hrestart s⟩
      · intro q hq
        rcases List.mem_cons.mp hq with h1 | h1
        · omega
        · have h2 := ih1 q h1
          rw [hs2] at h2
          omega
      · rw [List.pairwise_cons]
        refine ⟨fun q hq => ?_, ih2⟩
        have h2 := ih1 q hq
        rw [hs2] at h2
        omega
    | del k =>
      have hs2 : (dbDelete s k).seqNum = s.seqNum + 1 := by
        rw [dbDelete_seqNum]
        exact Nat.mod_eq_of_lt (by omega)
      obtain ⟨ih1, ih2, _⟩ := ih (dbDelete s k) hnrr (by rw [hs2]; omega)
      have hlist : assignedSeqs s (.del k :: rest) =
          (s.seqNum + 1) :: assignedSeqs (dbDelete s k) rest := by
        show ((s.seqNum + 1) % 2 ^ 64) :: assignedSeqs (dbDelete s k) rest = _
        rw [Nat.mod_eq_of_lt (by omega)]
      rw [hlist]
      refine ⟨?_, ?_, hrestart s⟩
      · intro q hq
        rcases List.mem_cons.mp hq with h1 | h1
        · omega
        · have h2 := ih1 q h1
          rw [hs2] at h2
          omega
      · rw [List.pairwise_cons]
        refine ⟨fun q hq => ?_, ih2⟩
        have h2 := ih1 q hq
        rw [hs2] at h2
        omega
    | flushOk =>
      obtain ⟨ih1, ih2, _⟩ := ih (dbFlushOk s) hnrr (by rw [dbFlushOk_seqNum]; omega)
      have hlist : assignedSeqs s (.flushOk :: rest) =
          assignedSeqs (dbFlushOk s) rest := rfl
      rw [hlist]
      refine ⟨fun q hq => ?_, ih2, hrestart s⟩
      have h2 := ih1 q hq
      rw [dbFlushOk_seqNum] at h2
      exact h2
    | flushFail =>
      obtain ⟨ih1, ih2, _⟩ := ih (dbFlushFail s) hnrr (by rw [dbFlushFail_seqNum]; omega)
      have hlist : assignedSeqs s (.flushFail :: rest) =
          assignedSeqs (dbFlushFail s) rest := rfl
      rw [hlist]
      refine ⟨fun q hq => ?_, ih2, hrestart s⟩
      have h2 := ih1 q hq
      rw [dbFlushFail_seqNum] at h2
      exact h2

theorem c9_monotone_sequence_witness :
    (∀ q ∈ assignedSeqs initDB [.put [1] [2], .del [1]], initDB.seqNum < q) ∧
    List.Pairwise (· < ·) (assignedSeqs initDB [.put [1] [2], .del [1]]) ∧
    (∀ s2, dbRestart initDB = some s2 →
      (∀ seg ∈ (initDB.walRotated.map (fun p => p.2)) ++ [initDB.walActive],
        ∀ e ∈ seg, entryBounded e) →
      ∀ seg ∈ (initDB.walRotated.map (fun p => p.2)) ++ [initDB.walActive],
        ∀ e ∈ seg, e.seqNum ≤ s2.seqNum) :=
  c9_monotone_sequence [.put [1] [2], .del [1]] initDB (by decide) (by decide)

/-! ## Read merge across tiers and trace-level functional correctness -/

/-- The records of the immutable MemTable slot (empty when absent). -/
def immData : Option MemTable → List SSTRec
  | none => []
  | some im => im.data

/-- The SSTable record lists `DB.Get`'s loop consults, newest ordinal
first: ordinals `i` down to 1, skipping missing files. -/
def sstDesc (sstables : List (Nat × List SSTRec)) : Nat → List (List SSTRec)
  | 0 => []
  | i + 1 =>
    match lookupAssoc sstables (i + 1) with
    | none => sstDesc sstables i
    | some recs => recs :: sstDesc sstables i

/-- All tiers in the order the read path consults them. -/
def tiers (s : DBState) : List (List SSTRec) :=
  s.mem.data :: immData s.imm :: sstDesc s.sstables (s.ssTableCounter - 1)

/-- The first record carrying the key in the first tier that has one. -/
def tiersGet (k : List Nat) : List (List SSTRec) → Option SSTRec
  | [] => none
  | tier :: rest =>
    match firstRecWith k tier with
    | some r => some r
    | none => tiersGet k rest

/-- The engine-level verdict for a resolved record: a tombstone or a
missing (`nil`) value surfaces as not-found. -/
def engineVerdict : Option SSTRec → Option (List Nat) × Bool
  | none => (none, false)
  | some r =>
    if r.1.type = OpTypeDelete then (none, false)
    else match r.2 with
      | none => (none, false)
      | some v => (some v, true)

/-- Lookup in the logical key/value map (`none` = never written,
`some none` = last write was a delete). -/
def lookupKV : List (List Nat × Option (List Nat)) → List Nat → Option (Option (List Nat))
  | [], _ => none
  | (k0, v0) :: rest, k => if k0 = k then some v0 else lookupKV rest k

/-- The effect of one action on the logical map (newest binding first). -/
def applyAct (M : List (List Nat × Option (List Nat))) :
    DBAction → List (List Nat × Option (List Nat))
  | .put k v => (k, some v) :: M
  | .del k => (k, none) :: M
  | _ => M

/-- The logical map after a trace. -/
def applyActs : List DBAction → List (List Nat × Option (List Nat)) →
    List (List Nat × Option (List Nat))
  | [], M => M
  | a :: rest, M => applyActs rest (applyAct M a)

/-- Key/value size bounds under which the on-disk encodings round-trip. -/
def actBounded : DBAction → Prop
  | .put k v => k.length + 13 < 2 ^ 32 ∧ v.length < 2 ^ 32
  | .del k => k.length + 13 < 2 ^ 32
  | _ => True

instance (a : DBAction) : Decidable (actBounded a) := by
  unfold actBounded
  cases a <;> infer_instance

/-- A well-formed tier: comparator-sorted, with bounded records, sequence
numbers in `[1, seqCap]`, and op-type/value coherence (PUT records carry a
non-`nil` value, DELETE records a `nil` one). -/
def tierOK (seqCap : Nat) (recs : List SSTRec) : Prop :=
  List.Pairwise ikLt (recs.map (fun r => r.1)) ∧
  ∀ r ∈ recs, recBounded r ∧ 1 ≤ r.1.seqNum ∧ r.1.seqNum ≤ seqCap ∧
    ((r.1.type = OpTypePut ∧ r.2 ≠ none) ∨ (r.1.type = OpTypeDelete ∧ r.2 = none))

/-- Every record of `a` is older (smaller sequence) than every record of
`b`. -/
def domLt (a b : List SSTRec) : Prop :=
  ∀ r ∈ a, ∀ r2 ∈ b, r.1.seqNum < r2.1.seqNum

/-- The reachable-state invariant: each tier well formed, newer tiers
strictly newer than older ones, SSTable ordinals in `[1, counter)`,
distinct and sorted. -/
structure GoodState (s : DBState) : Prop where
  memOK : tierOK s.seqNum s.mem.data
  immOK : tierOK s.seqNum (immData s.imm)
  sstOK : ∀ p ∈ s.sstables, tierOK s.seqNum p.2
  immLtMem : domLt (immData s.imm) s.mem.data
  sstLtMem : ∀ p ∈ s.sstables, domLt p.2 s.mem.data
  sstLtImm : ∀ p ∈ s.sstables, domLt p.2 (immData s.imm)
  sstOrd : ∀ p ∈ s.sstables, ∀ q ∈ s.sstables, p.1 < q.1 → domLt p.2 q.2
  sstCap : ∀ p ∈ s.sstables, 1 ≤ p.1 ∧ p.1 < s.ssTableCounter
  sstOrdSorted : List.Pairwise (fun a b : Nat × List SSTRec => a.1 < b.1) s.sstables
  cntPos : 1 ≤ s.ssTableCounter

/-- The engine state realises the logical map: for every key, the winning
record across the tier order matches the key's latest write. -/
def Corr (s : DBState) (M : List (List Nat × Option (List Nat))) : Prop :=
  ∀ k : List Nat,
    match lookupKV M k with
    | none => tiersGet k (tiers s) = none
    | some (some v) => ∃ r, tiersGet k (tiers s) = some r ∧ r.1.userKey = k ∧
        r.1.type = OpTypePut ∧ r.2 = some v
    | some none => ∃ r, tiersGet k (tiers s) = some r ∧ r.1.userKey = k ∧
        r.1.type = OpTypeDelete ∧ r.2 = none

theorem lookupAssoc_setAssoc_self {α : Type} (l : List (Nat × α)) (n : Nat) (a : α) :
    lookupAssoc (setAssoc l n a) n = some a := by
  induction l with
  | nil => simp [setAssoc, lookupAssoc]
  | cons p rest ih =>
    obtain ⟨n0, a0⟩ := p
    unfold setAssoc
    by_cases h1 : n = n0
    · rw [if_pos h1]
      simp [lookupAssoc]
    · rw [if_neg h1]
      by_cases h2 : n < n0
      · rw [if_pos h2]
        simp [lookupAssoc]
      · rw [if_neg h2]
        unfold lookupAssoc
        rw [if_neg (fun he => h1 he.symm)]
        exact ih

theorem lookupAssoc_setAssoc_ne {α : Type} (l : List (Nat × α)) (n m : Nat) (a : α)
    (h : m ≠ n) : lookupAssoc (setAssoc l n a) m = lookupAssoc l m := by
  induction l with
  | nil =>
    show (if n = m then some a else none) = none
    rw [if_neg (fun he => h he.symm)]
  | cons p rest ih =>
    obtain ⟨n0, a0⟩ := p
    unfold setAssoc
    by_cases h1 : n = n0
    · rw [if_pos h1]
      show (if n = m then some a else lookupAssoc rest m) =
        if n0 = m then some a0 else lookupAssoc rest m
      rw [if_neg (fun he => h he.symm), if_neg (fun he => h (h1.trans he).symm)]
    · rw [if_neg h1]
      by_cases h2 : n < n0
      · rw [if_pos h2]
        show (if n = m then some a else lookupAssoc ((n0, a0) :: rest) m) =
          lookupAssoc ((n0, a0) :: rest) m
        rw [if_neg (fun he => h he.symm)]
      · rw [if_neg h2]
        show (if n0 = m then some a0 else lookupAssoc (setAssoc rest n a) m) =
          if n0 = m then some a0 else lookupAssoc rest m
        rw [ih]

theorem lookupAssoc_mem {α : Type} (l : List (Nat × α)) (n : Nat) (a : α)
    (h : lookupAssoc l n = some a) : (n, a) ∈ l := by
  induction l with
  | nil => cases h
  | cons p rest ih =>
    obtain ⟨n0, a0⟩ := p
    unfold lookupAssoc at h
    by_cases h1 : n0 = n
    · rw [if_pos h1] at h
      have : a0 = a := by injection h
      subst this
      subst h1
      exact List.mem_cons_self _ _
    · rw [if_neg h1] at h
      exact List.mem_cons_of_mem _ (ih h)

theorem setAssoc_mem {α : Type} (l : List (Nat × α)) (n : Nat) (a : α) :
    ∀ p ∈ setAssoc l n a, p ∈ l ∨ p = (n, a) := by
  induction l with
  | nil =>
    intro p hp
    simp [setAssoc] at hp
    exact Or.inr hp
  | cons q rest ih =>
    obtain ⟨n0, a0⟩ := q
    intro p hp
    unfold setAssoc at hp
    by_cases h1 : n = n0
    · rw [if_pos h1] at hp
      rcases List.mem_cons.mp hp with h | h
      · exact Or.inr h
      · exact Or.inl (List.mem_cons_of_mem _ h)
    · rw [if_neg h1] at hp
      by_cases h2 : n < n0
      · rw [if_pos h2] at hp
        rcases List.mem_cons.mp hp with h | h
        · exact Or.inr h
        · exact Or.inl h
      · rw [if_neg h2] at hp
        rcases List.mem_cons.mp hp with h | h
        · exact Or.inl (h ▸ List.mem_cons_self _ _)
        · rcases ih p h with h3 | h3
          · exact Or.inl (List.mem_cons_of_mem _ h3)
          · exact Or.inr h3

theorem setAssoc_sorted {α : Type} (l : List (Nat × α)) (n : Nat) (a : α)
    (hs : List.Pairwise (fun p q : Nat × α => p.1 < q.1) l) :
    List.Pairwise (fun p q : Nat × α => p.1 < q.1) (setAssoc l n a) := by
  induction l with
  | nil => simp [setAssoc]
  | cons q rest ih =>
    obtain ⟨n0, a0⟩ := q
    rw [List.pairwise_cons] at hs
    unfold setAssoc
    by_cases h1 : n = n0
    · rw [if_pos h1]
      rw [List.pairwise_cons]
      exact ⟨fun p hp => h1 ▸ hs.1 p hp, hs.2⟩
    · rw [if_neg h1]
      by_cases h2 : n < n0
      · rw [if_pos h2]
        rw [List.pairwise_cons]
        refine ⟨?_, List.pairwise_cons.mpr hs⟩
        intro p hp
        rcases List.mem_cons.mp hp with h | h
        · rw [h]
          exact h2
        · exact lt_trans h2 (hs.1 p h)
      · rw [if_neg h2]
        rw [List.pairwise_cons]
        refine ⟨?_, ih hs.2⟩
        intro p hp
        rcases setAssoc_mem rest n a p hp with h | h
        · exact hs.1 p h
        · rw [h]
          omega

theorem sstDesc_mem_ex (ss : List (Nat × List SSTRec)) : ∀ (i : Nat) (recs : List SSTRec),
    recs ∈ sstDesc ss i → ∃ j, 1 ≤ j ∧ j ≤ i ∧ lookupAssoc ss j = some recs := by
  intro i
  induction i with
  | zero =>
    intro recs h
    exact absurd h (List.not_mem_nil recs)
  | succ i ih =>
    intro recs h
    unfold sstDesc at h
    cases hl : lookupAssoc ss (i + 1) with
    | none =>
      rw [hl] at h
      obtain ⟨j, h1, h2, h3⟩ := ih recs h
      exact ⟨j, h1, by omega, h3⟩
    | some recs2 =>
      rw [hl] at h
      rcases List.mem_cons.mp h with h4 | h4
      · exact ⟨i + 1, by omega, le_refl _, h4 ▸ hl⟩
      · obtain ⟨j, h1, h2, h3⟩ := ih recs h4
        exact ⟨j, h1, by omega, h3⟩

theorem sstDesc_setAssoc_lt {ss : List (Nat × List SSTRec)} {n : Nat} {a : List SSTRec} :
    ∀ j, j < n → sstDesc (setAssoc ss n a) j = sstDesc ss j := by
  intro j
  induction j with
  | zero => intro _; rfl
  | succ j ih =>
    intro hj
    show (match lookupAssoc (setAssoc ss n a) (j + 1) with
      | none => sstDesc (setAssoc ss n a) j
      | some recs => recs :: sstDesc (setAssoc ss n a) j) =
      (match lookupAssoc ss (j + 1) with
      | none => sstDesc ss j
      | some recs => recs :: sstDesc ss j)
    rw [lookupAssoc_setAssoc_ne ss n (j + 1) a (by omega), ih (by omega)]

theorem slSet_mem (ik : InternalKey) (v : Option (List Nat)) : ∀ data : List SSTRec,
    (∀ r ∈ data, r.1.seqNum < ik.seqNum) →
    ∀ r ∈ slSet data ik v, r ∈ data ∨ r = (ik, v) := by
  intro data
  induction data with
  | nil =>
    intro _ r hr
    simp [slSet] at hr
    exact Or.inr hr
  | cons e rest ih =>
    obtain ⟨k0, v0⟩ := e
    intro hfresh r hr
    unfold slSet at hr
    by_cases h1 : ikCompare ik k0 = -1
    · rw [if_pos h1] at hr
      rcases List.mem_cons.mp hr with h | h
      · exact Or.inr h
      · exact Or.inl h
    · rw [if_neg h1] at hr
      by_cases h2 : ikCompare ik k0 = 0
      · exfalso
        have h3 := (ikCompare_eq_zero h2).2
        have h4 := hfresh (k0, v0) (List.mem_cons_self _ _)
        simp at h4
        omega
      · rw [if_neg h2] at hr
        rcases List.mem_cons.mp hr with h | h
        · exact Or.inl (h ▸ List.mem_cons_self _ _)
        · rcases ih (fun r2 hr2 => hfresh r2 (List.mem_cons_of_mem _ hr2)) r h with h3 | h3
          · exact Or.inl (List.mem_cons_of_mem _ h3)
          · exact Or.inr h3

theorem ikCompare_pos_key {ik k0 : InternalKey} (h : ikCompare ik k0 = 1)
    (hseq : k0.seqNum < ik.seqNum) : bytesCmp ik.userKey k0.userKey = 1 := by
  unfold ikCompare at h
  rcases bytesCmp_cases ik.userKey k0.userKey with hbc | hbc | hbc
  · rw [hbc] at h
    rw [if_neg (by decide), if_pos rfl] at h
    exact absurd h (by decide)
  · rw [hbc] at h
    rw [if_neg (by decide), if_neg (by decide), if_pos (by omega)] at h
    exact absurd h (by decide)
  · exact hbc

theorem slSet_sorted (ik : InternalKey) (v : Option (List Nat)) : ∀ data : List SSTRec,
    List.Pairwise ikLt (data.map (fun r => r.1)) →
    (∀ r ∈ data, r.1.seqNum < ik.seqNum) →
    List.Pairwise ikLt ((slSet data ik v).map (fun r => r.1)) := by
  intro data
  induction data with
  | nil =>
    intro _ _
    simp [slSet]
  | cons e rest ih =>
    obtain ⟨k0, v0⟩ := e
    intro hs hfresh
    rw [List.map_cons, List.pairwise_cons] at hs
    unfold slSet
    by_cases h1 : ikCompare ik k0 = -1
    · rw [if_pos h1]
      rw [List.map_cons, List.pairwise_cons]
      constructor
      · intro y hy
        rw [List.map_cons] at hy
        rcases List.mem_cons.mp hy with h | h
        · rw [h]
          exact h1
        · exact ikLt_trans h1 (hs.1 y h)
      · rw [List.map_cons, List.pairwise_cons]
        exact hs
    · rw [if_neg h1]
      by_cases h2 : ikCompare ik k0 = 0
      · exfalso
        have h3 := (ikCompare_eq_zero h2).2
        have h4 := hfresh (k0, v0) (List.mem_cons_self _ _)
        simp at h4
        omega
      · rw [if_neg h2]
        have hfr : ∀ r ∈ rest, r.1.seqNum < ik.seqNum :=
          fun r hr => hfresh r (List.mem_cons_of_mem _ hr)
        rw [List.map_cons, List.pairwise_cons]
        refine ⟨?_, ih hs.2 hfr⟩
        intro y hy
        obtain ⟨r2, hr2, hr2y⟩ := List.mem_map.mp hy
        rcases slSet_mem ik v rest hfr r2 hr2 with h | h
        · exact hr2y ▸ hs.1 r2.1 (List.mem_map_of_mem _ h)
        · have hc1 : ikCompare ik k0 = 1 := by
            rcases ikCompare_cases ik k0 with hc | hc | hc
            · exact absurd hc h1
            · exact absurd hc h2
            · exact hc
          have : ikLt k0 ik := by
            unfold ikLt
            rw [ikCompare_antisymm, hc1]
          rw [← hr2y, h]
          exact this

theorem slSet_first_self (ik : InternalKey) (v : Option (List Nat)) : ∀ data : List SSTRec,
    (∀ r ∈ data, r.1.seqNum < ik.seqNum) →
    firstRecWith ik.userKey (slSet data ik v) = some (ik, v) := by
  intro data
  induction data with
  | nil =>
    intro _
    show firstRecWith ik.userKey [(ik, v)] = some (ik, v)
    rw [firstRecWith_cons, if_pos rfl]
  | cons e rest ih =>
    obtain ⟨k0, v0⟩ := e
    intro hfresh
    unfold slSet
    by_cases h1 : ikCompare ik k0 = -1
    · rw [if_pos h1]
      rw [firstRecWith_cons, if_pos rfl]
    · rw [if_neg h1]
      by_cases h2 : ikCompare ik k0 = 0
      · exfalso
        have h3 := (ikCompare_eq_zero h2).2
        have h4 := hfresh (k0, v0) (List.mem_cons_self _ _)
        simp at h4
        omega
      · rw [if_neg h2]
        have hc1 : ikCompare ik k0 = 1 := by
          rcases ikCompare_cases ik k0 with hc | hc | hc
          · exact absurd hc h1
          · exact absurd hc h2
          · exact hc
        have hseq0 : k0.seqNum < ik.seqNum := by
          have := hfresh (k0, v0) (List.mem_cons_self _ _)
          simpa using this
        have hkey := ikCompare_pos_key hc1 hseq0
        rw [firstRecWith_cons, if_neg]
        · exact ih (fun r hr => hfresh r (List.mem_cons_of_mem _ hr))
        · show ¬ k0.userKey = ik.userKey
          intro he
          rw [he, bytesCmp_self] at hkey
          exact absurd hkey (by decide)

theorem slSet_first_other (ik : InternalKey) (v : Option (List Nat)) (u : List Nat)
    (hne : u ≠ ik.userKey) : ∀ data : List SSTRec,
    (∀ r ∈ data, r.1.seqNum < ik.seqNum) →
    firstRecWith u (slSet data ik v) = firstRecWith u data := by
  intro data
  induction data with
  | nil =>
    intro _
    show firstRecWith u [(ik, v)] = firstRecWith u []
    rw [firstRecWith_cons, if_neg (fun he : (ik, v).1.userKey = u => hne he.symm)]
  | cons e rest ih =>
    obtain ⟨k0, v0⟩ := e
    intro hfresh
    unfold slSet
    by_cases h1 : ikCompare ik k0 = -1
    · rw [if_pos h1]
      rw [firstRecWith_cons]
      rw [if_neg (fun he : (ik, v).1.userKey = u => hne he.symm)]
    · rw [if_neg h1]
      by_cases h2 : ikCompare ik k0 = 0
      · exfalso
        have h3 := (ikCompare_eq_zero h2).2
        have h4 := hfresh (k0, v0) (List.mem_cons_self _ _)
        simp at h4
        omega
      · rw [if_neg h2]
        rw [firstRecWith_cons, firstRecWith_cons]
        by_cases hk : k0.userKey = u
        · rw [if_pos hk, if_pos hk]
        · rw [if_neg hk, if_neg hk]
          exact ih (fun r hr => hfresh r (List.mem_cons_of_mem _ hr))

/-- `DB.Get`'s SSTable loop realises the tier search over the decoded
tables: the first table (newest ordinal first) holding the key decides the
verdict. -/
theorem sstLoop_tiers (ft : List (List Nat) → List Nat → Bool)
    (hft : ∀ ks u, u ∈ ks → ft ks u = true)
    (ss : List (Nat × List SSTRec)) (k : List Nat) (cap : Nat)
    (hcap : cap ≤ 2 ^ 63 - 1) : ∀ i,
    (∀ j recs, j ≤ i → lookupAssoc ss j = some recs → tierOK cap recs) →
    sstLoop ft ss k i = engineVerdict (tiersGet k (sstDesc ss i)) := by
  intro i
  induction i with
  | zero =>
    intro _
    rfl
  | succ i ih =>
    intro hok
    have hih := ih (fun j recs hj hlr => hok j recs (by omega) hlr)
    cases hl : lookupAssoc ss (i + 1) with
    | none =>
      have h1 : sstLoop ft ss k (i + 1) = sstLoop ft ss k i := by
        show (match lookupAssoc ss (i + 1) with
          | none => sstLoop ft ss k i
          | some recs => match sstGet (writeSSTable recs)
              (ft (recs.map (fun r : SSTRec => r.1.userKey))) k with
            | none => sstLoop ft ss k i
            | some (val, true) => if val = none then (none, false) else (val, true)
            | some (_, false) => sstLoop ft ss k i) = _
        rw [hl]
      have h2 : sstDesc ss (i + 1) = sstDesc ss i := by
        show (match lookupAssoc ss (i + 1) with
          | none => sstDesc ss i
          | some recs => recs :: sstDesc ss i) = _
        rw [hl]
      rw [h1, h2, hih]
    | some recs =>
      obtain ⟨hsorted, hprops⟩ := hok (i + 1) recs (le_refl _) hl
      have hmain := sstGet_writeSSTable recs (ft (recs.map (fun r => r.1.userKey))) k
        hsorted (fun r hr => (hprops r hr).1)
        (fun r hr => by have h := (hprops r hr).2.2.1; omega)
        (fun r hr => hft _ _ (List.mem_map_of_mem _ hr))
      have h1 : sstLoop ft ss k (i + 1) =
          match sstGet (writeSSTable recs) (ft (recs.map (fun r => r.1.userKey))) k with
          | none => sstLoop ft ss k i
          | some (val, true) => if val = none then (none, false) else (val, true)
          | some (_, false) => sstLoop ft ss k i := by
        show (match lookupAssoc ss (i + 1) with
          | none => sstLoop ft ss k i
          | some recs2 => match sstGet (writeSSTable recs2)
              (ft (recs2.map (fun r : SSTRec => r.1.userKey))) k with
            | none => sstLoop ft ss k i
            | some (val, true) => if val = none then (none, false) else (val, true)
            | some (_, false) => sstLoop ft ss k i) = _
        rw [hl]
      have h2 : sstDesc ss (i + 1) = recs :: sstDesc ss i := by
        show (match lookupAssoc ss (i + 1) with
          | none => sstDesc ss i
          | some recs2 => recs2 :: sstDesc ss i) = _
        rw [hl]
      rw [h1, h2]
      cases hf : firstRecWith k recs with
      | none =>
        have hmain2 : sstGet (writeSSTable recs) (ft (recs.map (fun r => r.1.userKey))) k =
            some ((none : Option (List Nat)), false) := by
          rw [hf] at hmain
          exact hmain
        have hR : tiersGet k (recs :: sstDesc ss i) = tiersGet k (sstDesc ss i) := by
          show (match firstRecWith k recs with
            | some r => some r
            | none => tiersGet k (sstDesc ss i)) = _
          rw [hf]
        rw [hmain2, hR, hih]
      | some r =>
        have hmain2 : sstGet (writeSSTable recs) (ft (recs.map (fun r2 => r2.1.userKey))) k =
            some (if r.1.type = OpTypeDelete then ((none : Option (List Nat)), true)
              else (some (r.2.getD []), true)) := by
          rw [hf] at hmain
          exact hmain
        have hR : tiersGet k (recs :: sstDesc ss i) = some r := by
          show (match firstRecWith k recs with
            | some r2 => some r2
            | none => tiersGet k (sstDesc ss i)) = _
          rw [hf]
        have hrmem : r ∈ recs := (firstRecWith_mem k recs r hf).1
        rw [hR]
        rcases (hprops r hrmem).2.2.2 with ⟨hput, hval⟩ | ⟨hdel, hval⟩
        · obtain ⟨v, hv⟩ : ∃ v, r.2 = some v := by
            cases hrv : r.2 with
            | none => exact absurd hrv hval
            | some v => exact ⟨v, rfl⟩
          have hneq : ¬ r.1.type = OpTypeDelete := by
            rw [hput]
            decide
          rw [if_neg hneq] at hmain2
          rw [hmain2]
          show (if (some (r.2.getD []) : Option (List Nat)) = none
            then ((none : Option (List Nat)), false)
            else (some (r.2.getD []), true)) = engineVerdict (some r)
          rw [if_neg (by simp)]
          show (some (r.2.getD []), true) =
            if r.1.type = OpTypeDelete then ((none : Option (List Nat)), false)
            else match r.2 with
              | none => ((none : Option (List Nat)), false)
              | some v2 => (some v2, true)
          rw [if_neg hneq, hv]
          rfl
        · rw [if_pos hdel] at hmain2
          rw [hmain2]
          show (if (none : Option (List Nat)) = none then ((none : Option (List Nat)), false)
            else ((none : Option (List Nat)), true)) = engineVerdict (some r)
          rw [if_pos rfl]
          show ((none : Option (List Nat)), false) =
            if r.1.type = OpTypeDelete then ((none : Option (List Nat)), false)
            else match r.2 with
              | none => ((none : Option (List Nat)), false)
              | some v2 => (some v2, true)
          rw [if_pos hdel]

/-- One MemTable tier of the read merge: the tier's verdict if it holds the
key (tombstone → not-found), else fall through. -/
theorem memTier_match (m : MemTable) (k : List Nat) (rest : List (List SSTRec))
    (other : Option (List Nat) × Bool)
    (hsorted : List.Pairwise ikLt (m.data.map (fun r => r.1)))
    (hseq : ∀ r ∈ m.data, r.1.seqNum < 2 ^ 64)
    (hother : other = engineVerdict (tiersGet k rest)) :
    (match memGet m k with
      | (val, true) => if val = none then ((none : Option (List Nat)), false) else (val, true)
      | (_, false) => other) = engineVerdict (tiersGet k (m.data :: rest)) := by
  have hmem : memGet m k =
      match firstRecWith k m.data with
      | some r => if r.1.type = OpTypeDelete then ((none : Option (List Nat)), true)
        else (r.2, true)
      | none => (none, false) := memGet_spec k m.data m.size hsorted hseq
  cases hf : firstRecWith k m.data with
  | none =>
    have hmem2 : memGet m k = ((none : Option (List Nat)), false) := by
      rw [hmem, hf]
    have hR : tiersGet k (m.data :: rest) = tiersGet k rest := by
      show (match firstRecWith k m.data with
        | some r => some r
        | none => tiersGet k rest) = _
      rw [hf]
    rw [hmem2, hR, ← hother]
  | some r =>
    have hR : tiersGet k (m.data :: rest) = some r := by
      show (match firstRecWith k m.data with
        | some r2 => some r2
        | none => tiersGet k rest) = _
      rw [hf]
    rw [hR]
    by_cases hdel : r.1.type = OpTypeDelete
    · have hmem2 : memGet m k = ((none : Option (List Nat)), true) := by
        rw [hmem, hf]
        show (if r.1.type = OpTypeDelete then ((none : Option (List Nat)), true)
          else (r.2, true)) = ((none : Option (List Nat)), true)
        rw [if_pos hdel]
      rw [hmem2]
      show (if (none : Option (List Nat)) = none then ((none : Option (List Nat)), false)
        else ((none : Option (List Nat)), true)) = engineVerdict (some r)
      rw [if_pos rfl]
      show ((none : Option (List Nat)), false) =
        if r.1.type = OpTypeDelete then ((none : Option (List Nat)), false)
        else match r.2 with
          | none => ((none : Option (List Nat)), false)
          | some v2 => (some v2, true)
      rw [if_pos hdel]
    · have hmem2 : memGet m k = (r.2, true) := by
        rw [hmem, hf]
        show (if r.1.type = OpTypeDelete then ((none : Option (List Nat)), true)
          else (r.2, true)) = (r.2, true)
        rw [if_neg hdel]
      rw [hmem2]
      show (if r.2 = none then ((none : Option (List Nat)), false) else (r.2, true)) =
        engineVerdict (some r)
      show (if r.2 = none then ((none : Option (List Nat)), false) else (r.2, true)) =
        if r.1.type = OpTypeDelete then ((none : Option (List Nat)), false)
        else match r.2 with
          | none => ((none : Option (List Nat)), false)
          | some v2 => (some v2, true)
      rw [if_neg hdel]
      cases hrv : r.2 with
      | none => rfl
      | some v => rfl

/-- `DB.Get` realises the tier search: active MemTable, immutable MemTable,
then SSTables newest-first, first hit wins. -/
theorem dbGet_tiers (ft : List (List Nat) → List Nat → Bool)
    (hft : ∀ ks u, u ∈ ks → ft ks u = true)
    (s : DBState) (hg : GoodState s) (hcap : s.seqNum ≤ 2 ^ 63 - 1) (k : List Nat) :
    dbGet ft s k = engineVerdict (tiersGet k (tiers s)) := by
  have hseqm : ∀ r ∈ s.mem.data, r.1.seqNum < 2 ^ 64 := by
    intro r hr
    have h := (hg.memOK.2 r hr).2.2.1
    omega
  have hsst : sstLoop ft s.sstables k (s.ssTableCounter - 1) =
      engineVerdict (tiersGet k (sstDesc s.sstables (s.ssTableCounter - 1))) :=
    sstLoop_tiers ft hft s.sstables k s.seqNum hcap (s.ssTableCounter - 1)
      (fun j recs hj hlr => hg.sstOK (j, recs) (lookupAssoc_mem _ _ _ hlr))
  have hinner : (match s.imm with
      | some im =>
        match memGet im k with
        | (val, true) => if val = none then ((none : Option (List Nat)), false) else (val, true)
        | (_, false) => sstLoop ft s.sstables k (s.ssTableCounter - 1)
      | none => sstLoop ft s.sstables k (s.ssTableCounter - 1)) =
      engineVerdict (tiersGet k (immData s.imm :: sstDesc s.sstables (s.ssTableCounter - 1))) := by
    cases him : s.imm with
    | none =>
      show sstLoop ft s.sstables k (s.ssTableCounter - 1) =
        engineVerdict (tiersGet k (immData none :: sstDesc s.sstables (s.ssTableCounter - 1)))
      have hR : tiersGet k (immData none :: sstDesc s.sstables (s.ssTableCounter - 1)) =
          tiersGet k (sstDesc s.sstables (s.ssTableCounter - 1)) := rfl
      rw [hR]
      exact hsst
    | some im =>
      have himOK : tierOK s.seqNum im.data := by
        have h := hg.immOK
        rw [him] at h
        exact h
      exact memTier_match im k (sstDesc s.sstables (s.ssTableCounter - 1))
        (sstLoop ft s.sstables k (s.ssTableCounter - 1))
        himOK.1 (fun r hr => by have h2 := (himOK.2 r hr).2.2.1; omega) hsst
  unfold dbGet
  exact memTier_match s.mem k (immData s.imm :: sstDesc s.sstables (s.ssTableCounter - 1))
    _ hg.memOK.1 hseqm hinner

/-- Across a comparator-sorted tier list in which every later tier is
strictly older, the tier search resolves to the newest version of the key
present anywhere (or establishes the key is absent everywhere). -/
theorem tiersGet_newest (k : List Nat) : ∀ ts : List (List SSTRec),
    (∀ tier ∈ ts, List.Pairwise ikLt (tier.map (fun r => r.1))) →
    List.Pairwise (fun a b => domLt b a) ts →
    match tiersGet k ts with
    | some r => r.1.userKey = k ∧ r ∈ ts.flatten ∧
        ∀ r2 ∈ ts.flatten, r2.1.userKey = k → r2.1.seqNum ≤ r.1.seqNum
    | none => ∀ r2 ∈ ts.flatten, r2.1.userKey ≠ k := by
  intro ts
  induction ts with
  | nil =>
    intro _ _
    show ∀ r2 ∈ ([] : List SSTRec), r2.1.userKey ≠ k
    intro r2 hr2
    cases hr2
  | cons tier rest ih =>
    intro hsorted hdom
    rw [List.pairwise_cons] at hdom
    have ihr := ih (fun t ht => hsorted t (List.mem_cons_of_mem _ ht)) hdom.2
    cases hf : firstRecWith k tier with
    | some r =>
      have hT : tiersGet k (tier :: rest) = some r := by
        show (match firstRecWith k tier with
          | some r2 => some r2
          | none => tiersGet k rest) = _
        rw [hf]
      rw [hT]
      obtain ⟨hrmem, hrk⟩ := firstRecWith_mem k tier r hf
      refine ⟨hrk, ?_, ?_⟩
      · rw [List.flatten_cons]
        exact List.mem_append.mpr (Or.inl hrmem)
      · intro r2 hr2 hr2k
        rw [List.flatten_cons] at hr2
        rcases List.mem_append.mp hr2 with h | h
        · exact firstRecWith_newest k tier (hsorted tier (List.mem_cons_self _ _)) r hf r2 h hr2k
        · obtain ⟨t2, ht2, hrt2⟩ := List.mem_flatten.mp h
          exact le_of_lt (hdom.1 t2 ht2 r2 hrt2 r hrmem)
    | none =>
      have hT : tiersGet k (tier :: rest) = tiersGet k rest := by
        show (match firstRecWith k tier with
          | some r2 => some r2
          | none => tiersGet k rest) = _
        rw [hf]
      rw [hT]
      have htier : ∀ r2 ∈ tier, r2.1.userKey ≠ k := by
        intro r2 hr2 hk
        obtain ⟨r3, h3⟩ := firstRecWith_isSome k tier r2 hr2 hk
        rw [h3] at hf
        cases hf
      cases ht : tiersGet k rest with
      | some r =>
        rw [ht] at ihr
        obtain ⟨h1, h2, h3⟩ := ihr
        refine ⟨h1, ?_, ?_⟩
        · rw [List.flatten_cons]
          exact List.mem_append.mpr (Or.inr h2)
        · intro r2 hr2 hr2k
          rw [List.flatten_cons] at hr2
          rcases List.mem_append.mp hr2 with h | h
          · exact absurd hr2k (htier r2 h)
          · exact h3 r2 h hr2k
      | none =>
        rw [ht] at ihr
        intro r2 hr2
        rw [List.flatten_cons] at hr2
        rcases List.mem_append.mp hr2 with h | h
        · exact htier r2 h
        · exact ihr r2 h

theorem sstDesc_dom (ss : List (Nat × List SSTRec))
    (hOrd : ∀ p ∈ ss, ∀ q ∈ ss, p.1 < q.1 → domLt p.2 q.2) : ∀ i,
    List.Pairwise (fun a b : List SSTRec => domLt b a) (sstDesc ss i) := by
  intro i
  induction i with
  | zero => exact List.Pairwise.nil
  | succ i ih =>
    cases hl : lookupAssoc ss (i + 1) with
    | none =>
      have h2 : sstDesc ss (i + 1) = sstDesc ss i := by
        show (match lookupAssoc ss (i + 1) with
          | none => sstDesc ss i
          | some recs => recs :: sstDesc ss i) = _
        rw [hl]
      rw [h2]
      exact ih
    | some recs =>
      have h2 : sstDesc ss (i + 1) = recs :: sstDesc ss i := by
        show (match lookupAssoc ss (i + 1) with
          | none => sstDesc ss i
          | some recs2 => recs2 :: sstDesc ss i) = _
        rw [hl]
      rw [h2]
      rw [List.pairwise_cons]
      refine ⟨?_, ih⟩
      intro b hb
      obtain ⟨j, hj1, hj2, hj3⟩ := sstDesc_mem_ex ss i b hb
      exact hOrd (j, b) (lookupAssoc_mem _ _ _ hj3) (i + 1, recs) (lookupAssoc_mem _ _ _ hl)
        (by omega)

theorem tiers_dom (s : DBState) (hg : GoodState s) :
    List.Pairwise (fun a b : List SSTRec => domLt b a) (tiers s) := by
  unfold tiers
  rw [List.pairwise_cons]
  constructor
  · intro b hb
    rcases List.mem_cons.mp hb with h | h
    · rw [h]
      exact hg.immLtMem
    · obtain ⟨j, hj1, hj2, hj3⟩ := sstDesc_mem_ex _ _ b h
      exact hg.sstLtMem (j, b) (lookupAssoc_mem _ _ _ hj3)
  · rw [List.pairwise_cons]
    refine ⟨?_, sstDesc_dom s.sstables hg.sstOrd _⟩
    intro b hb
    obtain ⟨j, hj1, hj2, hj3⟩ := sstDesc_mem_ex _ _ b hb
    exact hg.sstLtImm (j, b) (lookupAssoc_mem _ _ _ hj3)

theorem tiers_sorted (s : DBState) (hg : GoodState s) :
    ∀ tier ∈ tiers s, List.Pairwise ikLt (tier.map (fun r => r.1)) := by
  intro tier ht
  unfold tiers at ht
  rcases List.mem_cons.mp ht with h | h
  · rw [h]
    exact hg.memOK.1
  · rcases List.mem_cons.mp h with h2 | h2
    · rw [h2]
      exact hg.immOK.1
    · obtain ⟨j, hj1, hj2, hj3⟩ := sstDesc_mem_ex _ _ tier h2
      exact (hg.sstOK (j, tier) (lookupAssoc_mem _ _ _ hj3)).1

theorem tierOK_mono {c c2 : Nat} (h : c ≤ c2) {recs : List SSTRec}
    (ht : tierOK c recs) : tierOK c2 recs := by
  refine ⟨ht.1, fun r hr => ?_⟩
  obtain ⟨h1, h2, h3, h4⟩ := ht.2 r hr
  exact ⟨h1, h2, by omega, h4⟩

theorem tiersGet_nil_tier (k : List Nat) (rest : List (List SSTRec)) :
    tiersGet k ([] :: rest) = tiersGet k rest := rfl

theorem tiersGet_congr_head (k : List Nat) (a a2 : List SSTRec) (rest : List (List SSTRec))
    (h : firstRecWith k a = firstRecWith k a2) :
    tiersGet k (a :: rest) = tiersGet k (a2 :: rest) := by
  show (match firstRecWith k a with
    | some r => some r
    | none => tiersGet k rest) =
    (match firstRecWith k a2 with
    | some r => some r
    | none => tiersGet k rest)
  rw [h]

theorem tiersGet_rotate (k : List Nat) (a : List SSTRec) (rest : List (List SSTRec)) :
    tiersGet k ([] :: a :: rest) = tiersGet k (a :: [] :: rest) := by
  rw [tiersGet_nil_tier]
  show (match firstRecWith k a with
    | some r => some r
    | none => tiersGet k rest) =
    (match firstRecWith k a with
    | some r => some r
    | none => tiersGet k ([] :: rest))
  rw [tiersGet_nil_tier]

theorem tiersGet_insert_nil (k : List Nat) (a : List SSTRec) (rest : List (List SSTRec)) :
    tiersGet k (a :: [] :: rest) = tiersGet k (a :: rest) := by
  show (match firstRecWith k a with
    | some r => some r
    | none => tiersGet k ([] :: rest)) =
    (match firstRecWith k a with
    | some r => some r
    | none => tiersGet k rest)
  rw [tiersGet_nil_tier]

theorem lookupAssoc_none_of_big {α : Type} (l : List (Nat × α)) (n : Nat)
    (h : ∀ p ∈ l, p.1 < n) : lookupAssoc l n = none := by
  induction l with
  | nil => rfl
  | cons p rest ih =>
    obtain ⟨n0, a0⟩ := p
    unfold lookupAssoc
    rw [if_neg]
    · exact ih (fun q hq => h q (List.mem_cons_of_mem _ hq))
    · have := h (n0, a0) (List.mem_cons_self _ _)
      simp at this
      omega

/-- The synchronous rotation preserves the invariant and the logical view:
the swapped MemTables answer exactly as before. -/
theorem flushMemtable_good_corr (s : DBState) (M : List (List Nat × Option (List Nat)))
    (hg : GoodState s) (hc : Corr s M) :
    GoodState (flushMemtable s) ∧ Corr (flushMemtable s) M ∧
      (flushMemtable s).seqNum = s.seqNum ∧
      (flushMemtable s).ssTableCounter = s.ssTableCounter := by
  cases him : s.imm with
  | some im =>
    rw [flushMemtable_eq_some s im him]
    exact ⟨hg, hc, rfl, rfl⟩
  | none =>
    rw [flushMemtable_eq_none s him]
    have himd : immData s.imm = [] := by
      rw [him]
      rfl
    refine ⟨?_, ?_, rfl, rfl⟩
    · refine ⟨?_, ?_, ?_, ?_, ?_, ?_, ?_, ?_, ?_, ?_⟩
      · exact ⟨List.Pairwise.nil, fun r hr => absurd hr (List.not_mem_nil r)⟩
      · exact hg.memOK
      · exact hg.sstOK
      · intro r hr r2 hr2
        exact absurd hr2 (List.not_mem_nil r2)
      · intro p hp
        intro r hr r2 hr2
        exact absurd hr2 (List.not_mem_nil r2)
      · intro p hp
        exact hg.sstLtMem p hp
      · exact hg.sstOrd
      · exact hg.sstCap
      · exact hg.sstOrdSorted
      · exact hg.cntPos
    · intro k
      have htg : tiersGet k (tiers { s with
          walRotated := setAssoc s.walRotated s.ssTableCounter s.walActive,
          walActive := [],
          imm := some s.mem,
          mem := NewMemTable,
          pending := some s.ssTableCounter }) = tiersGet k (tiers s) := by
        show tiersGet k (([] : List SSTRec) :: s.mem.data ::
          sstDesc s.sstables (s.ssTableCounter - 1)) = tiersGet k (tiers s)
        rw [tiersGet_rotate]
        show tiersGet k (s.mem.data :: ([] : List SSTRec) ::
          sstDesc s.sstables (s.ssTableCounter - 1)) = _
        rw [tiersGet_insert_nil]
        show _ = tiersGet k (s.mem.data :: immData s.imm ::
          sstDesc s.sstables (s.ssTableCounter - 1))
        rw [himd]
        rw [← tiersGet_insert_nil]
      have h2 := hc k
      cases hl : lookupKV M k with
      | none =>
        rw [hl] at h2
        show tiersGet k (tiers _) = none
        rw [htg]
        exact h2
      | some vv =>
        cases vv with
        | some v0 =>
          rw [hl] at h2
          obtain ⟨r, hr1, hr2, hr3, hr4⟩ := h2
          exact ⟨r, by rw [htg]; exact hr1, hr2, hr3, hr4⟩
        | none =>
          rw [hl] at h2
          obtain ⟨r, hr1, hr2, hr3, hr4⟩ := h2
          exact ⟨r, by rw [htg]; exact hr1, hr2, hr3, hr4⟩

/-- Inserting a freshly sequenced record into the active MemTable (the
common body of `Put` and `Delete`, before any flush) preserves the
invariant and updates the logical view at exactly its key. -/
theorem insert_good_corr (s : DBState) (M : List (List Nat × Option (List Nat)))
    (hg : GoodState s) (hc : Corr s M)
    (k : List Nat) (v : Option (List Nat)) (ty : Nat)
    (hcoh : (ty = OpTypePut ∧ v ≠ none) ∨ (ty = OpTypeDelete ∧ v = none))
    (hkb : k.length + 13 < 2 ^ 32) (hvb : (v.getD []).length < 2 ^ 32)
    (hnov : s.seqNum + 1 < 2 ^ 64)
    (s1 : DBState)
    (hs1mem : s1.mem = memPut s.mem ⟨k, s.seqNum + 1, ty⟩ v)
    (hs1imm : s1.imm = s.imm) (hs1sst : s1.sstables = s.sstables)
    (hs1cnt : s1.ssTableCounter = s.ssTableCounter) (hs1seq : s1.seqNum = s.seqNum + 1) :
    GoodState s1 ∧ Corr s1 ((k, v) :: M) := by
  have hfresh : ∀ r ∈ s.mem.data,
      r.1.seqNum < (⟨k, s.seqNum + 1, ty⟩ : InternalKey).seqNum := by
    intro r hr
    have h := (hg.memOK.2 r hr).2.2.1
    show r.1.seqNum < s.seqNum + 1
    omega
  have hs1memd : s1.mem.data = slSet s.mem.data ⟨k, s.seqNum + 1, ty⟩ v := by
    rw [hs1mem]
    rfl
  constructor
  · refine ⟨?_, ?_, ?_, ?_, ?_, ?_, ?_, ?_, ?_, ?_⟩
    · constructor
      · rw [hs1memd]
        exact slSet_sorted _ v s.mem.data hg.memOK.1 hfresh
      · intro r hr
        rw [hs1memd] at hr
        rcases slSet_mem _ v s.mem.data hfresh r hr with hold | hnew
        · obtain ⟨h1, h2, h3, h4⟩ := hg.memOK.2 r hold
          exact ⟨h1, h2, by rw [hs1seq]; omega, h4⟩
        · subst hnew
          refine ⟨⟨by simpa using hkb, by simpa using hvb, by show s.seqNum + 1 < 2 ^ 64; omega⟩,
            by show 1 ≤ s.seqNum + 1; omega, by rw [hs1seq], ?_⟩
          rcases hcoh with ⟨h1, h2⟩ | ⟨h1, h2⟩
          · exact Or.inl ⟨h1, h2⟩
          · exact Or.inr ⟨h1, h2⟩
    · rw [hs1imm, hs1seq]
      exact tierOK_mono (by omega) hg.immOK
    · intro p hp
      rw [hs1sst] at hp
      rw [hs1seq]
      exact tierOK_mono (by omega) (hg.sstOK p hp)
    · intro r hr r2 hr2
      rw [hs1imm] at hr
      rw [hs1memd] at hr2
      rcases slSet_mem _ v s.mem.data hfresh r2 hr2 with hold | hnew
      · exact hg.immLtMem r hr r2 hold
      · subst hnew
        show r.1.seqNum < s.seqNum + 1
        have h := (hg.immOK.2 r hr).2.2.1
        omega
    · intro p hp r hr r2 hr2
      rw [hs1sst] at hp
      rw [hs1memd] at hr2
      rcases slSet_mem _ v s.mem.data hfresh r2 hr2 with hold | hnew
      · exact hg.sstLtMem p hp r hr r2 hold
      · subst hnew
        show r.1.seqNum < s.seqNum + 1
        have h := ((hg.sstOK p hp).2 r hr).2.2.1
        omega
    · intro p hp
      rw [hs1sst] at hp
      rw [hs1imm]
      exact hg.sstLtImm p hp
    · intro p hp q hq
      rw [hs1sst] at hp hq
      exact hg.sstOrd p hp q hq
    · intro p hp
      rw [hs1sst] at hp
      rw [hs1cnt]
      exact hg.sstCap p hp
    · rw [hs1sst]
      exact hg.sstOrdSorted
    · rw [hs1cnt]
      exact hg.cntPos
  · intro k2
    have htiers1 : tiers s1 = s1.mem.data :: immData s.imm ::
        sstDesc s.sstables (s.ssTableCounter - 1) := by
      unfold tiers
      rw [hs1imm, hs1sst, hs1cnt]
    by_cases hk : k = k2
    · subst hk
      have hscr : lookupKV ((k, v) :: M) k = some v := by
        show (if k = k then some v else lookupKV M k) = some v
        rw [if_pos rfl]
      rw [hscr]
      have htg : tiersGet k (tiers s1) = some (⟨k, s.seqNum + 1, ty⟩, v) := by
        rw [htiers1]
        show (match firstRecWith k s1.mem.data with
          | some r => some r
          | none => tiersGet k (immData s.imm ::
              sstDesc s.sstables (s.ssTableCounter - 1))) = _
        rw [hs1memd]
        rw [slSet_first_self ⟨k, s.seqNum + 1, ty⟩ v s.mem.data hfresh]
      rcases hcoh with ⟨h1, h2⟩ | ⟨h1, h2⟩
      · obtain ⟨v0, hv0⟩ : ∃ v0, v = some v0 := by
          cases hv : v with
          | none => exact absurd hv h2
          | some v0 => exact ⟨v0, rfl⟩
        subst hv0
        exact ⟨(⟨k, s.seqNum + 1, ty⟩, some v0), htg, rfl, h1, rfl⟩
      · subst h2
        exact ⟨(⟨k, s.seqNum + 1, ty⟩, none), htg, rfl, h1, rfl⟩
    · have hscr : lookupKV ((k, v) :: M) k2 = lookupKV M k2 := by
        show (if k = k2 then some v else lookupKV M k2) = _
        rw [if_neg hk]
      rw [hscr]
      have htg : tiersGet k2 (tiers s1) = tiersGet k2 (tiers s) := by
        rw [htiers1]
        show (match firstRecWith k2 s1.mem.data with
          | some r => some r
          | none => tiersGet k2 (immData s.imm ::
              sstDesc s.sstables (s.ssTableCounter - 1))) =
          (match firstRecWith k2 s.mem.data with
          | some r => some r
          | none => tiersGet k2 (immData s.imm ::
              sstDesc s.sstables (s.ssTableCounter - 1)))
        rw [hs1memd]
        rw [slSet_first_other ⟨k, s.seqNum + 1, ty⟩ v k2 (fun he => hk he.symm)
          s.mem.data hfresh]
      have h2 := hc k2
      cases hl : lookupKV M k2 with
      | none =>
        rw [hl] at h2
        show tiersGet k2 (tiers s1) = none
        rw [htg]
        exact h2
      | some vv =>
        cases vv with
        | some v0 =>
          rw [hl] at h2
          obtain ⟨r, hr1, hr2, hr3, hr4⟩ := h2
          exact ⟨r, by rw [htg]; exact hr1, hr2, hr3, hr4⟩
        | none =>
          rw [hl] at h2
          obtain ⟨r, hr1, hr2, hr3, hr4⟩ := h2
          exact ⟨r, by rw [htg]; exact hr1, hr2, hr3, hr4⟩

/-- `DB.Put` preserves the invariant and overwrites the key's view with the
new value. -/
theorem dbPut_good (s : DBState) (M : List (List Nat × Option (List Nat)))
    (hg : GoodState s) (hc : Corr s M) (k v : List Nat)
    (hkb : k.length + 13 < 2 ^ 32) (hvb : v.length < 2 ^ 32)
    (hnov : s.seqNum + 1 < 2 ^ 64) :
    GoodState (dbPut s k v) ∧ Corr (dbPut s k v) ((k, some v) :: M) ∧
      (dbPut s k v).seqNum = s.seqNum + 1 := by
  have hmod : (s.seqNum + 1) % 2 ^ 64 = s.seqNum + 1 := Nat.mod_eq_of_lt hnov
  obtain ⟨hg1, hc1⟩ := insert_good_corr s M hg hc k (some v) OpTypePut
    (Or.inl ⟨rfl, by simp⟩) hkb (by simpa using hvb) hnov
    { s with
      seqNum := (s.seqNum + 1) % 2 ^ 64,
      walActive := s.walActive ++ [⟨OpPut, k, v, (s.seqNum + 1) % 2 ^ 64⟩],
      mem := memPut s.mem ⟨k, (s.seqNum + 1) % 2 ^ 64, OpTypePut⟩ (some v) }
    (by show memPut s.mem ⟨k, (s.seqNum + 1) % 2 ^ 64, OpTypePut⟩ (some v) =
          memPut s.mem ⟨k, s.seqNum + 1, OpTypePut⟩ (some v)
        rw [hmod])
    rfl rfl rfl
    (by show (s.seqNum + 1) % 2 ^ 64 = s.seqNum + 1
        exact hmod)
  by_cases hsz : ApproximateSize (memPut s.mem
      ⟨k, (s.seqNum + 1) % 2 ^ 64, OpTypePut⟩ (some v)) > MemTableSizeThreshold
  · have he : dbPut s k v = flushMemtable { s with
        seqNum := (s.seqNum + 1) % 2 ^ 64,
        walActive := s.walActive ++ [⟨OpPut, k, v, (s.seqNum + 1) % 2 ^ 64⟩],
        mem := memPut s.mem ⟨k, (s.seqNum + 1) % 2 ^ 64, OpTypePut⟩ (some v) } := by
      unfold dbPut
      dsimp only
      rw [if_pos hsz]
    rw [he]
    obtain ⟨hga, hca, hsa, _⟩ := flushMemtable_good_corr _ ((k, some v) :: M) hg1 hc1
    refine ⟨hga, hca, ?_⟩
    rw [hsa]
    exact hmod
  · have he : dbPut s k v = { s with
        seqNum := (s.seqNum + 1) % 2 ^ 64,
        walActive := s.walActive ++ [⟨OpPut, k, v, (s.seqNum + 1) % 2 ^ 64⟩],
        mem := memPut s.mem ⟨k, (s.seqNum + 1) % 2 ^ 64, OpTypePut⟩ (some v) } := by
      unfold dbPut
      dsimp only
      rw [if_neg hsz]
    rw [he]
    exact ⟨hg1, hc1, hmod⟩

/-- `DB.Delete` preserves the invariant and overwrites the key's view with a
tombstone. -/
theorem dbDelete_good (s : DBState) (M : List (List Nat × Option (List Nat)))
    (hg : GoodState s) (hc : Corr s M) (k : List Nat)
    (hkb : k.length + 13 < 2 ^ 32) (hnov : s.seqNum + 1 < 2 ^ 64) :
    GoodState (dbDelete s k) ∧ Corr (dbDelete s k) ((k, none) :: M) ∧
      (dbDelete s k).seqNum = s.seqNum + 1 := by
  have hmod : (s.seqNum + 1) % 2 ^ 64 = s.seqNum + 1 := Nat.mod_eq_of_lt hnov
  obtain ⟨hg1, hc1⟩ := insert_good_corr s M hg hc k none OpTypeDelete
    (Or.inr ⟨rfl, rfl⟩) hkb (by simp) hnov
    { s with
      seqNum := (s.seqNum + 1) % 2 ^ 64,
      walActive := s.walActive ++ [⟨OpDelete, k, [], (s.seqNum + 1) % 2 ^ 64⟩],
      mem := memPut s.mem ⟨k, (s.seqNum + 1) % 2 ^ 64, OpTypeDelete⟩ none }
    (by show memPut s.mem ⟨k, (s.seqNum + 1) % 2 ^ 64, OpTypeDelete⟩ none =
          memPut s.mem ⟨k, s.seqNum + 1, OpTypeDelete⟩ none
        rw [hmod])
    rfl rfl rfl
    (by show (s.seqNum + 1) % 2 ^ 64 = s.seqNum + 1
        exact hmod)
  by_cases hsz : ApproximateSize (memPut s.mem
      ⟨k, (s.seqNum + 1) % 2 ^ 64, OpTypeDelete⟩ none) > MemTableSizeThreshold
  · have he : dbDelete s k = flushMemtable { s with
        seqNum := (s.seqNum + 1) % 2 ^ 64,
        walActive := s.walActive ++ [⟨OpDelete, k, [], (s.seqNum + 1) % 2 ^ 64⟩],
        mem := memPut s.mem ⟨k, (s.seqNum + 1) % 2 ^ 64, OpTypeDelete⟩ none } := by
      unfold dbDelete
      dsimp only
      rw [if_pos hsz]
    rw [he]
    obtain ⟨hga, hca, hsa, _⟩ := flushMemtable_good_corr _ ((k, none) :: M) hg1 hc1
    refine ⟨hga, hca, ?_⟩
    rw [hsa]
    exact hmod
  · have he : dbDelete s k = { s with
        seqNum := (s.seqNum + 1) % 2 ^ 64,
        walActive := s.walActive ++ [⟨OpDelete, k, [], (s.seqNum + 1) % 2 ^ 64⟩],
        mem := memPut s.mem ⟨k, (s.seqNum + 1) % 2 ^ 64, OpTypeDelete⟩ none } := by
      unfold dbDelete
      dsimp only
      rw [if_neg hsz]
    rw [he]
    exact ⟨hg1, hc1, hmod⟩

/-- A successful background flush preserves the invariant and the logical
view: the immutable MemTable's records reappear as the newest SSTable. -/
theorem dbFlushOk_good (s : DBState) (M : List (List Nat × Option (List Nat)))
    (hg : GoodState s) (hc : Corr s M) :
    GoodState (dbFlushOk s) ∧ Corr (dbFlushOk s) M ∧
      (dbFlushOk s).seqNum = s.seqNum := by
  cases him : s.imm with
  | none =>
    have he : dbFlushOk s = s := by
      unfold dbFlushOk
      rw [him]
    rw [he]
    exact ⟨hg, hc, rfl⟩
  | some im =>
    cases hpd : s.pending with
    | none =>
      have he : dbFlushOk s = s := by
        unfold dbFlushOk
        rw [him, hpd]
      rw [he]
      exact ⟨hg, hc, rfl⟩
    | some w =>
      have he : dbFlushOk s = { s with
          ssTableCounter := s.ssTableCounter + 1,
          sstables := setAssoc s.sstables s.ssTableCounter im.data,
          imm := none,
          stateCounter := some (s.ssTableCounter + 1),
          walRotated := removeAssoc s.walRotated w,
          pending := none } := by
        unfold dbFlushOk
        rw [him, hpd]
      rw [he]
      have himd : immData s.imm = im.data := by
        rw [him]
        rfl
      obtain ⟨c0, hc0⟩ : ∃ c0, s.ssTableCounter = c0 + 1 :=
        ⟨s.ssTableCounter - 1, by have := hg.cntPos; omega⟩
      have hdesc : sstDesc (setAssoc s.sstables s.ssTableCounter im.data) s.ssTableCounter =
          im.data :: sstDesc s.sstables c0 := by
        rw [hc0]
        show (match lookupAssoc (setAssoc s.sstables (c0 + 1) im.data) (c0 + 1) with
          | none => sstDesc (setAssoc s.sstables (c0 + 1) im.data) c0
          | some recs => recs :: sstDesc (setAssoc s.sstables (c0 + 1) im.data) c0) = _
        rw [lookupAssoc_setAssoc_self, sstDesc_setAssoc_lt c0 (by omega)]
      have htg : ∀ k2, tiersGet k2 (tiers { s with
          ssTableCounter := s.ssTableCounter + 1,
          sstables := setAssoc s.sstables s.ssTableCounter im.data,
          imm := none,
          stateCounter := some (s.ssTableCounter + 1),
          walRotated := removeAssoc s.walRotated w,
          pending := none }) = tiersGet k2 (tiers s) := by
        intro k2
        show tiersGet k2 (s.mem.data :: ([] : List SSTRec) ::
          sstDesc (setAssoc s.sstables s.ssTableCounter im.data) (s.ssTableCounter + 1 - 1)) =
          tiersGet k2 (s.mem.data :: immData s.imm ::
            sstDesc s.sstables (s.ssTableCounter - 1))
        rw [show s.ssTableCounter + 1 - 1 = s.ssTableCounter from rfl, hdesc, himd]
        rw [show s.ssTableCounter - 1 = c0 from by omega]
        exact tiersGet_insert_nil k2 s.mem.data (im.data :: sstDesc s.sstables c0)
      refine ⟨?_, ?_, rfl⟩
      · refine ⟨hg.memOK, ?_, ?_, ?_, ?_, ?_, ?_, ?_, ?_, ?_⟩
        · exact ⟨List.Pairwise.nil, fun r hr => absurd hr (List.not_mem_nil r)⟩
        · intro p hp
          rcases setAssoc_mem _ _ _ p hp with hold | hnew
          · exact hg.sstOK p hold
          · subst hnew
            exact himd ▸ hg.immOK
        · intro r hr r2 hr2
          exact absurd hr (List.not_mem_nil r)
        · intro p hp
          rcases setAssoc_mem _ _ _ p hp with hold | hnew
          · exact hg.sstLtMem p hold
          · subst hnew
            exact himd ▸ hg.immLtMem
        · intro p hp r hr r2 hr2
          exact absurd hr2 (List.not_mem_nil r2)
        · intro p hp q hq hpq
          rcases setAssoc_mem _ _ _ p hp with hpold | hpnew <;>
            rcases setAssoc_mem _ _ _ q hq with hqold | hqnew
          · exact hg.sstOrd p hpold q hqold hpq
          · subst hqnew
            exact himd ▸ hg.sstLtImm p hpold
          · subst hpnew
            have h2 := (hg.sstCap q hqold).2
            simp at hpq
            omega
          · subst hpnew
            subst hqnew
            simp at hpq
        · intro p hp
          rcases setAssoc_mem _ _ _ p hp with hold | hnew
          · have h2 := hg.sstCap p hold
            show 1 ≤ p.1 ∧ p.1 < s.ssTableCounter + 1
            omega
          · subst hnew
            show 1 ≤ s.ssTableCounter ∧ s.ssTableCounter < s.ssTableCounter + 1
            have := hg.cntPos
            omega
        · exact setAssoc_sorted s.sstables s.ssTableCounter im.data hg.sstOrdSorted
        · show 1 ≤ s.ssTableCounter + 1
          omega
      · unfold Corr
        simp only [htg]
        exact hc

/-- A failed background flush preserves the invariant and the logical view:
only the counter advances (the unreadable partial file is skipped by
readers), and ordinal `counter` holds no table. -/
theorem dbFlushFail_good (s : DBState) (M : List (List Nat × Option (List Nat)))
    (hg : GoodState s) (hc : Corr s M) :
    GoodState (dbFlushFail s) ∧ Corr (dbFlushFail s) M ∧
      (dbFlushFail s).seqNum = s.seqNum := by
  cases him : s.imm with
  | none =>
    have he : dbFlushFail s = s := by
      unfold dbFlushFail
      rw [him]
    rw [he]
    exact ⟨hg, hc, rfl⟩
  | some im =>
    cases hpd : s.pending with
    | none =>
      have he : dbFlushFail s = s := by
        unfold dbFlushFail
        rw [him, hpd]
      rw [he]
      exact ⟨hg, hc, rfl⟩
    | some w =>
      have he : dbFlushFail s = { s with
          ssTableCounter := s.ssTableCounter + 1,
          pending := none } := by
        unfold dbFlushFail
        rw [him, hpd]
      rw [he]
      obtain ⟨c0, hc0⟩ : ∃ c0, s.ssTableCounter = c0 + 1 :=
        ⟨s.ssTableCounter - 1, by have := hg.cntPos; omega⟩
      have hlnone : lookupAssoc s.sstables s.ssTableCounter = none :=
        lookupAssoc_none_of_big _ _ (fun p hp => (hg.sstCap p hp).2)
      have hdesc : sstDesc s.sstables s.ssTableCounter =
          sstDesc s.sstables (s.ssTableCounter - 1) := by
        rw [hc0]
        show (match lookupAssoc s.sstables (c0 + 1) with
          | none => sstDesc s.sstables c0
          | some recs => recs :: sstDesc s.sstables c0) = _
        rw [hc0] at hlnone
        rw [hlnone]
        rfl
      have htg : ∀ k2, tiersGet k2 (tiers { s with
          ssTableCounter := s.ssTableCounter + 1,
          pending := none }) = tiersGet k2 (tiers s) := by
        intro k2
        show tiersGet k2 (s.mem.data :: immData s.imm ::
          sstDesc s.sstables (s.ssTableCounter + 1 - 1)) =
          tiersGet k2 (s.mem.data :: immData s.imm ::
            sstDesc s.sstables (s.ssTableCounter - 1))
        rw [show s.ssTableCounter + 1 - 1 = s.ssTableCounter from rfl, hdesc]
      refine ⟨?_, ?_, rfl⟩
      · refine ⟨hg.memOK, hg.immOK, hg.sstOK, hg.immLtMem, hg.sstLtMem, hg.sstLtImm,
          hg.sstOrd, ?_, hg.sstOrdSorted, ?_⟩
        · intro p hp
          have h2 := hg.sstCap p hp
          show 1 ≤ p.1 ∧ p.1 < s.ssTableCounter + 1
          omega
        · show 1 ≤ s.ssTableCounter + 1
          omega
      · unfold Corr
        simp only [htg]
        exact hc

theorem initDB_good : GoodState initDB ∧ Corr initDB [] := by
  constructor
  · refine ⟨?_, ?_, ?_, ?_, ?_, ?_, ?_, ?_, ?_, ?_⟩
    · exact ⟨List.Pairwise.nil, fun r hr => absurd hr (List.not_mem_nil r)⟩
    · exact ⟨List.Pairwise.nil, fun r hr => absurd hr (List.not_mem_nil r)⟩
    · intro p hp
      exact absurd hp (List.not_mem_nil p)
    · intro r hr
      exact absurd hr (List.not_mem_nil r)
    · intro p hp
      exact absurd hp (List.not_mem_nil p)
    · intro p hp
      exact absurd hp (List.not_mem_nil p)
    · intro p hp
      exact absurd hp (List.not_mem_nil p)
    · intro p hp
      exact absurd hp (List.not_mem_nil p)
    · exact List.Pairwise.nil
    · exact le_refl 1
  · intro k
    rfl

/-- Running a restart-free trace of bounded actions from a good state keeps
the engine good, tracks the logical map, and advances the sequence counter
by at most one per action. -/
theorem run_good (t : List DBAction) : ∀ (s : DBState) (M : List (List Nat × Option (List Nat))),
    GoodState s → Corr s M → DBAction.restart ∉ t → (∀ a ∈ t, actBounded a) →
    s.seqNum + t.length < 2 ^ 64 →
    ∃ s2, runFrom s t = some s2 ∧ GoodState s2 ∧ Corr s2 (applyActs t M) ∧
      s2.seqNum ≤ s.seqNum + t.length := by
  induction t with
  | nil =>
    intro s M hg hc _ _ _
    exact ⟨s, rfl, hg, hc, by omega⟩
  | cons a rest ih =>
    intro s M hg hc hnr hb hnov
    have hnrr : DBAction.restart ∉ rest := fun h => hnr (List.mem_cons_of_mem a h)
    have hbr : ∀ x ∈ rest, actBounded x := fun x hx => hb x (List.mem_cons_of_mem a hx)
    have hba := hb a (List.mem_cons_self a rest)
    have hlen : s.seqNum + (rest.length + 1) < 2 ^ 64 := by simpa using hnov
    cases a with
    | restart => exact absurd (List.mem_cons_self _ _) hnr
    | put k v =>
      obtain ⟨hkb, hvb⟩ := hba
      obtain ⟨hg1, hc1, hs1⟩ := dbPut_good s M hg hc k v hkb hvb (by omega)
      obtain ⟨s2, h1, h2, h3, h4⟩ := ih (dbPut s k v) ((k, some v) :: M) hg1 hc1 hnrr hbr
        (by rw [hs1]; omega)
      refine ⟨s2, ?_, h2, ?_, ?_⟩
      · show (match step s (.put k v) with
          | none => none
          | some s3 => runFrom s3 rest) = some s2
        exact h1
      · show Corr s2 (applyActs rest ((k, some v) :: M))
        exact h3
      · rw [hs1] at h4
        show s2.seqNum ≤ s.seqNum + (rest.length + 1)
        omega
    | del k =>
      obtain ⟨hg1, hc1, hs1⟩ := dbDelete_good s M hg hc k hba (by omega)
      obtain ⟨s2, h1, h2, h3, h4⟩ := ih (dbDelete s k) ((k, none) :: M) hg1 hc1 hnrr hbr
        (by rw [hs1]; omega)
      refine ⟨s2, ?_, h2, ?_, ?_⟩
      · show (match step s (.del k) with
          | none => none
          | some s3 => runFrom s3 rest) = some s2
        exact h1
      · show Corr s2 (applyActs rest ((k, none) :: M))
        exact h3
      · rw [hs1] at h4
        show s2.seqNum ≤ s.seqNum + (rest.length + 1)
        omega
    | flushOk =>
      obtain ⟨hg1, hc1, hs1⟩ := dbFlushOk_good s M hg hc
      obtain ⟨s2, h1, h2, h3, h4⟩ := ih (dbFlushOk s) M hg1 hc1 hnrr hbr
        (by rw [hs1]; omega)
      refine ⟨s2, ?_, h2, ?_, ?_⟩
      · show (match step s .flushOk with
          | none => none
          | some s3 => runFrom s3 rest) = some s2
        exact h1
      · show Corr s2 (applyActs rest M)
        exact h3
      · rw [hs1] at h4
        show s2.seqNum ≤ s.seqNum + (rest.length + 1)
        omega
    | flushFail =>
      obtain ⟨hg1, hc1, hs1⟩ := dbFlushFail_good s M hg hc
      obtain ⟨s2, h1, h2, h3, h4⟩ := ih (dbFlushFail s) M hg1 hc1 hnrr hbr
        (by rw [hs1]; omega)
      refine ⟨s2, ?_, h2, ?_, ?_⟩
      · show (match step s .flushFail with
          | none => none
          | some s3 => runFrom s3 rest) = some s2
        exact h1
      · show Corr s2 (applyActs rest M)
        exact h3
      · rw [hs1] at h4
        show s2.seqNum ≤ s.seqNum + (rest.length + 1)
        omega

/-- C1: read-your-writes.  For every restart-free trace of engine operations
with encodable key/value sizes and fewer than `2^63` writes, and every key
whose most recent write is `put(k, v)` (no later delete of `k`), a
subsequent `get(k)` returns `(v, true)` — for every permitted value,
including the empty one.  The bloom filters may be arbitrary functions with
no false negatives. -/
theorem c1_read_your_writes (ft : List (List Nat) → List Nat → Bool)
    (hft : ∀ ks u, u ∈ ks → ft ks u = true)
    (t : List DBAction) (k v : List Nat)
    (hnr : DBAction.restart ∉ t) (hb : ∀ a ∈ t, actBounded a)
    (hlen : t.length ≤ 2 ^ 63 - 1)
    (hlast : lookupKV (applyActs t []) k = some (some v)) :
    ∃ s2, runFrom initDB t = some s2 ∧ dbGet ft s2 k = (some v, true) := by
  obtain ⟨hg0, hc0⟩ := initDB_good
  obtain ⟨s2, h1, h2, h3, h4⟩ := run_good t initDB [] hg0 hc0 hnr hb
    (by show 0 + t.length < 2 ^ 64; omega)
  refine ⟨s2, h1, ?_⟩
  have hcap : s2.seqNum ≤ 2 ^ 63 - 1 := by
    have h0 : initDB.seqNum = 0 := rfl
    omega
  rw [dbGet_tiers ft hft s2 h2 hcap k]
  have h5 := h3 k
  rw [hlast] at h5
  obtain ⟨r, hr1, hr2, hr3, hr4⟩ := h5
  rw [hr1]
  show (if r.1.type = OpTypeDelete then ((none : Option (List Nat)), false)
    else match r.2 with
      | none => ((none : Option (List Nat)), false)
      | some v2 => (some v2, true)) = (some v, true)
  rw [if_neg (by rw [hr3]; decide), hr4]

/-- C2: delete visibility.  For every restart-free trace whose most recent
write to `k` is a delete (no later put of `k`), `get(k)` returns
`(empty, false)` — regardless of how many older tiers still hold entries
for `k`: the tombstone is found in the newest tier holding `k` and
terminates the search with a not-found verdict. -/
theorem c2_delete_visibility (ft : List (List Nat) → List Nat → Bool)
    (hft : ∀ ks u, u ∈ ks → ft ks u = true)
    (t : List DBAction) (k : List Nat)
    (hnr : DBAction.restart ∉ t) (hb : ∀ a ∈ t, actBounded a)
    (hlen : t.length ≤ 2 ^ 63 - 1)
    (hlast : lookupKV (applyActs t []) k = some none) :
    ∃ s2, runFrom initDB t = some s2 ∧ dbGet ft s2 k = (none, false) := by
  obtain ⟨hg0, hc0⟩ := initDB_good
  obtain ⟨s2, h1, h2, h3, h4⟩ := run_good t initDB [] hg0 hc0 hnr hb
    (by show 0 + t.length < 2 ^ 64; omega)
  refine ⟨s2, h1, ?_⟩
  have hcap : s2.seqNum ≤ 2 ^ 63 - 1 := by
    have h0 : initDB.seqNum = 0 := rfl
    omega
  rw [dbGet_tiers ft hft s2 h2 hcap k]
  have h5 := h3 k
  rw [hlast] at h5
  obtain ⟨r, hr1, hr2, hr3, hr4⟩ := h5
  rw [hr1]
  show (if r.1.type = OpTypeDelete then ((none : Option (List Nat)), false)
    else match r.2 with
      | none => ((none : Option (List Nat)), false)
      | some v2 => (some v2, true)) = ((none : Option (List Nat)), false)
  rw [if_pos hr3]

/-- C3: ordering across tiers.  On every state reached by a restart-free
trace, `get` consults the tiers in the order active MemTable, immutable
MemTable, SSTable ordinals descending from `sstable_counter - 1` to 1, and
returns the verdict of the first tier holding the key — which is the newest
version of the key present anywhere (when no tier holds the key, no record
of the key exists at all). -/
theorem c3_tier_ordering (ft : List (List Nat) → List Nat → Bool)
    (hft : ∀ ks u, u ∈ ks → ft ks u = true)
    (t : List DBAction) (k : List Nat)
    (hnr : DBAction.restart ∉ t) (hb : ∀ a ∈ t, actBounded a)
    (hlen : t.length ≤ 2 ^ 63 - 1) :
    ∃ s2, runFrom initDB t = some s2 ∧
      tiers s2 = s2.mem.data :: immData s2.imm ::
        sstDesc s2.sstables (s2.ssTableCounter - 1) ∧
      dbGet ft s2 k = engineVerdict (tiersGet k (tiers s2)) ∧
      (match tiersGet k (tiers s2) with
        | some r => r.1.userKey = k ∧ r ∈ (tiers s2).flatten ∧
            ∀ r2 ∈ (tiers s2).flatten, r2.1.userKey = k → r2.1.seqNum ≤ r.1.seqNum
        | none => ∀ r2 ∈ (tiers s2).flatten, r2.1.userKey ≠ k) := by
  obtain ⟨hg0, hc0⟩ := initDB_good
  obtain ⟨s2, h1, h2, h3, h4⟩ := run_good t initDB [] hg0 hc0 hnr hb
    (by show 0 + t.length < 2 ^ 64; omega)
  have hcap : s2.seqNum ≤ 2 ^ 63 - 1 := by
    have h0 : initDB.seqNum = 0 := rfl
    omega
  exact ⟨s2, h1, rfl, dbGet_tiers ft hft s2 h2 hcap k,
    tiersGet_newest k (tiers s2) (tiers_sorted s2 h2) (tiers_dom s2 h2)⟩

theorem c1_read_your_writes_witness :
    ∃ s2, runFrom initDB [.put [1] [2, 3]] = some s2 ∧
      dbGet (fun ks u => decide (u ∈ ks)) s2 [1] = (some [2, 3], true) :=
  c1_read_your_writes (fun ks u => decide (u ∈ ks)) (fun ks u hu => decide_eq_true hu)
    [.put [1] [2, 3]] [1] [2, 3] (by decide) (by decide) (by decide) (by decide)

theorem c2_delete_visibility_witness :
    ∃ s2, runFrom initDB [.put [1] [2], .del [1]] = some s2 ∧
      dbGet (fun ks u => decide (u ∈ ks)) s2 [1] = (none, false) :=
  c2_delete_visibility (fun ks u => decide (u ∈ ks)) (fun ks u hu => decide_eq_true hu)
    [.put [1] [2], .del [1]] [1] (by decide) (by decide) (by decide) (by decide)

theorem c3_tier_ordering_witness :
    ∃ s2, runFrom initDB [.put [1] [2], .put [3] [4]] = some s2 ∧
      tiers s2 = s2.mem.data :: immData s2.imm ::
        sstDesc s2.sstables (s2.ssTableCounter - 1) ∧
      dbGet (fun ks u => decide (u ∈ ks)) s2 [1] =
        engineVerdict (tiersGet [1] (tiers s2)) ∧
      (match tiersGet [1] (tiers s2) with
        | some r => r.1.userKey = [1] ∧ r ∈ (tiers s2).flatten ∧
            ∀ r2 ∈ (tiers s2).flatten, r2.1.userKey = [1] → r2.1.seqNum ≤ r.1.seqNum
        | none => ∀ r2 ∈ (tiers s2).flatten, r2.1.userKey ≠ [1]) :=
  c3_tier_ordering (fun ks u => decide (u ∈ ks)) (fun ks u hu => decide_eq_true hu)
    [.put [1] [2], .put [3] [4]] [1] (by decide) (by decide) (by decide)
